import Mathlib

/-!
# fdbx: value codec, blob store, record engine and delayed queue

A shallow embedding of `db_v610.go` and `queue_v610.go`.

* Bytes are natural numbers; a byte slice is a `List Nat`.
* The FoundationDB transaction `db.tx` is an explicit `Store`: the list of
  key/value rows in ascending key order, threaded through every operation.
* Go functions returning `(result, error)` return `Except Err _`; a Go runtime
  fault (slice index out of range) is the error `Err.outOfRange`, a loop that
  does not end is `Err.diverges`.
* Errors raised by the key-value store itself (network, commit conflicts) are
  outside the embedding: every read and write of the store succeeds.
* `conn.Key` and `conn.MKey` are not among the sources and follow the spec; the
  record interface, the index registry, `uuid.New()`, `time.Now()` and the gzip
  streams enter as parameters, and so do the fields of `options` that `Select`
  reads.
* A record that `Load` or `Select` fills is returned as the record together with
  the buffer its `Load` method was called with.
* The loop of `SubList` runs over a list of rounds, each giving what the loop
  meets from outside: the writes of other transactions, the clock, `ctx.Err()`.
  Sleeping and the watch itself are not modelled beyond whether a watch is set.
-/

namespace Fdbx

/-! ## Bytes, keys and the ordered store -/

/-- Errors of the package, and the runtime faults of the Go code. -/
inductive Err where
  | emptyID
  | memFail
  | invalidGZ
  | nullDB
  | nullModel
  | outOfRange
  | diverges
  | user (code : Nat)
  deriving DecidableEq, Repr

deriving instance DecidableEq for Except

abbrev Bytes := List Nat

/-- The byte string `fdb.Key`. -/
abbrev FdbKey := List Nat

/-- Lexicographic byte order on keys, the order of the key-value store. -/
def keyLt : FdbKey → FdbKey → Bool
  | _, [] => false
  | [], _ :: _ => true
  | a :: as, b :: bs => decide (a < b) || (decide (a = b) && keyLt as bs)

/-- Result of `binary.BigEndian.PutUint16` for the `uint16` value `n % 2^16`. -/
def be16 (n : Nat) : Bytes := [n / 256 % 256, n % 256]

/-- Result of `binary.BigEndian.PutUint64` for the `uint64` value `n % 2^64`. -/
def be64 (n : Nat) : Bytes :=
  [n / 2 ^ 56 % 256, n / 2 ^ 48 % 256, n / 2 ^ 40 % 256, n / 2 ^ 32 % 256,
   n / 2 ^ 24 % 256, n / 2 ^ 16 % 256, n / 2 ^ 8 % 256, n % 256]

/-- The `k` low base-256 digits of `n`, most significant first; `be64 n` is `beDigits 8 n`. -/
def beDigits : Nat → Nat → Bytes
  | 0, _ => []
  | k + 1, n => (n / 256 ^ k % 256) :: beDigits k n

/-- Rows of a transaction's view of the database, ascending by key. -/
abbrev Store := List (FdbKey × Bytes)

namespace Store

/-- Keys of the rows, in store order. -/
def keys (s : Store) : List FdbKey := s.map Prod.fst

/-- Well-formed store: keys strictly ascending. -/
def WF (s : Store) : Prop := s.Pairwise (fun a b => keyLt a.1 b.1 = true)

instance decidableWF (s : Store) : Decidable (WF s) :=
  inferInstanceAs (Decidable (List.Pairwise (fun (a b : FdbKey × Bytes) => keyLt a.1 b.1 = true) s))

/-- Transaction `Set(key, value)`: ordered insert, replacing an equal key. -/
def set (k : FdbKey) (v : Bytes) : Store → Store
  | [] => [(k, v)]
  | (k1, v1) :: r =>
    if keyLt k k1 then (k, v) :: (k1, v1) :: r
    else if k = k1 then (k, v) :: r
    else (k1, v1) :: set k v r

/-- Transaction `Clear(key)`. -/
def clear (k : FdbKey) (s : Store) : Store := s.filter (fun e => decide (e.1 ≠ k))

/-- Membership of a key in the half-open range `[b, e)`. -/
def inRange (b e k : FdbKey) : Bool := !keyLt k b && keyLt k e

/-- Transaction `ClearRange(KeyRange{b, e})`. -/
def clearRange (b e : FdbKey) (s : Store) : Store := s.filter (fun x => !inRange b e x.1)

/-- Transaction `GetRange(KeyRange{b, e}, RangeOptions{Limit: limit})`; limit 0 is no limit. -/
def getRange (b e : FdbKey) (limit : Nat) (s : Store) : List (FdbKey × Bytes) :=
  let rows := s.filter (fun x => inRange b e x.1)
  if limit = 0 then rows else rows.take limit

/-- Transaction `Get(key).Get()`: the value, empty when the key is absent. -/
def get (k : FdbKey) (s : Store) : Bytes := (s.lookup k).getD []

end Store

/-! ## Connection, tunables and records -/

/-- Process tunables, the gzip pair of `compress/gzip`, and the connection. -/
structure Env where
  /-- `ChunkType`, a `uint16`. -/
  ChunkType : Nat
  /-- `ChunkSize`, a Go `int`. -/
  ChunkSize : Int
  /-- `GZipSize`, a Go `int`. -/
  GZipSize : Int
  /-- `db.gzip` on a whole buffer. -/
  gzip : Bytes → Except Err Bytes
  /-- `db.gunzip` on a whole buffer. -/
  gunzip : Bytes → Except Err Bytes
  /-- `db.conn.DB()`, a `uint16`. -/
  dbnum : Nat
  /-- `db.conn.Indexes(type)`: the index functions registered for a type. -/
  indexes : Nat → List (Bytes → Except Err FdbKey)

/-- Modelled from the spec: `conn.Key(ctype, id)`, whose body is not in the sources.
`DBNUM (u16, BE) ‖ CTYPE (u16, BE) ‖ ID`; fails only if `id` is empty. -/
def Env.Key (env : Env) (ctype : Nat) (id : Bytes) : Except Err FdbKey :=
  if id = [] then .error .emptyID else .ok (be16 env.dbnum ++ be16 ctype ++ id)

/-- A record as the engine sees it: the results of `ID()`, `Type()`, `Dump()`, `Pack()`, and
the error (`ok` for `nil`) that `Load(buffer)` returns when it fills the record from a buffer. -/
structure Model where
  id : Bytes
  type : Nat
  dump : Bytes
  pack : Except Err Bytes
  load : Bytes → Except Err Unit := fun _ => .ok ()

/-- Modelled from the spec: `conn.MKey(m)` is `key(m.type(), m.id())`. -/
def Env.MKey (env : Env) (m : Model) : Except Err FdbKey := env.Key m.type m.id

def flagGZip : Nat := 64

def flagChunk : Nat := 128

/-! ## Codec and blob store (`db_v610.go`) -/

/-- `gzipValue`: sets the GZIP flag, then compresses. -/
def gzipValue (env : Env) (flags : Nat) (value : Bytes) : Except Err (Nat × Bytes) :=
  match env.gzip value with
  | .error e => .error e
  | .ok z => .ok (flags ||| flagGZip, z)

/-- `gunzipValue`. -/
def gunzipValue (env : Env) (value : Bytes) : Except Err Bytes := env.gunzip value

/-- The loop `for !last` of `saveBlob`; `i` is the `uint16` chunk counter.
Each unit of fuel is one iteration. -/
def saveBlobLoop (env : Env) (key : FdbKey) : Nat → Nat → Bytes → Store → Except Err Store
  | 0, _, _, _ => .error .diverges
  | fuel + 1, i, blob, s =>
    if (blob.length : Int) ≤ env.ChunkSize then
      .ok (s.set (key ++ be16 i) blob)
    else if env.ChunkSize < 0 then
      .error .outOfRange
    else
      saveBlobLoop env key fuel ((i + 1) % 65536) (blob.drop env.ChunkSize.toNat)
        (s.set (key ++ be16 i) (blob.take env.ChunkSize.toNat))

/-- `saveBlob`: sets the CHUNK flag and writes the chunks under `blobID`, the
value of `uuid.New()`. -/
def saveBlob (env : Env) (blobID : Bytes) (flags : Nat) (blob : Bytes) (s : Store) :
    Except Err (Nat × Bytes × Store) :=
  match env.Key env.ChunkType blobID with
  | .error e => .error e
  | .ok key =>
    match saveBlobLoop env key (blob.length + 1) 0 blob s with
    | .error e => .error e
    | .ok s1 => .ok (flags ||| flagChunk, blobID, s1)

/-- `loadBlob`: concatenates the values of the range `[key, key ‖ 0xFF)`. -/
def loadBlob (env : Env) (value : Bytes) (s : Store) : Except Err Bytes :=
  match env.Key env.ChunkType value with
  | .error e => .error e
  | .ok key => .ok ((s.getRange key (key ++ [255]) 0).map Prod.snd).flatten

/-- `dropBlob`: clears the range `[key, key ‖ 0xFF)`. -/
def dropBlob (env : Env) (value : Bytes) (s : Store) : Except Err Store :=
  match env.Key env.ChunkType value with
  | .error e => .error e
  | .ok key => .ok (s.clearRange key (key ++ [255]))

/-- The gzip step of `pack`: flags and buffer after `if len(buffer) > GZipSize`. -/
def packGZip (env : Env) (buffer : Bytes) : Except Err (Nat × Bytes) :=
  if (buffer.length : Int) > env.GZipSize then gzipValue env 0 buffer else .ok (0, buffer)

/-- `pack`. -/
def pack (env : Env) (blobID : Bytes) (buffer : Bytes) (s : Store) : Except Err (Bytes × Store) :=
  match packGZip env buffer with
  | .error e => .error e
  | .ok (flags, buffer) =>
    if (buffer.length : Int) > env.ChunkSize then
      match saveBlob env blobID flags buffer s with
      | .error e => .error e
      | .ok (flags, buffer, s1) => .ok (flags :: buffer, s1)
    else .ok (flags :: buffer, s)

/-- `unpack`: returns `(blobID, buffer)`; `blobID` is `none` for Go's `nil`. -/
def unpack (env : Env) (value : Bytes) (s : Store) : Except Err (Option Bytes × Bytes) :=
  match value with
  | [] => .error .outOfRange
  | flags :: buffer =>
    let step : Except Err (Option Bytes × Bytes) :=
      if flags &&& flagChunk > 0 then
        match loadBlob env buffer s with
        | .error e => .error e
        | .ok blob => .ok (some buffer, blob)
      else .ok (none, buffer)
    match step with
    | .error e => .error e
    | .ok (blobID, buffer) =>
      if flags &&& flagGZip > 0 then
        match gunzipValue env buffer with
        | .error e => .error e
        | .ok plain => .ok (blobID, plain)
      else .ok (blobID, buffer)

/-! ## Reference description of a chunked blob -/

/-- Piece `j` of a blob cut into pieces of `cs` bytes. -/
def specChunk (cs : Nat) (blob : Bytes) (j : Nat) : Bytes := (blob.drop (j * cs)).take cs

/-- Number of pieces of a blob cut into pieces of `cs` bytes: `ceil(len / cs)`, and 1 for the
empty blob. -/
def specChunkCount (cs : Nat) (blob : Bytes) : Nat := (blob.length - 1) / cs + 1

/-- The store after writing pieces `0 .. n-1` of a blob, piece `j` under `key ‖ (i + j)_u16_BE`. -/
def specWriteChunks (key : FdbKey) (cs i : Nat) (blob : Bytes) (n : Nat) (s : Store) : Store :=
  (List.range n).foldl (fun st j => st.set (key ++ be16 (i + j)) (specChunk cs blob j)) s

/-- The key prefix `conn.Key(ChunkType, blobID)` under which the chunks of a blob live. -/
def Env.chunkKey (env : Env) (blobID : Bytes) : FdbKey :=
  be16 env.dbnum ++ be16 env.ChunkType ++ blobID

/-- A blob id is fresh for a store that has no row in the blob's key range. -/
def Fresh (env : Env) (blobID : Bytes) (s : Store) : Prop :=
  s.getRange (env.chunkKey blobID) (env.chunkKey blobID ++ [255]) 0 = []

instance Fresh.decidable (env : Env) (blobID : Bytes) (s : Store) :
    Decidable (Fresh env blobID s) :=
  inferInstanceAs (Decidable (s.getRange (env.chunkKey blobID) (env.chunkKey blobID ++ [255]) 0 = []))

/-- The assumption that `gunzip` inverts `gzip`. -/
def GzInverse (env : Env) : Prop :=
  ∀ y : Bytes, ∃ z, env.gzip y = .ok z ∧ env.gunzip z = .ok y

/-! ## Record engine (`db_v610.go`) -/

/-- `Get`. -/
def Get (env : Env) (ctype : Nat) (id : Bytes) (s : Store) : Except Err Bytes :=
  match env.Key ctype id with
  | .error e => .error e
  | .ok key => .ok (s.get key)

/-- `Set`. -/
def Set (env : Env) (ctype : Nat) (id value : Bytes) (s : Store) : Except Err Store :=
  match env.Key ctype id with
  | .error e => .error e
  | .ok key => .ok (s.set key value)

/-- `Del`. -/
def Del (env : Env) (ctype : Nat) (id : Bytes) (s : Store) : Except Err Store :=
  match env.Key ctype id with
  | .error e => .error e
  | .ok key => .ok (s.clear key)

/-- The loop `for _, index := range indexes` that clears the index keys of a buffer
(in `save` for the old dump, in `drop` for the stored value). -/
def clearIndexes : List (Bytes → Except Err FdbKey) → Bytes → Store → Except Err Store
  | [], _, s => .ok s
  | index :: rest, buf, s =>
    match index buf with
    | .error e => .error e
    | .ok idx => clearIndexes rest buf (s.clear idx)

/-- The loop `for _, index := range indexes` of `save` that sets the new index keys to `nil`. -/
def setIndexes : List (Bytes → Except Err FdbKey) → Bytes → Store → Except Err Store
  | [], _, s => .ok s
  | index :: rest, buf, s =>
    match index buf with
    | .error e => .error e
    | .ok idx => setIndexes rest buf (s.set idx [])

/-- `save`; `blobID` is the value `uuid.New()` returns if the payload is chunked. -/
def save (env : Env) (blobID : Bytes) (m : Model) (s : Store) : Except Err Store :=
  match env.MKey m with
  | .error e => .error e
  | .ok key =>
    let indexes := env.indexes m.type
    let cleared : Except Err Store :=
      if m.dump.length > 0 then clearIndexes indexes m.dump s else .ok s
    match cleared with
    | .error e => .error e
    | .ok s1 =>
      match m.pack with
      | .error e => .error e
      | .ok value =>
        match setIndexes indexes value s1 with
        | .error e => .error e
        | .ok s2 =>
          match pack env blobID value s2 with
          | .error e => .error e
          | .ok (packed, s3) => .ok (s3.set key packed)

/-- `Save`: each record comes with the blob id drawn for it. -/
def Save (env : Env) : List (Bytes × Model) → Store → Except Err Store
  | [], s => .ok s
  | (blobID, m) :: rest, s =>
    match save env blobID m s with
    | .error e => .error e
    | .ok s1 => Save env rest s1

/-- `drop`; `value` is the result of the future `fb`. -/
def drop (env : Env) (m : Model) (value : Bytes) (s : Store) : Except Err Store :=
  if value.length = 0 then .ok s
  else
    match unpack env value s with
    | .error e => .error e
    | .ok (blobID, value) =>
      let dropped : Except Err Store :=
        match blobID with
        | some id => dropBlob env id s
        | none => .ok s
      match dropped with
      | .error e => .error e
      | .ok s1 => clearIndexes (env.indexes m.type) value s1

/-- First loop of `Drop`: the keys of the records and the values their futures resolve to,
read from the store as it is when the futures are issued. -/
def dropFutures (env : Env) (s : Store) : List Model → Except Err (List (Model × FdbKey × Bytes))
  | [] => .ok []
  | m :: rest =>
    match env.MKey m with
    | .error e => .error e
    | .ok key =>
      match dropFutures env s rest with
      | .error e => .error e
      | .ok l => .ok ((m, key, s.get key) :: l)

/-- Second loop of `Drop`. -/
def dropAll (env : Env) : List (Model × FdbKey × Bytes) → Store → Except Err Store
  | [], s => .ok s
  | (m, key, value) :: rest, s =>
    match drop env m value s with
    | .error e => .error e
    | .ok s1 => dropAll env rest (s1.clear key)

/-- `Drop`. -/
def Drop (env : Env) (models : List Model) (s : Store) : Except Err Store :=
  match dropFutures env s models with
  | .error e => .error e
  | .ok l => dropAll env l s

/-! ## Index keys and key lists, for the statements about `save` and `drop` -/

/-- The keys the index functions of a type compute from a buffer, in registration order;
the error of the first index function that fails. -/
def indexKeys : List (Bytes → Except Err FdbKey) → Bytes → Except Err (List FdbKey)
  | [], _ => .ok []
  | index :: rest, buf =>
    match index buf with
    | .error e => .error e
    | .ok idx =>
      match indexKeys rest buf with
      | .error e => .error e
      | .ok ks => .ok (idx :: ks)

/-- The store after `Clear` of each key of a list, in order. -/
def Store.clearAll (ks : List FdbKey) (s : Store) : Store := ks.foldl (fun st k => st.clear k) s

/-- The store after `Set(k, nil)` for each key of a list, in order. -/
def Store.setAll (ks : List FdbKey) (s : Store) : Store := ks.foldl (fun st k => st.set k []) s

/-- The key prefix of the chunk collection, `DBNUM ‖ ChunkType`. -/
def Env.chunkPrefix (env : Env) : FdbKey := be16 env.dbnum ++ be16 env.ChunkType

/-! ## Queue (`queue_v610.go`) -/

/-- A `time.Time` as the queue sees it: `IsZero()` and the `int64` of `UnixNano()`. -/
structure Time where
  isZero : Bool
  unixNano : Int

/-- Conversion `uint64(x)` of an `int64`. -/
def u64 (x : Int) : Nat := (x % 2 ^ 64).toNat

/-- The id part of the pending key built by `Pub`: `time_u64_BE ‖ mid`. -/
def pendingID (t : Int) (mid : Bytes) : Bytes := be64 (u64 t) ++ mid

/-- `Pub` for queue collection `qid`; `db` and `m` are `none` for Go's `nil`, `now` is the
`UnixNano()` of `time.Now()`. -/
def Pub (env : Env) (qid : Nat) (db : Option Store) (m : Option Model) (t : Time) (now : Int) :
    Except Err Store :=
  match db with
  | none => .error .nullDB
  | some s =>
    match m with
    | none => .error .nullModel
    | some m =>
      let t := if t.isZero then now else t.unixNano
      let key := pendingID t m.id
      match Set env qid key [] s with
      | .error e => .error e
      | .ok s1 => Set env qid [255, 255] (key.take 8) s1

/-- `Ack`. -/
def Ack (env : Env) (qid : Nat) (db : Option Store) (m : Option Model) : Except Err Store :=
  match db with
  | none => .error .nullDB
  | some s =>
    match m with
    | none => .error .nullModel
    | some m => Del env qid (255 :: m.id) s

/-- The loop `for i := range rows` of the claim transaction of `SubList`. -/
def claimRows (env : Env) (qid : Nat) :
    List (FdbKey × Bytes) → List Bytes → Store → Except Err (List Bytes × Store)
  | [], ids, s => .ok (ids, s)
  | row :: rest, ids, s =>
    if row.1.length < 12 then .error .outOfRange
    else
      let mid := row.1.drop 12
      match env.Key qid (255 :: mid) with
      | .error e => .error e
      | .ok ack => claimRows env qid rest (ids ++ [mid]) ((s.set ack []).clear row.1)

/-- The claim transaction of `SubList`: returns the claimed `ids`, whether a watch on the
watch key was set up, and the store. `listLen` is `len(list)`; `make([][]byte, 0, limit)`
faults for a negative `limit`. -/
def claim (env : Env) (qid : Nat) (limit : Int) (listLen : Nat) (now : Int) (s : Store) :
    Except Err (List Bytes × Bool × Store) :=
  if limit < 0 then .error .outOfRange
  else
    match env.Key qid [0] with
    | .error e => .error e
    | .ok krBegin =>
      match env.Key qid (be64 (u64 now)) with
      | .error e => .error e
      | .ok krEnd =>
        let lim : Int := limit - listLen
        if lim < 1 then .ok ([], false, s)
        else
          let rows := s.getRange krBegin krEnd lim.toNat
          if rows.length = 0 then .ok ([], true, s)
          else
            match claimRows env qid rows [] s with
            | .error e => .error e
            | .ok (ids, s1) => .ok (ids, false, s1)

/-- The pending key `conn.Key(q.id, time_u64_BE ‖ mid)` that `Pub` sets. -/
def Env.pendingKey (env : Env) (qid : Nat) (t : Int) (mid : Bytes) : FdbKey :=
  be16 env.dbnum ++ be16 qid ++ pendingID t mid

/-- The watch key `q.wk`, `conn.Key(qtype, [0xFF, 0xFF])`. -/
def Env.watchKey (env : Env) (qid : Nat) : FdbKey := be16 env.dbnum ++ be16 qid ++ [255, 255]

/-- The lost key `conn.Key(q.id, 0xFF ‖ mid)` set by the claim transaction and cleared by `Ack`. -/
def Env.lostKey (env : Env) (qid : Nat) (mid : Bytes) : FdbKey :=
  be16 env.dbnum ++ be16 qid ++ 255 :: mid

/-- The rows the claim transaction reads: the first `lim` rows of
`[conn.Key(q.id, [0x00]), conn.Key(q.id, now_u64_BE))`. -/
def dueRows (env : Env) (qid : Nat) (now : Int) (lim : Nat) (s : Store) : List (FdbKey × Bytes) :=
  s.getRange (be16 env.dbnum ++ be16 qid ++ [0]) (be16 env.dbnum ++ be16 qid ++ be64 (u64 now)) lim

/-- One iteration of the loop of the claim transaction: set the lost key, clear the row. -/
def claimStep (env : Env) (qid : Nat) (st : Store) (row : FdbKey × Bytes) : Store :=
  (st.set (env.lostKey qid (row.1.drop 12)) []).clear row.1

/-! ## Queue histories -/

/-- The rows of the pending range `q.kr`, `[conn.Key(qtype, [0x00]), conn.Key(qtype, [0xFF]))`. -/
def pendingRows (env : Env) (qid : Nat) (s : Store) : List (FdbKey × Bytes) :=
  s.getRange (be16 env.dbnum ++ be16 qid ++ [0]) (be16 env.dbnum ++ be16 qid ++ [255]) 0

/-- Number of pending entries carrying record id `id`: rows of the pending range whose key
bytes after the 12-byte prefix are `id`. -/
def pendingCount (env : Env) (qid : Nat) (id : Bytes) (s : Store) : Nat :=
  (pendingRows env qid s).countP (fun r => decide (r.1.drop 12 = id))

/-- Number of lost entries for record id `id`: 1 if the lost key `0xFF ‖ id` is present. -/
def lostCount (env : Env) (qid : Nat) (id : Bytes) (s : Store) : Nat :=
  if (s.lookup (env.lostKey qid id)).isSome then 1 else 0

/-- An operation on one queue: `Pub(db, m, t)` at clock `now`, the claim transaction of
`SubList(ctx, limit)` with `len(list) = listLen` at clock `now`, or `Ack(db, m)`. -/
inductive QueueOp where
  | pub (m : Model) (t : Time) (now : Int)
  | claim (limit : Int) (listLen : Nat) (now : Int)
  | ack (m : Model)

/-- Effect of an operation on the store. -/
def QueueOp.run (env : Env) (qid : Nat) : QueueOp → Store → Except Err Store
  | .pub m t now, s => Pub env qid (some s) (some m) t now
  | .claim limit listLen now, s =>
    match Fdbx.claim env qid limit listLen now s with
    | .error e => .error e
    | .ok (_, _, s1) => .ok s1
  | .ack m, s => Ack env qid (some s) (some m)

/-- 1 if the operation is a `Pub` of record id `id`. -/
def QueueOp.pubs (id : Bytes) : QueueOp → Nat
  | .pub m _ _ => if m.id = id then 1 else 0
  | _ => 0

/-- 1 if the operation is an `Ack` of record id `id` that deletes a lost entry of store `s`. -/
def QueueOp.acks (env : Env) (qid : Nat) (id : Bytes) (s : Store) : QueueOp → Nat
  | .ack m => if m.id = id then lostCount env qid id s else 0
  | _ => 0

/-- The firing time of a `Pub` and the clock of a claim are at or after the epoch and fit an
`int64`; a claim runs under the loop guard `len(list) < limit` of `SubList`. -/
def QueueOp.timely : QueueOp → Prop
  | .pub _ t now => 0 ≤ (if t.isZero then now else t.unixNano) ∧
      (if t.isZero then now else t.unixNano) < 2 ^ 63
  | .claim limit listLen now => 0 ≤ now ∧ now < 2 ^ 63 ∧ (listLen : Int) < limit
  | .ack _ => True

/-- Runs a history; the state is the store, the number of `Ack` calls so far that deleted a
lost entry of `id`, and the number of `Pub` calls so far for `id`. -/
def runQueue (env : Env) (qid : Nat) (id : Bytes) :
    List QueueOp → Store × Nat × Nat → Except Err (Store × Nat × Nat)
  | [], st => .ok st
  | op :: rest, (s, acked, pubs) =>
    match op.run env qid s with
    | .error e => .error e
    | .ok s1 => runQueue env qid id rest (s1, acked + op.acks env qid id s, pubs + op.pubs id)

/-- The invariant of a queue history for record id `id`: the store is ordered, the rows of the
pending range are at least 12 bytes long, pending + lost + acked is at most the number of
`Pub` calls, and equals it while that number is at most 1. -/
def QueueInv (env : Env) (qid : Nat) (id : Bytes) (st : Store × Nat × Nat) : Prop :=
  st.1.WF ∧ (∀ r ∈ pendingRows env qid st.1, 12 ≤ r.1.length) ∧
  pendingCount env qid id st.1 + lostCount env qid id st.1 + st.2.1 ≤ st.2.2 ∧
  (st.2.2 ≤ 1 →
    pendingCount env qid id st.1 + lostCount env qid id st.1 + st.2.1 = st.2.2)

instance QueueOp.decidableTimely (op : QueueOp) : Decidable op.timely := by
  cases op <;> unfold QueueOp.timely <;> infer_instance


/-! ## Waiting for the next task (`queue_v610.go`) -/

/-- Wrap-around of an integer to an `int64`: Go's conversions to and arithmetic on `int64` and
`time.Duration`. -/
def i64 (x : Int) : Int := (x + 2 ^ 63) % 2 ^ 64 - 2 ^ 63

/-- `binary.BigEndian.Uint64` of a slice of 8 bytes. -/
def beUint64 (b : Bytes) : Nat := b.foldl (fun acc x => acc * 256 + x) 0

/-- `t.Sub(u)` for two times given by their nanoseconds since the epoch: the difference, or the
largest or smallest `time.Duration` when the difference does not fit one. -/
def timeSub (t u : Int) : Int :=
  if t - u > 2 ^ 63 - 1 then 2 ^ 63 - 1
  else if t - u < -(2 ^ 63) then -(2 ^ 63)
  else t - u

/-- `nextTaskDistance`, in nanoseconds. `punchSize` is the tunable `PunchSize`, `now` the
nanoseconds since the epoch of `time.Now()`; the range read is `q.kr`, set by `newV610queue` to
`[conn.Key(qtype, [0x00]), conn.Key(qtype, [0xFF]))`. -/
def nextTaskDistance (env : Env) (qid : Nat) (punchSize now : Int) (s : Store) : Except Err Int :=
  match env.Key qid [0] with
  | .error e => .error e
  | .ok krBegin =>
    match env.Key qid [255] with
    | .error e => .error e
    | .ok krEnd =>
      match s.getRange krBegin krEnd 1 with
      | [] => .ok punchSize
      | row :: _ =>
        if row.1.length < 12 then .error .outOfRange
        else
          let wait := timeSub (i64 (beUint64 ((row.1.drop 4).take 8))) now
          if wait > 0 then .ok (i64 (wait + 1000000)) else .ok punchSize

/-! ## Loading records (`db_v610.go`) -/

/-- A record after `Load` or `Select`: the record, and the buffer its `Load` method was called
with; `none` when the method was not called. -/
abbrev Loaded := Model × Option Bytes

/-- `load`; `value` is the result of the future `fb`. Returns the buffer `m.Load` was called
with, if it was called, and the error returned. -/
def load (env : Env) (m : Model) (value : Bytes) (s : Store) : Option Bytes × Except Err Unit :=
  if value.length = 0 then (none, .ok ())
  else
    match unpack env value s with
    | .error e => (none, .error e)
    | .ok (_, value) => (some value, m.load value)

/-- First loop of `Load`: the values the futures of the records resolve to, read from the store
as it is when the futures are issued. -/
def loadFutures (env : Env) (s : Store) : List Model → Except Err (List Bytes)
  | [] => .ok []
  | m :: rest =>
    match env.MKey m with
    | .error e => .error e
    | .ok key =>
      match loadFutures env s rest with
      | .error e => .error e
      | .ok l => .ok (s.get key :: l)

/-- Second loop of `Load`: `db.load` on each record and its future, up to the first error;
the records after it are not reached. -/
def loadAll (env : Env) (s : Store) : List Model → List Bytes → List Loaded × Except Err Unit
  | m :: models, value :: futures =>
    match load env m value s with
    | (o, .error e) => ((m, o) :: models.map (fun x => (x, none)), .error e)
    | (o, .ok _) =>
      let r := loadAll env s models futures
      ((m, o) :: r.1, r.2)
  | models, _ => (models.map (fun x => (x, none)), .ok ())

/-- `Load`: the records after the call, and the error returned. -/
def Load (env : Env) (models : List Model) (s : Store) : List Loaded × Except Err Unit :=
  match loadFutures env s models with
  | .error e => (models.map (fun x => (x, none)), .error e)
  | .ok futures => loadAll env s models futures

/-- The value stored under a record's primary key, empty when the key is absent: what the future
`db.tx.Get(conn.MKey(m))` resolves to. -/
def Env.stored (env : Env) (s : Store) (m : Model) : Bytes :=
  match env.MKey m with
  | .ok key => s.get key
  | .error _ => []

/-! ## Select (`db_v610.go`) -/

/-- The fields of `options` that `Select` reads; the type is declared outside the sources.
`gte`, `lt` and `filter` are `none` for Go's `nil`; the defaults are Go's zero values. -/
structure Options where
  limit : Int := 0
  gte : Option Bytes := none
  lt : Option Bytes := none
  idlen : Int := 0
  pflen : Int := 0
  filter : Option (Bytes → Except Err Bool) := none

/-- The loop `for i := range opts` of `Select`: each option updates `o` or fails. -/
def applyOptions : List (Options → Except Err Options) → Options → Except Err Options
  | [], o => .ok o
  | opt :: rest, o =>
    match opt o with
    | .error e => .error e
    | .ok o1 => applyOptions rest o1

/-- The record id `Select` takes from a row key: the last `idlen` bytes, or the key without its
first `pflen` bytes, or else the value `mid` left by the previous row. -/
def selectMid (o : Options) (key : FdbKey) (mid : Bytes) : Except Err Bytes :=
  if o.idlen > 0 then
    if (key.length : Int) - o.idlen < 0 then .error .outOfRange
    else .ok (key.drop ((key.length : Int) - o.idlen).toNat)
  else if o.pflen > 0 then
    if o.pflen > key.length then .error .outOfRange
    else .ok (key.drop o.pflen.toNat)
  else .ok mid

/-- The loop `for i := range rows` of `Select`; `mid` and `list` are the loop's variables. -/
def selectRows (env : Env) (fab : Bytes → Except Err Model) (o : Options) (s : Store) :
    List (FdbKey × Bytes) → Bytes → List Loaded → Except Err (List Loaded)
  | [], _, list => .ok list
  | row :: rest, mid, list =>
    match selectMid o row.1 mid with
    | .error e => .error e
    | .ok mid =>
      match unpack env row.2 s with
      | .error e => .error e
      | .ok (_, value) =>
        let added : Except Err Bool :=
          match o.filter with
          | some f => f value
          | none => .ok true
        match added with
        | .error e => .error e
        | .ok add =>
          if !add then selectRows env fab o s rest mid list
          else
            match fab mid with
            | .error e => .error e
            | .ok m =>
              match m.load value with
              | .error e => .error e
              | .ok _ => selectRows env fab o s rest mid (list ++ [(m, some value)])

/-- `Select`; `fab` is the `Fabric`. -/
def Select (env : Env) (ctype : Nat) (fab : Bytes → Except Err Model)
    (opts : List (Options → Except Err Options)) (s : Store) : Except Err (List Loaded) :=
  match applyOptions opts {} with
  | .error e => .error e
  | .ok o =>
    let limit : Nat := if o.limit > 0 then o.limit.toNat else 0
    let gte : Bytes := match o.gte with
      | some g => g
      | none => [0]
    match env.Key ctype gte with
    | .error e => .error e
    | .ok krBegin =>
      let lt : Bytes := match o.lt with
        | some l => l
        | none => [255]
      match env.Key ctype lt with
      | .error e => .error e
      | .ok krEnd => selectRows env fab o s (s.getRange krBegin krEnd limit) [] []

/-! ## Reference description of `Select` -/

/-- The rows of the range `[key(ctype, gte), key(ctype, lt))`, `gte` defaulting to `0x00` and `lt`
to `0xFF`, in store order, cut to the first `limit` rows when `limit > 0`. -/
def specSelectRange (env : Env) (ctype : Nat) (o : Options) (s : Store) : List (FdbKey × Bytes) :=
  let rows := s.filter (fun r =>
    !keyLt r.1 (be16 env.dbnum ++ be16 ctype ++ o.gte.getD [0]) &&
      keyLt r.1 (be16 env.dbnum ++ be16 ctype ++ o.lt.getD [255]))
  if o.limit > 0 then rows.take o.limit.toNat else rows

/-- The record id of a row: the last `idlen` bytes of the key, or the key without its first
`pflen` bytes; empty when neither option is given. -/
def specMid (o : Options) (key : FdbKey) : Bytes :=
  if o.idlen > 0 then key.drop (key.length - o.idlen.toNat)
  else if o.pflen > 0 then key.drop o.pflen.toNat
  else []

/-- Row `row` of a `Select` decodes: its key is long enough for the `idlen` or `pflen` option,
its value unpacks to `payload row`, the filter (if there is one) returns `keep row` and no
error, and for a row that is kept the fabric returns `recOf row`, whose `Load` accepts the
payload. -/
def RowDecodes (env : Env) (fab : Bytes → Except Err Model) (o : Options) (s : Store)
    (payload : FdbKey × Bytes → Bytes) (keep : FdbKey × Bytes → Bool)
    (recOf : FdbKey × Bytes → Model) (row : FdbKey × Bytes) : Prop :=
  (0 < o.idlen → o.idlen ≤ row.1.length) ∧
  (o.idlen ≤ 0 → o.pflen ≤ row.1.length) ∧
  (∃ b, unpack env row.2 s = .ok (b, payload row)) ∧
  (∀ f, o.filter = some f → f (payload row) = .ok (keep row)) ∧
  (o.filter = none → keep row = true) ∧
  (keep row = true →
    fab (specMid o row.1) = .ok (recOf row) ∧ (recOf row).load (payload row) = .ok ())

/-! ## Lost entries (`queue_v610.go`) -/

/-- `GetLost` of the queue `qid`; `s` is the database the queue is connected to. The body is
`return nil, nil`. -/
def GetLost (_env : Env) (_qid : Nat) (_limit : Int) (_s : Store) : Except Err (List Model) :=
  .ok []

/-! ## Subscribing (`queue_v610.go`) -/

/-- What one round of the loop of `SubList` meets from outside: the writes other transactions
committed since the round before, the clock when `nextTaskDistance` runs, the writes committed
while the round waits, the error of `ctx.Err()` (`none` for `nil`), and the clock of the claim
transaction. -/
structure Tick where
  others : Store → Store
  nowDistance : Int
  woken : Store → Store
  ctxErr : Option Err
  now : Int

/-- The loop `for i := range ids` of `SubList` that makes the records: `q.mf(ids[i])`. -/
def makeModels (mf : Bytes → Except Err Model) : List Bytes → Except Err (List Model)
  | [] => .ok []
  | id :: rest =>
    match mf id with
    | .error e => .error e
    | .ok m =>
      match makeModels mf rest with
      | .error e => .error e
      | .ok ms => .ok (m :: ms)

/-- The loop `for len(list) < limit` of `SubList`, one tick per round; `wait` tells whether a
watch is set (`wait != nil`). The loop ends only by its guard or an error: it diverges when the
ticks run out. The records are returned as `Load` left them. -/
def subListLoop (env : Env) (qid : Nat) (punchSize : Int) (mf : Bytes → Except Err Model)
    (limit : Int) : List Tick → List Loaded → Bool → Store → Except Err (List Loaded × Store)
  | [], list, _, s => if (list.length : Int) < limit then .error .diverges else .ok (list, s)
  | tk :: ticks, list, wait, s =>
    if ¬ ((list.length : Int) < limit) then .ok (list, s)
    else
      let s0 := tk.others s
      let punch : Except Err Int :=
        if wait then nextTaskDistance env qid punchSize tk.nowDistance s0 else .ok 0
      match punch with
      | .error e => .error e
      | .ok _ =>
        let s0 := tk.woken s0
        match tk.ctxErr with
        | some e => .error e
        | none =>
          match claim env qid limit list.length tk.now s0 with
          | .error e => .error e
          | .ok (ids, watch, s1) =>
            if ids.length = 0 then
              subListLoop env qid punchSize mf limit ticks list (wait || watch) s1
            else
              match makeModels mf ids with
              | .error e => .error e
              | .ok models =>
                match Load env models s1 with
                | (_, .error e) => .error e
                | (loaded, .ok _) =>
                  subListLoop env qid punchSize mf limit ticks (list ++ loaded) (wait || watch) s1

/-- `SubList(ctx, limit)`: the records and the store afterwards. -/
def SubList (env : Env) (qid : Nat) (punchSize : Int) (mf : Bytes → Except Err Model)
    (limit : Int) (ticks : List Tick) (s : Store) : Except Err (List Loaded × Store) :=
  subListLoop env qid punchSize mf limit ticks [] false s

/-- `SubOne(ctx)`: `list[0]` of `SubList(ctx, 1)`. -/
def SubOne (env : Env) (qid : Nat) (punchSize : Int) (mf : Bytes → Except Err Model)
    (ticks : List Tick) (s : Store) : Except Err (Loaded × Store) :=
  match SubList env qid punchSize mf 1 ticks s with
  | .error e => .error e
  | .ok (list, s1) =>
    match list with
    | [] => .error .outOfRange
    | m :: _ => .ok (m, s1)

/-! ## Clearing a database (`db_v610.go`) -/

/-- `ClearAll`: clears the range from `DBNUM` to `DBNUM ‖ 0xFFFF ‖ 0xFF`. -/
def ClearAll (env : Env) (s : Store) : Except Err Store :=
  let dbtype := env.dbnum
  let kbegin : FdbKey := be16 dbtype
  let kend : FdbKey := be16 dbtype ++ be16 65535 ++ [255]
  .ok (s.clearRange kbegin kend)

/-! ## Sample data for the worked examples -/

/-- A stand-in compressor: the two gzip magic bytes followed by the data. -/
def sampleGzip (y : Bytes) : Except Err Bytes := .ok (31 :: 139 :: y)

/-- The decompressor of `sampleGzip`; anything without the magic bytes is malformed. -/
def sampleGunzip : Bytes → Except Err Bytes
  | 31 :: 139 :: y => .ok y
  | _ => .error .invalidGZ

/-- Database 1 with the default chunk collection `0xFFFF`, given tunables and index functions. -/
def sampleEnv (chunkSize gzipSize : Int) (ix : Nat → List (Bytes → Except Err FdbKey)) : Env where
  ChunkType := 65535
  ChunkSize := chunkSize
  GZipSize := gzipSize
  gzip := sampleGzip
  gunzip := sampleGunzip
  dbnum := 1
  indexes := ix

/-- A 16-byte blob id. -/
def sampleBlobID : Bytes := [16, 15, 14, 13, 12, 11, 10, 9, 8, 7, 6, 5, 4, 3, 2, 1]

/-- The tunables of the chunking example: `ChunkSize = 100000`, no gzip below a megabyte. -/
def exampleEnv : Env := sampleEnv 100000 1000000 (fun _ => [])

/-- A blob of 250000 bytes `x`. -/
def exampleBlob : Bytes := List.replicate 250000 120

/-- A record with a given id, of collection 7, never loaded, marshalling to `[1]`. -/
def sampleModel (id : Bytes) : Model where
  id := id
  type := 7
  dump := []
  pack := .ok [1]

/-- An index function: index collection 8 of database 1, keyed by the first byte of the buffer. -/
def sampleIndex (buf : Bytes) : Except Err FdbKey := .ok ([0, 1, 0, 8] ++ buf.take 1)

/-- The index registry: `sampleIndex` for record type 7, nothing for other types. -/
def sampleIndexes (type : Nat) : List (Bytes → Except Err FdbKey) :=
  if type = 7 then [sampleIndex] else []

/-- The record of type 7 with id `[1]`, a given previous dump and a given marshalled buffer. -/
def sampleRecord (dump buf : Bytes) : Model where
  id := [1]
  type := 7
  dump := dump
  pack := .ok buf

/-- Keys of index collection 8 of database 1. -/
abbrev sampleIndexSpace (k : FdbKey) : Prop := k.take 4 = [0, 1, 0, 8]

/-- A second 16-byte blob id. -/
def sampleBlobID2 : Bytes := [9, 9, 9, 9, 9, 9, 9, 9, 9, 9, 9, 9, 9, 9, 9, 9]

/-- Queue 9 of database 1 after `Pub` of record `[1]` for time 5 and of record `[2]` for
time 200. -/
def sampleQueue : Store :=
  [([0, 1, 0, 9, 0, 0, 0, 0, 0, 0, 0, 5, 1], []),
   ([0, 1, 0, 9, 0, 0, 0, 0, 0, 0, 0, 200, 2], []),
   ([0, 1, 0, 9, 255, 255], [0, 0, 0, 0, 0, 0, 0, 200])]

/-- Collection 7 of database 1 with three records: `[1]` stored plain with payload `[5, 6]`,
`[2]` stored gzipped with payload `[8]`, `[4]` stored plain with payload `[9]`. -/
def sampleRecords : Store :=
  [([0, 1, 0, 7, 1], [0, 5, 6]),
   ([0, 1, 0, 7, 2], [64, 31, 139, 8]),
   ([0, 1, 0, 7, 4], [0, 9])]

/-- A fabric: the record of collection 7 with the given id. -/
def sampleFabric (id : Bytes) : Except Err Model := .ok (sampleModel id)

/-- The options `limit = 2`, `pflen = 4`. -/
def sampleOptions : List (Options → Except Err Options) :=
  [fun o => .ok { o with limit := 2 }, fun o => .ok { o with pflen := 4 }]

/-- Collection 7 of database 1 with one row whose value has the GZIP flag and a body that is
not a gzip stream. -/
def sampleBadRecords : Store := [([0, 1, 0, 7, 1], [64, 0])]

/-- Two quiet rounds: nothing else writes, the context is live, the clock reads 3 and then 100. -/
def sampleTicks : List Tick :=
  [{ others := id, nowDistance := 3, woken := id, ctxErr := none, now := 3 },
   { others := id, nowDistance := 4, woken := id, ctxErr := none, now := 100 }]

/-- Database 1 after `Save` of the record `[1]` of type 7 with buffer `[5, 6]`: the packed
record, and its index entry in collection 8 with an empty value. -/
def sampleIndexed : Store := [([0, 1, 0, 7, 1], [0, 5, 6]), ([0, 1, 0, 8, 5], [])]

/-- A version-4 UUID whose first byte is `0xFF`. -/
def sampleBlobID3 : Bytes := [255, 1, 2, 3, 4, 5, 64, 7, 128, 9, 10, 11, 12, 13, 14, 15]
end Fdbx

namespace Fdbx

/-! ## The key order -/

theorem keyLt_irrefl (a : FdbKey) : keyLt a a = false := by
  induction a with
  | nil => rfl
  | cons x xs ih => simp [keyLt, ih]

theorem keyLt_trans {a b c : FdbKey} (hab : keyLt a b = true) (hbc : keyLt b c = true) :
    keyLt a c = true := by
  induction a generalizing b c with
  | nil =>
    cases b with
    | nil => simp [keyLt] at hab
    | cons y ys =>
      cases c with
      | nil => simp [keyLt] at hbc
      | cons z zs => simp [keyLt]
  | cons x xs ih =>
    cases b with
    | nil => simp [keyLt] at hab
    | cons y ys =>
      cases c with
      | nil => simp [keyLt] at hbc
      | cons z zs =>
        simp only [keyLt, Bool.or_eq_true, Bool.and_eq_true, decide_eq_true_eq] at hab hbc ⊢
        rcases hab with h1 | ⟨h1, h1t⟩
        · rcases hbc with h2 | ⟨h2, _⟩
          · exact Or.inl (by omega)
          · exact Or.inl (by omega)
        · rcases hbc with h2 | ⟨h2, h2t⟩
          · exact Or.inl (by omega)
          · exact Or.inr ⟨by omega, ih h1t h2t⟩

theorem keyLt_asymm {a b : FdbKey} (hab : keyLt a b = true) : keyLt b a = false := by
  cases h : keyLt b a with
  | false => rfl
  | true =>
    have := keyLt_trans hab h
    rw [keyLt_irrefl] at this
    exact this.symm

theorem keyLt_ne {a b : FdbKey} (hab : keyLt a b = true) : a ≠ b := by
  intro h
  subst h
  rw [keyLt_irrefl] at hab
  exact Bool.false_ne_true hab

theorem keyLt_total {a b : FdbKey} (h1 : keyLt a b = false) (h2 : a ≠ b) : keyLt b a = true := by
  induction a generalizing b with
  | nil =>
    cases b with
    | nil => exact absurd rfl h2
    | cons y ys => simp [keyLt] at h1
  | cons x xs ih =>
    cases b with
    | nil => simp [keyLt]
    | cons y ys =>
      simp only [keyLt, Bool.or_eq_false_iff, Bool.and_eq_false_imp, decide_eq_false_iff_not,
        decide_eq_true_eq] at h1
      simp only [keyLt, Bool.or_eq_true, Bool.and_eq_true, decide_eq_true_eq]
      by_cases hxy : x = y
      · subst hxy
        refine Or.inr ⟨rfl, ih (h1.2 rfl) ?_⟩
        intro h
        exact h2 (by rw [h])
      · exact Or.inl (by omega)

theorem keyLt_append_left (p a b : FdbKey) : keyLt (p ++ a) (p ++ b) = keyLt a b := by
  induction p with
  | nil => rfl
  | cons x xs ih => simp [keyLt, ih]

theorem keyLt_append_self (a b : FdbKey) (hb : b ≠ []) : keyLt a (a ++ b) = true := by
  induction a with
  | nil =>
    cases b with
    | nil => exact absurd rfl hb
    | cons y ys => rfl
  | cons x xs ih => simp [keyLt, ih]

theorem keyLt_self_append (a b : FdbKey) : keyLt (a ++ b) a = false := by
  induction a with
  | nil => cases b <;> rfl
  | cons x xs ih => simp [keyLt, ih]

end Fdbx

namespace Fdbx

/-! ## The ordered store -/

namespace Store

theorem WF_cons {e : FdbKey × Bytes} {s : Store} :
    WF (e :: s) ↔ (∀ x ∈ s, keyLt e.1 x.1 = true) ∧ WF s := List.pairwise_cons

theorem WF_nil : WF [] := List.Pairwise.nil

theorem WF_filter {s : Store} (p : FdbKey × Bytes → Bool) (h : WF s) : WF (s.filter p) :=
  List.Pairwise.filter p h

theorem set_cons (k : FdbKey) (v : Bytes) (k1 : FdbKey) (v1 : Bytes) (r : Store) :
    set k v ((k1, v1) :: r) =
      if keyLt k k1 then (k, v) :: (k1, v1) :: r
      else if k = k1 then (k, v) :: r
      else (k1, v1) :: set k v r := rfl

theorem set_of_all_gt (k : FdbKey) (v : Bytes) (s : Store)
    (h : ∀ x ∈ s, keyLt k x.1 = true) : set k v s = (k, v) :: s := by
  cases s with
  | nil => rfl
  | cons e r =>
    obtain ⟨k1, v1⟩ := e
    have h1 : keyLt k k1 = true := h (k1, v1) (List.mem_cons_self _ _)
    simp [set, h1]

theorem set_of_all_lt (k : FdbKey) (v : Bytes) (s : Store)
    (h : ∀ x ∈ s, keyLt x.1 k = true) : set k v s = s ++ [(k, v)] := by
  induction s with
  | nil => rfl
  | cons e r ih =>
    obtain ⟨k1, v1⟩ := e
    have h1 : keyLt k1 k = true := h (k1, v1) (List.mem_cons_self _ _)
    have h2 : keyLt k k1 = false := keyLt_asymm h1
    have h3 : k ≠ k1 := fun hh => keyLt_ne h1 hh.symm
    have ih1 := ih (fun x hx => h x (List.mem_cons_of_mem _ hx))
    simp [set, h2, h3, ih1]

theorem mem_set {k : FdbKey} {v : Bytes} {s : Store} {x : FdbKey × Bytes}
    (h : x ∈ set k v s) : x = (k, v) ∨ x ∈ s := by
  induction s with
  | nil => simpa [set] using h
  | cons e r ih =>
    obtain ⟨k1, v1⟩ := e
    unfold set at h
    split at h
    · rcases List.mem_cons.1 h with h | h
      · exact Or.inl h
      · exact Or.inr h
    · split at h
      · rcases List.mem_cons.1 h with h | h
        · exact Or.inl h
        · exact Or.inr (List.mem_cons_of_mem _ h)
      · rcases List.mem_cons.1 h with h | h
        · exact Or.inr (h ▸ List.mem_cons_self _ _)
        · rcases ih h with h | h
          · exact Or.inl h
          · exact Or.inr (List.mem_cons_of_mem _ h)

theorem mem_keys_set {k : FdbKey} {v : Bytes} {s : Store} {k2 : FdbKey} :
    k2 ∈ keys (set k v s) ↔ k2 = k ∨ k2 ∈ keys s := by
  induction s with
  | nil => simp [set, keys]
  | cons e r ih =>
    obtain ⟨k1, v1⟩ := e
    unfold set
    split
    · simp [keys]
    · split
      · rename_i h
        subst h
        simp [keys]
      · have ih1 : k2 ∈ List.map Prod.fst (set k v r) ↔ k2 = k ∨ k2 ∈ List.map Prod.fst r := ih
        simp only [keys, List.map_cons, List.mem_cons, ih1]
        tauto

theorem set_WF {k : FdbKey} {v : Bytes} {s : Store} (h : WF s) : WF (set k v s) := by
  induction s with
  | nil => exact List.pairwise_singleton _ _
  | cons e r ih =>
    obtain ⟨k1, v1⟩ := e
    obtain ⟨hhead, htail⟩ := WF_cons.1 h
    unfold set
    split
    · rename_i hlt
      refine WF_cons.2 ⟨?_, h⟩
      intro x hx
      rcases List.mem_cons.1 hx with hx | hx
      · subst hx
        exact hlt
      · exact keyLt_trans hlt (hhead x hx)
    · split
      · rename_i heq
        subst heq
        exact WF_cons.2 ⟨hhead, htail⟩
      · rename_i hnlt hne
        refine WF_cons.2 ⟨?_, ih htail⟩
        intro x hx
        rcases mem_set hx with hx | hx
        · subst hx
          exact keyLt_total (by simpa using hnlt) hne
        · exact hhead x hx

theorem filter_set (p : FdbKey → Bool) (k : FdbKey) (v : Bytes) {s : Store} (h : WF s) :
    (set k v s).filter (fun e => p e.1) =
      if p k then set k v (s.filter (fun e => p e.1)) else s.filter (fun e => p e.1) := by
  induction s with
  | nil => cases hp : p k <;> simp [set, hp]
  | cons e r ih =>
    obtain ⟨k1, v1⟩ := e
    obtain ⟨hhead, htail⟩ := WF_cons.1 h
    have ih1 := ih htail
    rw [set_cons]
    by_cases hlt : keyLt k k1 = true
    · rw [if_pos hlt]
      have hgt : ∀ x ∈ List.filter (fun e => p e.1) ((k1, v1) :: r), keyLt k x.1 = true := by
        intro x hx
        rcases List.mem_cons.1 (List.mem_of_mem_filter hx) with hx | hx
        · subst hx
          exact hlt
        · exact keyLt_trans hlt (hhead x hx)
      cases hp : p k
      · simp [List.filter_cons, hp]
      · rw [if_pos rfl, set_of_all_gt k v _ hgt]
        simp [List.filter_cons, hp]
    · rw [if_neg hlt]
      by_cases heq : k = k1
      · rw [if_pos heq]
        subst heq
        cases hp : p k
        · simp [List.filter_cons, hp]
        · simp [List.filter_cons, hp, set_cons, keyLt_irrefl]
      · rw [if_neg heq]
        cases hp1 : p k1
        · simp [List.filter_cons, hp1, ih1]
        · cases hp : p k
          · simp [List.filter_cons, hp1, hp, ih1]
          · simp [List.filter_cons, hp1, hp, ih1, set_cons, hlt, heq]

theorem lookup_set_same (k : FdbKey) (v : Bytes) (s : Store) : (set k v s).lookup k = some v := by
  induction s with
  | nil => simp [set, List.lookup]
  | cons e r ih =>
    obtain ⟨k1, v1⟩ := e
    unfold set
    split
    · simp [List.lookup]
    · split
      · simp [List.lookup]
      · rename_i hne
        have : (k == k1) = false := by simpa using hne
        simp [List.lookup, this, ih]

theorem lookup_set_other {k k2 : FdbKey} (v : Bytes) (s : Store) (hne : k2 ≠ k) :
    (set k v s).lookup k2 = s.lookup k2 := by
  induction s with
  | nil =>
    have : (k2 == k) = false := by simpa using hne
    simp [set, List.lookup, this]
  | cons e r ih =>
    obtain ⟨k1, v1⟩ := e
    have hk : (k2 == k) = false := by simpa using hne
    unfold set
    split
    · simp [List.lookup, hk]
    · split
      · rename_i heq
        subst heq
        simp [List.lookup, hk]
      · cases h1 : k2 == k1 <;> simp [List.lookup, h1, ih]

theorem get_set_same (k : FdbKey) (v : Bytes) (s : Store) : get k (set k v s) = v := by
  simp [get, lookup_set_same]

theorem get_set_other {k k2 : FdbKey} (v : Bytes) (s : Store) (hne : k2 ≠ k) :
    get k2 (set k v s) = get k2 s := by
  simp [get, lookup_set_other v s hne]

end Store

end Fdbx

namespace Fdbx

/-! ## The chunking loop -/

theorem be16_mod (n : Nat) : be16 (n % 65536) = be16 n := by
  simp only [be16]
  congr 1
  · omega
  · congr 1
    omega

theorem specWriteChunks_zero (key : FdbKey) (cs i : Nat) (blob : Bytes) (s : Store) :
    specWriteChunks key cs i blob 0 s = s := by
  simp [specWriteChunks]

theorem specWriteChunks_succ (key : FdbKey) (cs i : Nat) (blob : Bytes) (n : Nat) (s : Store) :
    specWriteChunks key cs i blob (n + 1) s =
      (specWriteChunks key cs i blob n s).set (key ++ be16 (i + n)) (specChunk cs blob n) := by
  simp [specWriteChunks, List.range_succ]

theorem specWriteChunks_shift (key : FdbKey) (cs i : Nat) (blob : Bytes) (n : Nat) (s : Store) :
    specWriteChunks key cs i blob (n + 1) s =
      specWriteChunks key cs ((i + 1) % 65536) (blob.drop cs) n
        (s.set (key ++ be16 i) (blob.take cs)) := by
  induction n with
  | zero =>
    rw [specWriteChunks_succ, specWriteChunks_zero, specWriteChunks_zero]
    simp [specChunk]
  | succ m ih =>
    rw [specWriteChunks_succ, ih, specWriteChunks_succ]
    have h1 : be16 ((i + 1) % 65536 + m) = be16 (i + (m + 1)) := by
      rw [← be16_mod ((i + 1) % 65536 + m), ← be16_mod (i + (m + 1))]
      congr 1
      omega
    have h2 : specChunk cs (List.drop cs blob) m = specChunk cs blob (m + 1) := by
      simp only [specChunk, List.drop_drop]
      congr 2
      ring
    rw [h1, h2]

/-- With a positive chunk size the loop of `saveBlob` ends within `len + 1` iterations and
writes the pieces of the blob in index order. -/
theorem saveBlobLoop_eq (env : Env) (key : FdbKey) (hcs : 1 ≤ env.ChunkSize) :
    ∀ (fuel i : Nat) (blob : Bytes) (s : Store), blob.length < fuel →
      saveBlobLoop env key fuel i blob s =
        .ok (specWriteChunks key env.ChunkSize.toNat i blob
          (specChunkCount env.ChunkSize.toNat blob) s) := by
  intro fuel
  induction fuel with
  | zero => intro i blob s h; omega
  | succ f ih =>
    intro i blob s hlen
    obtain ⟨c, hc⟩ := Int.eq_ofNat_of_zero_le (by omega : 0 ≤ env.ChunkSize)
    have hc1 : 1 ≤ c := by omega
    have hcn : env.ChunkSize.toNat = c := by simp [hc]
    rw [saveBlobLoop]
    by_cases hle : (blob.length : Int) ≤ env.ChunkSize
    · rw [if_pos hle]
      have hle1 : blob.length ≤ c := by omega
      have hcount : specChunkCount c blob = 1 := by
        simp only [specChunkCount]
        have : (blob.length - 1) / c = 0 := Nat.div_eq_of_lt (by omega)
        omega
      rw [hcn, hcount, specWriteChunks_succ, specWriteChunks_zero]
      simp [specChunk, List.take_of_length_le hle1]
    · rw [if_neg hle, if_neg (by omega)]
      have hgt : c < blob.length := by omega
      have hcount : specChunkCount c blob = specChunkCount c (blob.drop c) + 1 := by
        simp only [specChunkCount, List.length_drop]
        have : blob.length - 1 = (blob.length - c - 1) + c := by omega
        rw [this, Nat.add_div_right _ (by omega : 0 < c)]
      rw [ih _ _ _ (by simp only [List.length_drop]; omega), hcn, hcount, specWriteChunks_shift]

end Fdbx

namespace Fdbx

/-! ## Chunk keys and the blob range -/

theorem keyLt_be16 {j n : Nat} (hjn : j < n) (hn : n < 65536) :
    keyLt (be16 j) (be16 n) = true := by
  simp only [be16, keyLt, Bool.or_eq_true, Bool.and_eq_true, decide_eq_true_eq, Bool.or_false,
    Bool.and_false]
  omega

theorem be16_injOn {j n : Nat} (hj : j < 65536) (hn : n < 65536) (h : be16 j = be16 n) :
    j = n := by
  simp only [be16, List.cons.injEq, and_true] at h
  omega

theorem inRange_chunkKey (key : FdbKey) (n : Nat) :
    Store.inRange key (key ++ [255]) (key ++ be16 n) = decide (n % 65536 < 65280) := by
  simp only [Store.inRange, keyLt_self_append, Bool.not_false, Bool.true_and, keyLt_append_left,
    be16, keyLt, Bool.and_false, Bool.or_false]
  congr 1
  apply propext
  omega

theorem specWriteChunks_WF (key : FdbKey) (cs i : Nat) (blob : Bytes) (n : Nat) {s : Store}
    (h : s.WF) : (specWriteChunks key cs i blob n s).WF := by
  induction n with
  | zero => rwa [specWriteChunks_zero]
  | succ m ih =>
    rw [specWriteChunks_succ]
    exact Store.set_WF ih

theorem mem_keys_specWriteChunks (key : FdbKey) (cs i : Nat) (blob : Bytes) (n : Nat)
    (s : Store) (k : FdbKey) :
    k ∈ (specWriteChunks key cs i blob n s).keys ↔
      k ∈ s.keys ∨ ∃ j, j < n ∧ k = key ++ be16 (i + j) := by
  induction n with
  | zero => simp [specWriteChunks_zero]
  | succ m ih =>
    rw [specWriteChunks_succ, Store.mem_keys_set, ih]
    constructor
    · rintro (h | h | ⟨j, hj, h⟩)
      · exact Or.inr ⟨m, by omega, h⟩
      · exact Or.inl h
      · exact Or.inr ⟨j, by omega, h⟩
    · rintro (h | ⟨j, hj, h⟩)
      · exact Or.inr (Or.inl h)
      · by_cases hjm : j = m
        · subst hjm
          exact Or.inl h
        · exact Or.inr (Or.inr ⟨j, by omega, h⟩)

/-- Rows of the blob range `[key, key ‖ 0xFF)` after the pieces `0 .. n-1` were written
into a store that had no row there: the pieces with index below `0xFF00`, in index order. -/
theorem filter_specWriteChunks (key : FdbKey) (cs : Nat) (blob : Bytes) (n : Nat) {s : Store}
    (hwf : s.WF) (hn : n ≤ 65536)
    (hfresh : s.filter (fun e => Store.inRange key (key ++ [255]) e.1) = []) :
    (specWriteChunks key cs 0 blob n s).filter (fun e => Store.inRange key (key ++ [255]) e.1) =
      (List.range (min n 65280)).map (fun j => (key ++ be16 j, specChunk cs blob j)) := by
  induction n with
  | zero => simpa [specWriteChunks_zero] using hfresh
  | succ m ih =>
    have ih1 := ih (by omega)
    rw [specWriteChunks_succ,
      Store.filter_set (fun k => Store.inRange key (key ++ [255]) k) _ _
        (specWriteChunks_WF key cs 0 blob m hwf), ih1]
    simp only [Nat.zero_add, inRange_chunkKey, decide_eq_true_eq]
    by_cases hm : m < 65280
    · rw [if_pos (by omega), Store.set_of_all_lt]
      · have e1 : min m 65280 = m := by omega
        have e2 : min (m + 1) 65280 = m + 1 := by omega
        rw [e1, e2, List.range_succ, List.map_append]
        rfl
      · intro x hx
        obtain ⟨j, hj, rfl⟩ := List.mem_map.1 hx
        have hj1 : j < m := by
          have := List.mem_range.1 hj
          omega
        simp only [keyLt_append_left]
        exact keyLt_be16 hj1 (by omega)
    · rw [if_neg (by omega)]
      have e1 : min m 65280 = 65280 := by omega
      have e2 : min (m + 1) 65280 = 65280 := by omega
      rw [e1, e2]

theorem specChunk_length_le (cs : Nat) (blob : Bytes) (j : Nat) :
    (specChunk cs blob j).length ≤ cs := by
  simp only [specChunk, List.length_take]
  omega

theorem flatten_specChunks (cs : Nat) (blob : Bytes) (m : Nat) :
    ((List.range m).map (fun j => specChunk cs blob j)).flatten = blob.take (m * cs) := by
  induction m with
  | zero => simp
  | succ k ih =>
    rw [List.range_succ, List.map_append, List.flatten_append, ih, Nat.succ_mul, List.take_add]
    simp [specChunk]

theorem specChunkCount_mul_ge (cs : Nat) (blob : Bytes) (hcs : 1 ≤ cs) :
    blob.length ≤ specChunkCount cs blob * cs := by
  simp only [specChunkCount]
  have h := Nat.div_add_mod (blob.length - 1) cs
  have h2 := Nat.mod_lt (blob.length - 1) (by omega : cs > 0)
  have h3 : ((blob.length - 1) / cs + 1) * cs = cs * ((blob.length - 1) / cs) + cs := by ring
  omega

theorem specChunkCount_le (cs : Nat) (blob : Bytes) (hcs : 1 ≤ cs) (N : Nat) (hN : 1 ≤ N)
    (h : blob.length ≤ N * cs) : specChunkCount cs blob ≤ N := by
  simp only [specChunkCount]
  have : (blob.length - 1) / cs < N := by
    apply (Nat.div_lt_iff_lt_mul (by omega : 0 < cs)).2
    have : 0 < N * cs := Nat.mul_pos (by omega) (by omega)
    omega
  omega

end Fdbx

namespace Fdbx

/-! ## Blob store: save then load -/

theorem Env.Key_ok (env : Env) (ctype : Nat) {id : Bytes} (h : id ≠ []) :
    env.Key ctype id = .ok (be16 env.dbnum ++ be16 ctype ++ id) := by
  simp [Env.Key, h]

theorem saveBlob_eq (env : Env) (blobID : Bytes) (flags : Nat) (blob : Bytes) (s : Store)
    (hcs : 1 ≤ env.ChunkSize) (hid : blobID ≠ []) :
    saveBlob env blobID flags blob s =
      .ok (flags ||| flagChunk, blobID,
        specWriteChunks (env.chunkKey blobID) env.ChunkSize.toNat 0 blob
          (specChunkCount env.ChunkSize.toNat blob) s) := by
  simp only [saveBlob, env.Key_ok env.ChunkType hid]
  rw [saveBlobLoop_eq env _ hcs _ _ _ _ (Nat.lt_succ_self _)]
  rfl

theorem loadBlob_eq (env : Env) (blobID : Bytes) (s : Store) (hid : blobID ≠ []) :
    loadBlob env blobID s =
      .ok ((s.filter (fun e =>
        Store.inRange (env.chunkKey blobID) (env.chunkKey blobID ++ [255]) e.1)).map
          Prod.snd).flatten := by
  simp only [loadBlob, env.Key_ok env.ChunkType hid, Store.getRange, if_true]
  rfl

/-- Reading back a blob written under a fresh id returns its first `0xFF00` pieces. -/
theorem loadBlob_specWriteChunks (env : Env) (blobID blob : Bytes) (s : Store) (cs n : Nat)
    (hid : blobID ≠ []) (hwf : s.WF) (hfresh : Fresh env blobID s) (hn : n ≤ 65536) :
    loadBlob env blobID (specWriteChunks (env.chunkKey blobID) cs 0 blob n s) =
      .ok (blob.take (min n 65280 * cs)) := by
  have hf : s.filter (fun e =>
      Store.inRange (env.chunkKey blobID) (env.chunkKey blobID ++ [255]) e.1) = [] := by
    simpa [Fresh, Store.getRange] using hfresh
  rw [loadBlob_eq env blobID _ hid, filter_specWriteChunks _ cs blob n hwf hn hf,
    List.map_map]
  have : (Prod.snd ∘ fun j => (env.chunkKey blobID ++ be16 j, specChunk cs blob j)) =
      fun j => specChunk cs blob j := rfl
  rw [this, flatten_specChunks]

theorem packGZip_cases (env : Env) (x : Bytes) (hgz : GzInverse env) :
    (packGZip env x = .ok (0, x) ∧ ¬ (x.length : Int) > env.GZipSize) ∨
    (∃ z, packGZip env x = .ok (flagGZip, z) ∧ env.gunzip z = .ok x ∧
      (x.length : Int) > env.GZipSize) := by
  by_cases h : (x.length : Int) > env.GZipSize
  · right
    obtain ⟨z, hz, hu⟩ := hgz x
    refine ⟨z, ?_, hu, h⟩
    simp only [packGZip, if_pos h, gzipValue, hz]
    rfl
  · left
    exact ⟨by simp only [packGZip, if_neg h], h⟩

end Fdbx

namespace Fdbx

/-! ## Codec: pack then unpack -/

theorem land_64_128 : (64 &&& 128 : Nat) = 0 := by decide

theorem land_128_64 : (128 &&& 64 : Nat) = 0 := by decide

theorem land_192_128 : (192 &&& 128 : Nat) = 128 := by decide

theorem land_192_64 : (192 &&& 64 : Nat) = 64 := by decide

theorem unpack_plain (env : Env) (b : Bytes) (s : Store) :
    unpack env (0 :: b) s = .ok (none, b) := by
  simp [unpack, flagChunk, flagGZip]

theorem unpack_gzip (env : Env) (z x : Bytes) (s : Store) (h : env.gunzip z = .ok x) :
    unpack env (flagGZip :: z) s = .ok (none, x) := by
  simp [unpack, flagChunk, flagGZip, gunzipValue, h, land_64_128]

theorem unpack_chunk (env : Env) (id blob : Bytes) (s : Store)
    (h : loadBlob env id s = .ok blob) :
    unpack env ((0 ||| flagChunk) :: id) s = .ok (some id, blob) := by
  simp [unpack, flagChunk, flagGZip, h, land_128_64]

theorem unpack_chunk_gzip (env : Env) (id blob x : Bytes) (s : Store)
    (h : loadBlob env id s = .ok blob) (hz : env.gunzip blob = .ok x) :
    unpack env ((flagGZip ||| flagChunk) :: id) s = .ok (some id, x) := by
  simp [unpack, flagChunk, flagGZip, gunzipValue, h, hz, land_192_128, land_192_64]

theorem pack_small (env : Env) (blobID x b : Bytes) (f : Nat) (s : Store)
    (hg : packGZip env x = .ok (f, b)) (hle : ¬ (b.length : Int) > env.ChunkSize) :
    pack env blobID x s = .ok (f :: b, s) := by
  simp only [pack, hg, if_neg hle]

theorem pack_big (env : Env) (blobID x b : Bytes) (f : Nat) (s : Store)
    (hcs : 1 ≤ env.ChunkSize) (hid : blobID ≠ [])
    (hg : packGZip env x = .ok (f, b)) (hgt : (b.length : Int) > env.ChunkSize) :
    pack env blobID x s = .ok ((f ||| flagChunk) :: blobID,
      specWriteChunks (env.chunkKey blobID) env.ChunkSize.toNat 0 b
        (specChunkCount env.ChunkSize.toNat b) s) := by
  simp only [pack, hg, if_pos hgt, saveBlob_eq env blobID f b s hcs hid]

/-- What `unpack` reads back from the blob written by `pack` when the body is chunked and the
chunk counter does not wrap: the pieces with index below `0xFF00`. -/
theorem loadBlob_pack_big (env : Env) (blobID b : Bytes) (s : Store)
    (hid : blobID ≠ []) (hwf : s.WF) (hfresh : Fresh env blobID s)
    (hn : specChunkCount env.ChunkSize.toNat b ≤ 65536) :
    loadBlob env blobID (specWriteChunks (env.chunkKey blobID) env.ChunkSize.toNat 0 b
        (specChunkCount env.ChunkSize.toNat b) s) =
      .ok (b.take (min (specChunkCount env.ChunkSize.toNat b) 65280 * env.ChunkSize.toNat)) :=
  loadBlob_specWriteChunks env blobID b s _ _ hid hwf hfresh hn

theorem take_chunks_all (cs : Nat) (b : Bytes) (hcs : 1 ≤ cs)
    (hsize : b.length ≤ 65280 * cs) :
    b.take (min (specChunkCount cs b) 65280 * cs) = b := by
  have h1 := specChunkCount_le cs b hcs 65280 (by omega) hsize
  have h2 := specChunkCount_mul_ge cs b hcs
  rw [Nat.min_eq_left h1]
  exact List.take_of_length_le h2

end Fdbx

namespace Fdbx

theorem sampleEnv_gzInverse (cs gz : Int) (ix : Nat → List (Bytes → Except Err FdbKey)) :
    GzInverse (sampleEnv cs gz ix) := fun y => ⟨31 :: 139 :: y, rfl, rfl⟩

theorem ne_nil_of_length_16 {l : Bytes} (h : l.length = 16) : l ≠ [] := by
  intro hl
  rw [hl] at h
  exact absurd h (by decide)

/-- C1 (amended): for every buffer `x`, any `GZipSize`, any `ChunkSize >= 1`, `gunzip` the
inverse of `gzip` and a fresh 16-byte blob id, if the buffer after the optional gzip step has
at most `0xFF00 * ChunkSize` bytes, then `pack x` succeeds and `unpack` of the packed value in
the same transaction returns `x`, with no error. -/
theorem unpack_pack (env : Env) (x blobID : Bytes) (s : Store)
    (hcs : 1 ≤ env.ChunkSize) (hgz : GzInverse env) (hid : blobID.length = 16)
    (hwf : s.WF) (hfresh : Fresh env blobID s)
    (hsize : ∀ f b, packGZip env x = .ok (f, b) → (b.length : Int) ≤ 65280 * env.ChunkSize) :
    ∃ v s1 bid, pack env blobID x s = .ok (v, s1) ∧ unpack env v s1 = .ok (bid, x) := by
  have hid1 := ne_nil_of_length_16 hid
  obtain ⟨c, hc⟩ := Int.eq_ofNat_of_zero_le (by omega : 0 ≤ env.ChunkSize)
  have hcn : env.ChunkSize.toNat = c := by simp [hc]
  have hall : ∀ b : Bytes, (b.length : Int) ≤ 65280 * env.ChunkSize →
      loadBlob env blobID (specWriteChunks (env.chunkKey blobID) env.ChunkSize.toNat 0 b
        (specChunkCount env.ChunkSize.toNat b) s) = .ok b := by
    intro b hb
    have hb1 : b.length ≤ 65280 * c := by omega
    have hn := specChunkCount_le c b (by omega) 65280 (by omega) hb1
    rw [loadBlob_pack_big env blobID b s hid1 hwf hfresh (by rw [hcn]; omega), hcn,
      take_chunks_all c b (by omega) hb1]
  rcases packGZip_cases env x hgz with ⟨hg, _⟩ | ⟨z, hg, hu, _⟩
  · by_cases hgt : (x.length : Int) > env.ChunkSize
    · exact ⟨_, _, _, pack_big env blobID x x 0 s hcs hid1 hg hgt,
        unpack_chunk env blobID x _ (hall x (hsize _ _ hg))⟩
    · exact ⟨_, _, _, pack_small env blobID x x 0 s hg hgt, unpack_plain env x s⟩
  · by_cases hgt : (z.length : Int) > env.ChunkSize
    · exact ⟨_, _, _, pack_big env blobID x z flagGZip s hcs hid1 hg hgt,
        unpack_chunk_gzip env blobID z x _ (hall z (hsize _ _ hg)) hu⟩
    · exact ⟨_, _, _, pack_small env blobID x z flagGZip s hg hgt, unpack_gzip env z x s hu⟩

theorem unpack_pack_witness :
    ∃ v s1 bid, pack (sampleEnv 4 2 (fun _ => [])) sampleBlobID [1, 2, 3, 4, 5, 6, 7, 8, 9] [] =
        .ok (v, s1) ∧
      unpack (sampleEnv 4 2 (fun _ => [])) v s1 = .ok (bid, [1, 2, 3, 4, 5, 6, 7, 8, 9]) :=
  unpack_pack (sampleEnv 4 2 (fun _ => [])) [1, 2, 3, 4, 5, 6, 7, 8, 9] sampleBlobID []
    (by decide) (sampleEnv_gzInverse 4 2 _) rfl Store.WF_nil rfl
    (by
      intro f b h
      have hb : b = [31, 139, 1, 2, 3, 4, 5, 6, 7, 8, 9] := by
        have h1 : packGZip (sampleEnv 4 2 (fun _ => [])) [1, 2, 3, 4, 5, 6, 7, 8, 9] =
            .ok (64, [31, 139, 1, 2, 3, 4, 5, 6, 7, 8, 9]) := by decide
        rw [h1] at h
        injection h with h
        injection h with _ h
        exact h.symm
      subst hb
      decide)

theorem Store.flatten_set_length_le (k : FdbKey) (v : Bytes) (l : Store) :
    ((Store.set k v l).map Prod.snd).flatten.length ≤
      (l.map Prod.snd).flatten.length + v.length := by
  induction l with
  | nil => simp [Store.set]
  | cons e r ih =>
    obtain ⟨k1, v1⟩ := e
    rw [Store.set_cons]
    split
    · simp only [List.map_cons, List.flatten_cons, List.length_append]
      omega
    · split
      · simp only [List.map_cons, List.flatten_cons, List.length_append]
        omega
      · simp only [List.map_cons, List.flatten_cons, List.length_append] at ih ⊢
        omega

theorem unpack_pack_wraps (x : Bytes) (hx : x.length = 65537) :
    ∃ v s1 y, pack (sampleEnv 1 100000 (fun _ => [])) sampleBlobID x [] = .ok (v, s1) ∧
      unpack (sampleEnv 1 100000 (fun _ => [])) v s1 = .ok (some sampleBlobID, y) ∧
      y.length ≤ 65281 := by
  have hg : packGZip (sampleEnv 1 100000 (fun _ => [])) x = .ok (0, x) := by
    simp [packGZip, sampleEnv, hx]
  have hgt : (x.length : Int) > (sampleEnv 1 100000 (fun _ => [])).ChunkSize := by
    simp [sampleEnv, hx]
  have e : (sampleEnv 1 100000 (fun _ => [])).ChunkSize.toNat = 1 := rfl
  have hcount : specChunkCount (sampleEnv 1 100000 (fun _ => [])).ChunkSize.toNat x =
      65536 + 1 := by
    rw [e]
    simp [specChunkCount, hx]
  have hfresh : List.filter (fun e : FdbKey × Bytes => Store.inRange
      ((sampleEnv 1 100000 (fun _ => [])).chunkKey sampleBlobID)
      ((sampleEnv 1 100000 (fun _ => [])).chunkKey sampleBlobID ++ [255]) e.1) [] = [] := rfl
  refine ⟨_, _, _, pack_big _ sampleBlobID _ _ 0 [] (by decide) (by decide) hg hgt,
    unpack_chunk _ sampleBlobID _ _ (loadBlob_eq _ sampleBlobID _ (by decide)), ?_⟩
  · rw [hcount, e, specWriteChunks_succ,
      Store.filter_set (fun k => Store.inRange
        ((sampleEnv 1 100000 (fun _ => [])).chunkKey sampleBlobID)
        ((sampleEnv 1 100000 (fun _ => [])).chunkKey sampleBlobID ++ [255]) k) _ _
        (specWriteChunks_WF _ 1 0 x 65536 Store.WF_nil),
      filter_specWriteChunks _ 1 x 65536 Store.WF_nil (by omega) hfresh]
    have hbase : ((List.map (fun j => ((sampleEnv 1 100000 (fun _ => [])).chunkKey sampleBlobID ++
        be16 j, specChunk 1 x j)) (List.range (min 65536 65280))).map Prod.snd).flatten.length ≤
        65280 := by
      rw [List.map_map]
      have : (Prod.snd ∘ fun j => ((sampleEnv 1 100000 (fun _ => [])).chunkKey sampleBlobID ++
          be16 j, specChunk 1 x j)) = fun j => specChunk 1 x j := rfl
      rw [this, flatten_specChunks, List.length_take]
      omega
    have hc := specChunk_length_le 1 x 65536
    split
    · have := Store.flatten_set_length_le
        ((sampleEnv 1 100000 (fun _ => [])).chunkKey sampleBlobID ++ be16 (0 + 65536))
        (specChunk 1 x 65536)
        (List.map (fun j => ((sampleEnv 1 100000 (fun _ => [])).chunkKey sampleBlobID ++
          be16 j, specChunk 1 x j)) (List.range (min 65536 65280)))
      omega
    · omega

/-- C1, counterexample: with `ChunkSize = 1` and no gzip, a buffer of 65537 bytes under a
fresh blob id is packed without error into 65537 chunks; the `uint16` chunk counter wraps, so
chunk 65536 is written over the key of chunk 0, and `unpack` returns at most 65281 bytes, not
the buffer. -/
theorem unpack_pack_counterexample :
    ∃ v s1 y, pack (sampleEnv 1 100000 (fun _ => [])) sampleBlobID (List.replicate 65537 7) [] =
        .ok (v, s1) ∧
      unpack (sampleEnv 1 100000 (fun _ => [])) v s1 = .ok (some sampleBlobID, y) ∧
      y ≠ List.replicate 65537 7 := by
  obtain ⟨v, s1, y, h1, h2, h3⟩ :=
    unpack_pack_wraps (List.replicate 65537 7) (List.length_replicate _ _)
  refine ⟨v, s1, y, h1, h2, ?_⟩
  intro h
  have := congrArg List.length h
  rw [List.length_replicate] at this
  omega

end Fdbx

namespace Fdbx

/-! ## Codec: the flag byte -/

theorem land_64_64 : (64 &&& 64 : Nat) = 64 := by decide

theorem land_128_128 : (128 &&& 128 : Nat) = 128 := by decide

theorem land_63 : (0 &&& 63 : Nat) = 0 ∧ (64 &&& 63 : Nat) = 0 ∧ (128 &&& 63 : Nat) = 0 ∧
    (192 &&& 63 : Nat) = 0 := by decide

theorem packGZip_over (env : Env) (x z : Bytes) (hz : env.gzip x = .ok z)
    (h : (x.length : Int) > env.GZipSize) : packGZip env x = .ok (flagGZip, z) := by
  simp only [packGZip, if_pos h, gzipValue, hz]
  rfl

theorem packGZip_under (env : Env) (x : Bytes) (h : ¬ (x.length : Int) > env.GZipSize) :
    packGZip env x = .ok (0, x) := by
  simp only [packGZip, if_neg h]

/-- Every result of the gzip step: flag `0x40` and the compressed buffer above the threshold,
flag `0x00` and the buffer itself otherwise. -/
theorem packGZip_ok {env : Env} {x b : Bytes} {f0 : Nat} (h : packGZip env x = .ok (f0, b)) :
    ((x.length : Int) > env.GZipSize ∧ f0 = flagGZip ∧ env.gzip x = .ok b) ∨
    (¬ (x.length : Int) > env.GZipSize ∧ f0 = 0 ∧ b = x) := by
  by_cases hg : (x.length : Int) > env.GZipSize
  · left
    simp only [packGZip, if_pos hg, gzipValue] at h
    cases hz : env.gzip x with
    | error e => simp [hz] at h
    | ok z =>
      simp only [hz, Except.ok.injEq, Prod.mk.injEq] at h
      exact ⟨hg, by rw [← h.1]; rfl, by rw [h.2]⟩
  · right
    simp only [packGZip, if_neg hg, Except.ok.injEq, Prod.mk.injEq] at h
    exact ⟨hg, h.1.symm, h.2.symm⟩

/-- Every result of `saveBlob` carries the flags with the CHUNK bit added and the blob id. -/
theorem saveBlob_ok {env : Env} {blobID blob v : Bytes} {flags f : Nat} {s s1 : Store}
    (h : saveBlob env blobID flags blob s = .ok (f, v, s1)) :
    f = flags ||| flagChunk ∧ v = blobID := by
  simp only [saveBlob] at h
  cases hk : env.Key env.ChunkType blobID with
  | error e => simp [hk] at h
  | ok key =>
    cases hl : saveBlobLoop env key (blob.length + 1) 0 blob s with
    | error e => simp [hk, hl] at h
    | ok s2 =>
      simp only [hk, hl, Except.ok.injEq, Prod.mk.injEq] at h
      exact ⟨h.1.symm, h.2.1.symm⟩

/-- Every result of `pack`: the flags and buffer of the gzip step, and either that buffer
itself or, above the chunk size, the CHUNK bit and the blob id. -/
theorem pack_ok {env : Env} {blobID x v : Bytes} {s s1 : Store}
    (h : pack env blobID x s = .ok (v, s1)) :
    ∃ f0 b, packGZip env x = .ok (f0, b) ∧
      (((b.length : Int) > env.ChunkSize ∧ v = (f0 ||| flagChunk) :: blobID) ∨
       (¬ (b.length : Int) > env.ChunkSize ∧ v = f0 :: b ∧ s1 = s)) := by
  simp only [pack] at h
  cases hg : packGZip env x with
  | error e => simp [hg] at h
  | ok r =>
    obtain ⟨f0, b⟩ := r
    refine ⟨f0, b, rfl, ?_⟩
    simp only [hg] at h
    by_cases hc : (b.length : Int) > env.ChunkSize
    · left
      simp only [if_pos hc] at h
      cases hs : saveBlob env blobID f0 b s with
      | error e => simp [hs] at h
      | ok r2 =>
        obtain ⟨f, v2, s2⟩ := r2
        obtain ⟨hf, hv⟩ := saveBlob_ok hs
        simp only [hs, Except.ok.injEq, Prod.mk.injEq] at h
        exact ⟨hc, by rw [← h.1, hf, hv]⟩
    · right
      simp only [if_neg hc, Except.ok.injEq, Prod.mk.injEq] at h
      exact ⟨hc, h.1.symm, h.2.symm⟩

/-- `pack` returns when gzip does, for a positive chunk size and a non-empty blob id. -/
theorem pack_returns (env : Env) (blobID x : Bytes) (s : Store)
    (hcs : 1 ≤ env.ChunkSize) (hid : blobID ≠ []) (hz : ∃ z, env.gzip x = .ok z) :
    ∃ v s1, pack env blobID x s = .ok (v, s1) := by
  obtain ⟨z, hz⟩ := hz
  by_cases hg : (x.length : Int) > env.GZipSize
  · by_cases hc : (z.length : Int) > env.ChunkSize
    · exact ⟨_, _, pack_big env blobID x z flagGZip s hcs hid (packGZip_over env x z hz hg) hc⟩
    · exact ⟨_, _, pack_small env blobID x z flagGZip s (packGZip_over env x z hz hg) hc⟩
  · by_cases hc : (x.length : Int) > env.ChunkSize
    · exact ⟨_, _, pack_big env blobID x x 0 s hcs hid (packGZip_under env x hg) hc⟩
    · exact ⟨_, _, pack_small env blobID x x 0 s (packGZip_under env x hg) hc⟩

/-- C6: whenever `pack x` returns a value, its flag byte has the GZIP bit (`0x40`) set iff
`len x > GZipSize`; a buffer of length exactly `GZipSize` (and `<= ChunkSize`) packs to the
byte `0x00` followed by `x` unchanged; a buffer of length `GZipSize + 1` packs with the GZIP
bit set; and `pack` does return when gzip does, `ChunkSize >= 1` and the blob id has 16
bytes. -/
theorem pack_gzip_flag (env : Env) (blobID x : Bytes) (s : Store) :
    (∀ v s1, pack env blobID x s = .ok (v, s1) →
      ∃ f body, v = f :: body ∧ (f &&& flagGZip > 0 ↔ (x.length : Int) > env.GZipSize)) ∧
    ((x.length : Int) = env.GZipSize → (x.length : Int) ≤ env.ChunkSize →
      pack env blobID x s = .ok (0 :: x, s)) ∧
    ((x.length : Int) = env.GZipSize + 1 → ∀ v s1, pack env blobID x s = .ok (v, s1) →
      ∃ f body, v = f :: body ∧ f &&& flagGZip > 0) ∧
    (1 ≤ env.ChunkSize → blobID.length = 16 → (∃ z, env.gzip x = .ok z) →
      ∃ v s1, pack env blobID x s = .ok (v, s1)) := by
  have hmain : ∀ v s1, pack env blobID x s = .ok (v, s1) →
      ∃ f body, v = f :: body ∧ (f &&& flagGZip > 0 ↔ (x.length : Int) > env.GZipSize) := by
    intro v s1 h
    obtain ⟨f0, b, hg, hv⟩ := pack_ok h
    rcases packGZip_ok hg with ⟨hgt, hf0, _⟩ | ⟨hle, hf0, _⟩
    · subst hf0
      rcases hv with ⟨_, hv⟩ | ⟨_, hv, _⟩
      · exact ⟨_, _, hv, by simp [flagGZip, flagChunk, land_192_64, hgt]⟩
      · exact ⟨_, _, hv, by simp [flagGZip, land_64_64, hgt]⟩
    · subst hf0
      rcases hv with ⟨_, hv⟩ | ⟨_, hv, _⟩
      · exact ⟨_, _, hv, by simp [flagGZip, flagChunk, land_128_64, hle]⟩
      · exact ⟨_, _, hv, by simp [flagGZip, hle]⟩
  refine ⟨hmain, ?_, ?_, ?_⟩
  · intro h1 h2
    exact pack_small env blobID x x 0 s (packGZip_under env x (by omega)) (by omega)
  · intro h1 v s1 h
    obtain ⟨f, body, hv, hiff⟩ := hmain v s1 h
    exact ⟨f, body, hv, hiff.2 (by omega)⟩
  · intro hcs hid hz
    exact pack_returns env blobID x s hcs (ne_nil_of_length_16 hid) hz

/-- C7: whenever `pack x` returns a value, with `(f0, b)` the result of the optional gzip
step, its flag byte has the CHUNK bit (`0x80`) set iff `len b > ChunkSize`; then the body is
the blob id (16 bytes), otherwise the body is `b` itself and the store is untouched; the flag
byte is the sum of the GZIP bit (iff `len x > GZipSize`) and the CHUNK bit, so it is one of
`0x00, 0x40, 0x80, 0xC0` and its six low bits are zero; and `pack` does return when gzip does,
`ChunkSize >= 1` and the blob id has 16 bytes. -/
theorem pack_chunk_flag (env : Env) (blobID x : Bytes) (s : Store) :
    (∀ v s1, pack env blobID x s = .ok (v, s1) →
      ∃ f0 b f body, packGZip env x = .ok (f0, b) ∧ v = f :: body ∧
        (f &&& flagChunk > 0 ↔ (b.length : Int) > env.ChunkSize) ∧
        (f &&& flagChunk > 0 → body = blobID ∧ (blobID.length = 16 → body.length = 16)) ∧
        (¬ f &&& flagChunk > 0 → body = b ∧ s1 = s) ∧
        (if (x.length : Int) > env.GZipSize then env.gzip x = .ok b else b = x) ∧
        f = (if (x.length : Int) > env.GZipSize then flagGZip else 0) +
            (if (b.length : Int) > env.ChunkSize then flagChunk else 0) ∧
        f &&& 63 = 0) ∧
    (1 ≤ env.ChunkSize → blobID.length = 16 → (∃ z, env.gzip x = .ok z) →
      ∃ v s1, pack env blobID x s = .ok (v, s1)) := by
  refine ⟨?_, fun hcs hid hz => pack_returns env blobID x s hcs (ne_nil_of_length_16 hid) hz⟩
  intro v s1 h
  obtain ⟨f0, b, hg, hv⟩ := pack_ok h
  rcases packGZip_ok hg with ⟨hgt, hf0, hz⟩ | ⟨hle, hf0, hb⟩
  · subst hf0
    rcases hv with ⟨hc, hv⟩ | ⟨hc, hv, hs⟩
    · refine ⟨_, _, _, _, hg, hv, ?_, ?_, ?_, ?_, ?_, ?_⟩
      · simp [flagGZip, flagChunk, land_192_128, hc]
      · intro _; exact ⟨rfl, id⟩
      · simp [flagGZip, flagChunk, land_192_128]
      · simp [hgt, hz]
      · simp [hgt, hc, flagGZip, flagChunk]
      · simp [flagGZip, flagChunk, land_63]
    · refine ⟨_, _, _, _, hg, hv, ?_, ?_, ?_, ?_, ?_, ?_⟩
      · simp [flagGZip, flagChunk, land_64_128, hc]
      · simp [flagGZip, flagChunk, land_64_128]
      · intro _; exact ⟨rfl, hs⟩
      · simp [hgt, hz]
      · simp [hgt, hc, flagGZip]
      · simp [flagGZip, land_63]
  · subst hf0
    rcases hv with ⟨hc, hv⟩ | ⟨hc, hv, hs⟩
    · refine ⟨_, _, _, _, hg, hv, ?_, ?_, ?_, ?_, ?_, ?_⟩
      · simp [flagChunk, land_128_128, hc]
      · intro _; exact ⟨rfl, id⟩
      · simp [flagChunk, land_128_128]
      · simp [hle, hb]
      · simp [hle, hc, flagChunk]
      · simp [flagChunk, land_63]
    · refine ⟨_, _, _, _, hg, hv, ?_, ?_, ?_, ?_, ?_, ?_⟩
      · simp [flagChunk, hc]
      · simp [flagChunk]
      · intro _; exact ⟨rfl, hs⟩
      · simp [hle, hb]
      · simp [hle, hc]
      · simp

theorem pack_gzip_flag_witness :
    (∀ v s1, pack (sampleEnv 100 3 (fun _ => [])) sampleBlobID [1, 2, 3] [] = .ok (v, s1) →
      ∃ f body, v = f :: body ∧
        (f &&& flagGZip > 0 ↔
          (([1, 2, 3] : Bytes).length : Int) > (sampleEnv 100 3 (fun _ => [])).GZipSize)) ∧
    ((([1, 2, 3] : Bytes).length : Int) = (sampleEnv 100 3 (fun _ => [])).GZipSize →
      (([1, 2, 3] : Bytes).length : Int) ≤ (sampleEnv 100 3 (fun _ => [])).ChunkSize →
      pack (sampleEnv 100 3 (fun _ => [])) sampleBlobID [1, 2, 3] [] = .ok (0 :: [1, 2, 3], [])) ∧
    ((([1, 2, 3] : Bytes).length : Int) = (sampleEnv 100 3 (fun _ => [])).GZipSize + 1 →
      ∀ v s1, pack (sampleEnv 100 3 (fun _ => [])) sampleBlobID [1, 2, 3] [] = .ok (v, s1) →
        ∃ f body, v = f :: body ∧ f &&& flagGZip > 0) ∧
    (1 ≤ (sampleEnv 100 3 (fun _ => [])).ChunkSize → sampleBlobID.length = 16 →
      (∃ z, (sampleEnv 100 3 (fun _ => [])).gzip [1, 2, 3] = .ok z) →
      ∃ v s1, pack (sampleEnv 100 3 (fun _ => [])) sampleBlobID [1, 2, 3] [] = .ok (v, s1)) :=
  pack_gzip_flag (sampleEnv 100 3 (fun _ => [])) sampleBlobID [1, 2, 3] []

theorem pack_chunk_flag_witness :
    (∀ v s1, pack (sampleEnv 4 2 (fun _ => [])) sampleBlobID [1, 2, 3, 4, 5, 6, 7, 8, 9] [] =
        .ok (v, s1) →
      ∃ f0 b f body, packGZip (sampleEnv 4 2 (fun _ => [])) [1, 2, 3, 4, 5, 6, 7, 8, 9] =
          .ok (f0, b) ∧ v = f :: body ∧
        (f &&& flagChunk > 0 ↔ (b.length : Int) > (sampleEnv 4 2 (fun _ => [])).ChunkSize) ∧
        (f &&& flagChunk > 0 →
          body = sampleBlobID ∧ (sampleBlobID.length = 16 → body.length = 16)) ∧
        (¬ f &&& flagChunk > 0 → body = b ∧ s1 = []) ∧
        (if (([1, 2, 3, 4, 5, 6, 7, 8, 9] : Bytes).length : Int) >
            (sampleEnv 4 2 (fun _ => [])).GZipSize
          then (sampleEnv 4 2 (fun _ => [])).gzip [1, 2, 3, 4, 5, 6, 7, 8, 9] = .ok b
          else b = [1, 2, 3, 4, 5, 6, 7, 8, 9]) ∧
        f = (if (([1, 2, 3, 4, 5, 6, 7, 8, 9] : Bytes).length : Int) >
              (sampleEnv 4 2 (fun _ => [])).GZipSize then flagGZip else 0) +
            (if (b.length : Int) > (sampleEnv 4 2 (fun _ => [])).ChunkSize
              then flagChunk else 0) ∧
        f &&& 63 = 0) ∧
    (1 ≤ (sampleEnv 4 2 (fun _ => [])).ChunkSize → sampleBlobID.length = 16 →
      (∃ z, (sampleEnv 4 2 (fun _ => [])).gzip [1, 2, 3, 4, 5, 6, 7, 8, 9] = .ok z) →
      ∃ v s1, pack (sampleEnv 4 2 (fun _ => [])) sampleBlobID [1, 2, 3, 4, 5, 6, 7, 8, 9] [] =
        .ok (v, s1)) :=
  pack_chunk_flag (sampleEnv 4 2 (fun _ => [])) sampleBlobID [1, 2, 3, 4, 5, 6, 7, 8, 9] []

end Fdbx

namespace Fdbx

/-! ## Blob store: the chunks written by `saveBlob` -/

theorem chunkKey_ne (key : FdbKey) {i j : Nat} (hij : i < j) (hj : j < 65536) :
    key ++ be16 i ≠ key ++ be16 j := by
  intro h
  have := be16_injOn (by omega) hj (List.append_cancel_left h)
  omega

theorem lookup_specWriteChunks_hit (key : FdbKey) (cs : Nat) (blob : Bytes) (s : Store) :
    ∀ n, n ≤ 65536 → ∀ j, j < n →
      (specWriteChunks key cs 0 blob n s).lookup (key ++ be16 j) = some (specChunk cs blob j) := by
  intro n
  induction n with
  | zero => intro _ j hj; omega
  | succ m ih =>
    intro hm j hj
    rw [specWriteChunks_succ, Nat.zero_add]
    by_cases hjm : j = m
    · subst hjm
      exact Store.lookup_set_same _ _ _
    · rw [Store.lookup_set_other _ _ (chunkKey_ne key (by omega : j < m) (by omega))]
      exact ih (by omega) j (by omega)

theorem lookup_specWriteChunks_miss (key : FdbKey) (cs i : Nat) (blob : Bytes) (s : Store)
    (k : FdbKey) : ∀ n, (∀ j, j < n → k ≠ key ++ be16 (i + j)) →
      (specWriteChunks key cs i blob n s).lookup k = s.lookup k := by
  intro n
  induction n with
  | zero => intro _; rw [specWriteChunks_zero]
  | succ m ih =>
    intro h
    rw [specWriteChunks_succ, Store.lookup_set_other _ _ (h m (by omega))]
    exact ih (fun j hj => h j (by omega))

theorem specChunkCount_eq_ceil (cs : Nat) (blob : Bytes) (hcs : 1 ≤ cs) :
    specChunkCount cs blob = if blob.length = 0 then 1 else (blob.length + cs - 1) / cs := by
  simp only [specChunkCount]
  by_cases h : blob.length = 0
  · simp [h]
  · rw [if_neg h]
    have : blob.length + cs - 1 = (blob.length - 1) + cs := by omega
    rw [this, Nat.add_div_right _ (by omega : 0 < cs)]

theorem flatten_all_specChunks (cs : Nat) (blob : Bytes) (hcs : 1 ≤ cs) :
    ((List.range (specChunkCount cs blob)).map (specChunk cs blob)).flatten = blob := by
  have h := flatten_specChunks cs blob (specChunkCount cs blob)
  rw [List.take_of_length_le (specChunkCount_mul_ge cs blob hcs)] at h
  exact h

/-- C8 (amended): for every blob `b` of at most `65536 * ChunkSize` bytes and
`ChunkSize >= 1`, `saveBlob` succeeds and writes `ceil(len b / ChunkSize)` chunks (one empty
chunk for the empty blob): chunk `j` is the value of key `(ChunkType, id ‖ j_u16_BE)`, these
keys are pairwise distinct, no other key changes, every chunk has at most `ChunkSize` bytes,
and the chunks concatenated in index order are `b`. -/
theorem saveBlob_chunks (env : Env) (blobID : Bytes) (flags : Nat) (blob : Bytes) (s : Store)
    (hcs : 1 ≤ env.ChunkSize) (hid : blobID.length = 16)
    (hlen : (blob.length : Int) ≤ 65536 * env.ChunkSize) :
    ∃ s1, saveBlob env blobID flags blob s = .ok (flags ||| flagChunk, blobID, s1) ∧
      specChunkCount env.ChunkSize.toNat blob =
        (if blob.length = 0 then 1
         else (blob.length + env.ChunkSize.toNat - 1) / env.ChunkSize.toNat) ∧
      (∀ j, j < specChunkCount env.ChunkSize.toNat blob →
        s1.lookup (env.chunkKey blobID ++ be16 j) = some (specChunk env.ChunkSize.toNat blob j)) ∧
      (∀ k, (∀ j, j < specChunkCount env.ChunkSize.toNat blob →
        k ≠ env.chunkKey blobID ++ be16 j) → s1.lookup k = s.lookup k) ∧
      (∀ i j, i < j → j < specChunkCount env.ChunkSize.toNat blob →
        env.chunkKey blobID ++ be16 i ≠ env.chunkKey blobID ++ be16 j) ∧
      (∀ j, ((specChunk env.ChunkSize.toNat blob j).length : Int) ≤ env.ChunkSize) ∧
      ((List.range (specChunkCount env.ChunkSize.toNat blob)).map
        (specChunk env.ChunkSize.toNat blob)).flatten = blob := by
  have hid1 := ne_nil_of_length_16 hid
  obtain ⟨c, hc⟩ := Int.eq_ofNat_of_zero_le (by omega : 0 ≤ env.ChunkSize)
  have hcn : env.ChunkSize.toNat = c := by simp [hc]
  have hc1 : 1 ≤ c := by omega
  have hn : specChunkCount c blob ≤ 65536 :=
    specChunkCount_le c blob hc1 65536 (by omega) (by omega)
  refine ⟨_, saveBlob_eq env blobID flags blob s hcs hid1, ?_, ?_, ?_, ?_, ?_, ?_⟩
  · rw [hcn]
    exact specChunkCount_eq_ceil c blob hc1
  · rw [hcn]
    exact lookup_specWriteChunks_hit _ c blob s _ hn
  · rw [hcn]
    intro k hk
    exact lookup_specWriteChunks_miss _ c 0 blob s k _ (by simpa using hk)
  · rw [hcn]
    intro i j hij hj
    exact chunkKey_ne _ hij (by omega)
  · rw [hcn]
    intro j
    have := specChunk_length_le c blob j
    omega
  · rw [hcn]
    exact flatten_all_specChunks c blob hc1

end Fdbx

namespace Fdbx

theorem chunk_sizes_example (x : Bytes) (hx : x.length = 250000) :
    specChunkCount 100000 x = 3 ∧ (specChunk 100000 x 0).length = 100000 ∧
      (specChunk 100000 x 1).length = 100000 ∧ (specChunk 100000 x 2).length = 50000 := by
  simp [specChunkCount, specChunk, hx]

theorem last_chunk_example (a : Bytes) (ha : a.length = 65535) :
    (0 :: (a ++ [1])).length = 65537 ∧ specChunk 1 (0 :: (a ++ [1])) 65536 = [1] ∧
      specChunk 1 (0 :: (a ++ [1])) 0 = [0] := by
  refine ⟨by simp [ha], ?_, by simp [specChunk]⟩
  have h : (0 :: (a ++ [1])) = (0 :: a) ++ [1] := rfl
  rw [specChunk, h, List.drop_left' (by simp [ha])]
  rfl

/-- The example of C8: 250000 bytes with `ChunkSize = 100000` give chunks 0, 1, 2 of sizes
100000, 100000 and 50000. -/
theorem saveBlob_chunks_witness :
    (∃ s1, saveBlob exampleEnv sampleBlobID 0 exampleBlob [] =
        .ok (0 ||| flagChunk, sampleBlobID, s1) ∧
      specChunkCount exampleEnv.ChunkSize.toNat exampleBlob =
        (if exampleBlob.length = 0 then 1
         else (exampleBlob.length + exampleEnv.ChunkSize.toNat - 1) /
           exampleEnv.ChunkSize.toNat) ∧
      (∀ j, j < specChunkCount exampleEnv.ChunkSize.toNat exampleBlob →
        s1.lookup (exampleEnv.chunkKey sampleBlobID ++ be16 j) =
          some (specChunk exampleEnv.ChunkSize.toNat exampleBlob j)) ∧
      (∀ k, (∀ j, j < specChunkCount exampleEnv.ChunkSize.toNat exampleBlob →
        k ≠ exampleEnv.chunkKey sampleBlobID ++ be16 j) →
          s1.lookup k = List.lookup k ([] : Store)) ∧
      (∀ i j, i < j → j < specChunkCount exampleEnv.ChunkSize.toNat exampleBlob →
        exampleEnv.chunkKey sampleBlobID ++ be16 i ≠
          exampleEnv.chunkKey sampleBlobID ++ be16 j) ∧
      (∀ j, ((specChunk exampleEnv.ChunkSize.toNat exampleBlob j).length : Int) ≤
        exampleEnv.ChunkSize) ∧
      ((List.range (specChunkCount exampleEnv.ChunkSize.toNat exampleBlob)).map
        (specChunk exampleEnv.ChunkSize.toNat exampleBlob)).flatten = exampleBlob) ∧
    exampleEnv.ChunkSize.toNat = 100000 ∧
    exampleBlob.length = 250000 ∧
    specChunkCount 100000 exampleBlob = 3 ∧
    (specChunk 100000 exampleBlob 0).length = 100000 ∧
    (specChunk 100000 exampleBlob 1).length = 100000 ∧
    (specChunk 100000 exampleBlob 2).length = 50000 :=
  ⟨saveBlob_chunks exampleEnv sampleBlobID 0 exampleBlob [] (by decide) rfl
      (by rw [show exampleBlob.length = 250000 from List.length_replicate _ _]; decide),
    rfl, List.length_replicate _ _, chunk_sizes_example _ (List.length_replicate _ _)⟩

theorem saveBlob_wraps (x : Bytes) (hx : x.length = 65537) :
    ∃ s1, saveBlob (sampleEnv 1 1000000 (fun _ => [])) sampleBlobID 0 x [] =
        .ok (0 ||| flagChunk, sampleBlobID, s1) ∧
      s1.lookup ((sampleEnv 1 1000000 (fun _ => [])).chunkKey sampleBlobID ++ be16 0) =
        some (specChunk 1 x 65536) := by
  have e : (sampleEnv 1 1000000 (fun _ => [])).ChunkSize.toNat = 1 := rfl
  have hcount : specChunkCount 1 x = 65536 + 1 := by
    simp [specChunkCount, hx]
  refine ⟨_, saveBlob_eq _ sampleBlobID 0 x [] (by decide) (by decide), ?_⟩
  rw [e, hcount, specWriteChunks_succ]
  have hb : be16 (0 + 65536) = be16 0 := by decide
  rw [hb]
  exact Store.lookup_set_same _ _ _

/-- C8, counterexample: with `ChunkSize = 1`, a blob of 65537 bytes (65536 zeros, then a one)
has 65537 chunks; the `uint16` counter wraps, chunk 65536 is written under the key of chunk 0,
so that key holds `[1]` and not chunk 0, which is `[0]`. -/
theorem saveBlob_chunks_counterexample :
    ∃ s1, saveBlob (sampleEnv 1 1000000 (fun _ => [])) sampleBlobID 0
        (0 :: (List.replicate 65535 0 ++ [1])) [] = .ok (0 ||| flagChunk, sampleBlobID, s1) ∧
      s1.lookup ((sampleEnv 1 1000000 (fun _ => [])).chunkKey sampleBlobID ++ be16 0) =
        some [1] ∧
      specChunk 1 (0 :: (List.replicate 65535 0 ++ [1])) 0 = [0] := by
  obtain ⟨h0, h1, h2⟩ := last_chunk_example (List.replicate 65535 0) (List.length_replicate _ _)
  obtain ⟨s1, h3, h4⟩ := saveBlob_wraps (0 :: (List.replicate 65535 0 ++ [1])) h0
  exact ⟨s1, h3, by rw [h4, h1], h2⟩

end Fdbx

namespace Fdbx

/-! ## Queue keys -/

theorem be64_eq_beDigits (n : Nat) : be64 n = beDigits 8 n := by
  simp only [beDigits, be64]
  norm_num

theorem keyLt_beDigits (k : Nat) : ∀ a b : Nat, a % 256 ^ k < b % 256 ^ k →
    keyLt (beDigits k a) (beDigits k b) = true := by
  induction k with
  | zero => intro a b h; simp [Nat.mod_one] at h
  | succ k ih =>
    intro a b h
    simp only [beDigits, keyLt, Bool.or_eq_true, Bool.and_eq_true, decide_eq_true_eq]
    rw [Nat.pow_succ, Nat.mod_mul, Nat.mod_mul] at h
    have hp : 0 < 256 ^ k := Nat.pow_pos (by omega)
    have ha := Nat.mod_lt a hp
    have hb := Nat.mod_lt b hp
    rcases Nat.lt_trichotomy (a / 256 ^ k % 256) (b / 256 ^ k % 256) with hlt | heq | hgt
    · exact Or.inl hlt
    · refine Or.inr ⟨heq, ih a b ?_⟩
      rw [heq] at h
      omega
    · exfalso
      have h1 : 256 ^ k * (b / 256 ^ k % 256 + 1) ≤ 256 ^ k * (a / 256 ^ k % 256) :=
        Nat.mul_le_mul_left _ hgt
      rw [Nat.mul_add, Nat.mul_one] at h1
      omega

theorem keyLt_be64 {a b : Nat} (hab : a < b) (hb : b < 2 ^ 64) :
    keyLt (be64 a) (be64 b) = true := by
  rw [be64_eq_beDigits, be64_eq_beDigits]
  apply keyLt_beDigits
  have e : (256 : Nat) ^ 8 = 2 ^ 64 := by norm_num
  rw [e, Nat.mod_eq_of_lt (by omega), Nat.mod_eq_of_lt hb]
  exact hab

theorem be64_length (n : Nat) : (be64 n).length = 8 := rfl

theorem u64_of_nonneg {t : Int} (h0 : 0 ≤ t) (h1 : t < 2 ^ 63) : u64 t = t.toNat := by
  unfold u64
  rw [Int.emod_eq_of_lt h0 (by omega)]

theorem keyLt_append_of_lt {x y : FdbKey} (u v : FdbKey) (hlen : x.length = y.length)
    (h : keyLt x y = true) : keyLt (x ++ u) (y ++ v) = true := by
  induction x generalizing y with
  | nil =>
    cases y with
    | nil => simp [keyLt] at h
    | cons b bs => simp at hlen
  | cons a as ih =>
    cases y with
    | nil => simp at hlen
    | cons b bs =>
      simp only [keyLt, Bool.or_eq_true, Bool.and_eq_true, decide_eq_true_eq, List.cons_append]
        at h ⊢
      rcases h with h | ⟨h1, h2⟩
      · exact Or.inl h
      · exact Or.inr ⟨h1, ih (by simpa using hlen) h2⟩

theorem Pub_eq (env : Env) (qid : Nat) (s : Store) (m : Model) (t : Time) (now : Int) :
    Pub env qid (some s) (some m) t now =
      .ok ((s.set (env.pendingKey qid (if t.isZero then now else t.unixNano) m.id) []).set
        (env.watchKey qid) (be64 (u64 (if t.isZero then now else t.unixNano)))) := by
  simp [Pub, Set, Env.Key, pendingID, be64, Env.pendingKey, Env.watchKey]

/-- C10 (amended): for every two firing times `0 <= t1 < t2` (`int64` nanoseconds since the
epoch) and every two records, the pending key that `Pub` sets for `(t1, id1)` is strictly
smaller in lexicographic byte order than the one it sets for `(t2, id2)`; for equal times the
keys are ordered as the record-id bytes are. -/
theorem pub_key_order (env : Env) (qid : Nat) (t1 t2 : Int) (m1 m2 : Model) (s : Store)
    (now : Int) (h0 : 0 ≤ t1) (h12 : t1 < t2) (h2 : t2 < 2 ^ 63) :
    Pub env qid (some s) (some m1) ⟨false, t1⟩ now =
        .ok ((s.set (env.pendingKey qid t1 m1.id) []).set (env.watchKey qid) (be64 (u64 t1))) ∧
      Pub env qid (some s) (some m2) ⟨false, t2⟩ now =
        .ok ((s.set (env.pendingKey qid t2 m2.id) []).set (env.watchKey qid) (be64 (u64 t2))) ∧
      keyLt (env.pendingKey qid t1 m1.id) (env.pendingKey qid t2 m2.id) = true ∧
      ∀ t : Int, keyLt (env.pendingKey qid t m1.id) (env.pendingKey qid t m2.id) =
        keyLt m1.id m2.id := by
  refine ⟨Pub_eq env qid s m1 _ now, Pub_eq env qid s m2 _ now, ?_, ?_⟩
  · simp only [Env.pendingKey, pendingID, keyLt_append_left]
    refine keyLt_append_of_lt _ _ ?_ ?_
    · rfl
    · rw [u64_of_nonneg h0 (by omega), u64_of_nonneg (by omega) h2]
      apply keyLt_be64
      · omega
      · omega
  · intro t
    simp only [Env.pendingKey, pendingID, keyLt_append_left]

theorem pub_key_order_witness :
    Pub (sampleEnv 4 2 (fun _ => [])) 9 (some []) (some (sampleModel [1])) ⟨false, 5⟩ 0 =
        .ok ((Store.set ((sampleEnv 4 2 (fun _ => [])).pendingKey 9 5 (sampleModel [1]).id) []
          []).set ((sampleEnv 4 2 (fun _ => [])).watchKey 9) (be64 (u64 5))) ∧
      Pub (sampleEnv 4 2 (fun _ => [])) 9 (some []) (some (sampleModel [0])) ⟨false, 6⟩ 0 =
        .ok ((Store.set ((sampleEnv 4 2 (fun _ => [])).pendingKey 9 6 (sampleModel [0]).id) []
          []).set ((sampleEnv 4 2 (fun _ => [])).watchKey 9) (be64 (u64 6))) ∧
      keyLt ((sampleEnv 4 2 (fun _ => [])).pendingKey 9 5 (sampleModel [1]).id)
        ((sampleEnv 4 2 (fun _ => [])).pendingKey 9 6 (sampleModel [0]).id) = true ∧
      ∀ t : Int, keyLt ((sampleEnv 4 2 (fun _ => [])).pendingKey 9 t (sampleModel [1]).id)
          ((sampleEnv 4 2 (fun _ => [])).pendingKey 9 t (sampleModel [0]).id) =
        keyLt (sampleModel [1]).id (sampleModel [0]).id :=
  pub_key_order (sampleEnv 4 2 (fun _ => [])) 9 5 6 (sampleModel [1]) (sampleModel [0]) [] 0
    (by decide) (by decide) (by decide)

/-- C10, counterexample: for the firing times `t1 = -1 < t2 = 0` (one nanosecond before the
epoch, and the epoch) `uint64(t1)` is `2^64 - 1`, and the pending key `Pub` sets for `t1` is
larger than the one it sets for `t2`. -/
theorem pub_key_order_counterexample :
    Pub (sampleEnv 4 2 (fun _ => [])) 9 (some []) (some (sampleModel [1])) ⟨false, -1⟩ 0 =
        .ok [((sampleEnv 4 2 (fun _ => [])).watchKey 9, be64 (u64 (-1))),
          ((sampleEnv 4 2 (fun _ => [])).pendingKey 9 (-1) [1], [])] ∧
      Pub (sampleEnv 4 2 (fun _ => [])) 9 (some []) (some (sampleModel [1])) ⟨false, 0⟩ 0 =
        .ok [((sampleEnv 4 2 (fun _ => [])).pendingKey 9 0 [1], []),
          ((sampleEnv 4 2 (fun _ => [])).watchKey 9, be64 (u64 0))] ∧
      (-1 : Int) < 0 ∧
      keyLt ((sampleEnv 4 2 (fun _ => [])).pendingKey 9 (-1) [1])
        ((sampleEnv 4 2 (fun _ => [])).pendingKey 9 0 [1]) = false ∧
      keyLt ((sampleEnv 4 2 (fun _ => [])).pendingKey 9 0 [1])
        ((sampleEnv 4 2 (fun _ => [])).pendingKey 9 (-1) [1]) = true := by
  decide

end Fdbx

namespace Fdbx

/-! ## Clearing keys -/

namespace Store

theorem mem_keys_clear {k k2 : FdbKey} {s : Store} :
    k2 ∈ keys (clear k s) ↔ k2 ≠ k ∧ k2 ∈ keys s := by
  simp only [keys, clear, List.mem_map, List.mem_filter, decide_eq_true_eq]
  constructor
  · rintro ⟨x, ⟨hx, hne⟩, rfl⟩
    exact ⟨hne, x, hx, rfl⟩
  · rintro ⟨hne, x, hx, rfl⟩
    exact ⟨x, ⟨hx, hne⟩, rfl⟩

theorem mem_keys_clearRange {b e k : FdbKey} {s : Store} :
    k ∈ keys (clearRange b e s) ↔ inRange b e k = false ∧ k ∈ keys s := by
  simp only [keys, clearRange, List.mem_map, List.mem_filter, Bool.not_eq_true']
  constructor
  · rintro ⟨x, ⟨hx, hr⟩, rfl⟩
    exact ⟨hr, x, hx, rfl⟩
  · rintro ⟨hr, x, hx, rfl⟩
    exact ⟨x, ⟨hx, hr⟩, rfl⟩

theorem clear_WF {k : FdbKey} {s : Store} (h : WF s) : WF (clear k s) := WF_filter _ h

theorem clearRange_WF {b e : FdbKey} {s : Store} (h : WF s) : WF (clearRange b e s) :=
  WF_filter _ h

theorem lookup_filter_key (p : FdbKey → Bool) (k : FdbKey) (s : Store) (hp : p k = true) :
    (s.filter (fun e => p e.1)).lookup k = s.lookup k := by
  induction s with
  | nil => rfl
  | cons e r ih =>
    obtain ⟨k1, v1⟩ := e
    by_cases h1 : k = k1
    · subst h1
      simp [List.filter_cons, hp, List.lookup]
    · have hk : (k == k1) = false := by simpa using h1
      cases hp1 : p k1 <;> simp [List.filter_cons, hp1, List.lookup, hk, ih]

theorem lookup_clear_other {k k2 : FdbKey} (s : Store) (hne : k2 ≠ k) :
    (clear k s).lookup k2 = s.lookup k2 :=
  lookup_filter_key (fun x => decide (x ≠ k)) k2 s (by simpa using hne)

theorem lookup_eq_none_iff {k : FdbKey} {s : Store} : s.lookup k = none ↔ k ∉ keys s := by
  induction s with
  | nil => simp [keys]
  | cons e r ih =>
    obtain ⟨k1, v1⟩ := e
    by_cases h1 : k = k1
    · subst h1
      simp [List.lookup, keys]
    · have hk : (k == k1) = false := by simpa using h1
      have ih1 : List.lookup k r = none ↔ k ∉ List.map Prod.fst r := ih
      simp [List.lookup, hk, keys, h1, ih1]

theorem lookup_clear_same (k : FdbKey) (s : Store) : (clear k s).lookup k = none := by
  rw [lookup_eq_none_iff, mem_keys_clear]
  exact fun h => h.1 rfl

theorem eq_nil_of_keys {s : Store} (h : ∀ k, k ∉ keys s) : s = [] := by
  cases s with
  | nil => rfl
  | cons e r => exact absurd (List.mem_cons_self _ _) (h e.1)

theorem mem_keys_of_lookup {k : FdbKey} {v : Bytes} {s : Store} (h : s.lookup k = some v) :
    k ∈ keys s := by
  by_contra hk
  rw [← lookup_eq_none_iff] at hk
  rw [hk] at h
  exact Option.noConfusion h

end Store

end Fdbx

namespace Fdbx

/-! ## Index maintenance -/

namespace Store

theorem clearAll_nil (s : Store) : clearAll [] s = s := rfl

theorem clearAll_cons (k : FdbKey) (ks : List FdbKey) (s : Store) :
    clearAll (k :: ks) s = clearAll ks (s.clear k) := rfl

theorem setAll_nil (s : Store) : setAll [] s = s := rfl

theorem setAll_cons (k : FdbKey) (ks : List FdbKey) (s : Store) :
    setAll (k :: ks) s = setAll ks (s.set k []) := rfl

theorem mem_keys_clearAll {ks : List FdbKey} {s : Store} {k : FdbKey} :
    k ∈ keys (clearAll ks s) ↔ k ∉ ks ∧ k ∈ keys s := by
  induction ks generalizing s with
  | nil => simp [clearAll_nil]
  | cons a as ih =>
    rw [clearAll_cons, ih, mem_keys_clear]
    simp only [List.mem_cons, not_or]
    tauto

theorem clearAll_WF {ks : List FdbKey} {s : Store} (h : WF s) : WF (clearAll ks s) := by
  induction ks generalizing s with
  | nil => exact h
  | cons a as ih => exact ih (clear_WF h)

theorem lookup_clearAll_other {ks : List FdbKey} {s : Store} {k : FdbKey} (hk : k ∉ ks) :
    (clearAll ks s).lookup k = s.lookup k := by
  induction ks generalizing s with
  | nil => rfl
  | cons a as ih =>
    rw [clearAll_cons, ih (fun h => hk (List.mem_cons_of_mem _ h)),
      lookup_clear_other _ (fun h => hk (by rw [h]; exact List.mem_cons_self _ _))]

theorem mem_keys_setAll {ks : List FdbKey} {s : Store} {k : FdbKey} :
    k ∈ keys (setAll ks s) ↔ k ∈ ks ∨ k ∈ keys s := by
  induction ks generalizing s with
  | nil => simp [setAll_nil]
  | cons a as ih =>
    rw [setAll_cons, ih, mem_keys_set]
    simp only [List.mem_cons]
    tauto

theorem setAll_WF {ks : List FdbKey} {s : Store} (h : WF s) : WF (setAll ks s) := by
  induction ks generalizing s with
  | nil => exact h
  | cons a as ih => exact ih (set_WF h)

theorem lookup_setAll_other {ks : List FdbKey} {s : Store} {k : FdbKey} (hk : k ∉ ks) :
    (setAll ks s).lookup k = s.lookup k := by
  induction ks generalizing s with
  | nil => rfl
  | cons a as ih =>
    rw [setAll_cons, ih (fun h => hk (List.mem_cons_of_mem _ h)),
      lookup_set_other _ _ (fun h => hk (by rw [h]; exact List.mem_cons_self _ _))]

theorem lookup_setAll_mem {ks : List FdbKey} {s : Store} {k : FdbKey} (hk : k ∈ ks) :
    (setAll ks s).lookup k = some [] := by
  induction ks generalizing s with
  | nil => exact absurd hk (List.not_mem_nil _)
  | cons a as ih =>
    rw [setAll_cons]
    by_cases h : k ∈ as
    · exact ih h
    · rcases List.mem_cons.1 hk with h1 | h1
      · subst h1
        rw [lookup_setAll_other h, lookup_set_same]
      · exact absurd h1 h

end Store

theorem clearIndexes_eq {ixs : List (Bytes → Except Err FdbKey)} {buf : Bytes}
    {ks : List FdbKey} (h : indexKeys ixs buf = .ok ks) (s : Store) :
    clearIndexes ixs buf s = .ok (s.clearAll ks) := by
  induction ixs generalizing ks s with
  | nil =>
    simp only [indexKeys, Except.ok.injEq] at h
    subst h
    rfl
  | cons index rest ih =>
    simp only [indexKeys] at h
    cases hi : index buf with
    | error e => simp [hi] at h
    | ok idx =>
      cases hr : indexKeys rest buf with
      | error e => simp [hi, hr] at h
      | ok ks1 =>
        simp only [hi, hr, Except.ok.injEq] at h
        subst h
        simp only [clearIndexes, hi, ih hr, Store.clearAll_cons]

theorem setIndexes_eq {ixs : List (Bytes → Except Err FdbKey)} {buf : Bytes}
    {ks : List FdbKey} (h : indexKeys ixs buf = .ok ks) (s : Store) :
    setIndexes ixs buf s = .ok (s.setAll ks) := by
  induction ixs generalizing ks s with
  | nil =>
    simp only [indexKeys, Except.ok.injEq] at h
    subst h
    rfl
  | cons index rest ih =>
    simp only [indexKeys] at h
    cases hi : index buf with
    | error e => simp [hi] at h
    | ok idx =>
      cases hr : indexKeys rest buf with
      | error e => simp [hi, hr] at h
      | ok ks1 =>
        simp only [hi, hr, Except.ok.injEq] at h
        subst h
        simp only [setIndexes, hi, ih hr, Store.setAll_cons]

end Fdbx

namespace Fdbx

/-! ## `pack` and `save` as store transformers -/

theorem not_prefix_ne_chunk {key k : FdbKey} (h : ¬ key <+: k) (j : Nat) :
    k ≠ key ++ be16 j := by
  intro hk
  exact h ⟨be16 j, hk.symm⟩

/-- `pack` succeeds when gzip does; it writes only keys that extend the chunk prefix of the
blob id, so every other key keeps its value. -/
theorem pack_frame (env : Env) (blobID x : Bytes) (s : Store)
    (hcs : 1 ≤ env.ChunkSize) (hid : blobID ≠ []) (hz : ∃ z, env.gzip x = .ok z) :
    ∃ f body s1, pack env blobID x s = .ok (f :: body, s1) ∧
      (∀ k, ¬ env.chunkKey blobID <+: k → s1.lookup k = s.lookup k) ∧
      (s.WF → s1.WF) := by
  obtain ⟨z, hz⟩ := hz
  have hbig : ∀ (f : Nat) (b : Bytes), packGZip env x = .ok (f, b) →
      (b.length : Int) > env.ChunkSize →
      ∃ f body s1, pack env blobID x s = .ok (f :: body, s1) ∧
        (∀ k, ¬ env.chunkKey blobID <+: k → s1.lookup k = s.lookup k) ∧ (s.WF → s1.WF) := by
    intro f b hp hc
    refine ⟨_, _, _, pack_big env blobID x b f s hcs hid hp hc, ?_, ?_⟩
    · intro k hk
      exact lookup_specWriteChunks_miss _ _ 0 b s k _ (fun j _ => not_prefix_ne_chunk hk _)
    · exact fun h => specWriteChunks_WF _ _ _ _ _ h
  have hsmall : ∀ (f : Nat) (b : Bytes), packGZip env x = .ok (f, b) →
      ¬ (b.length : Int) > env.ChunkSize →
      ∃ f body s1, pack env blobID x s = .ok (f :: body, s1) ∧
        (∀ k, ¬ env.chunkKey blobID <+: k → s1.lookup k = s.lookup k) ∧ (s.WF → s1.WF) :=
    fun f b hp hc => ⟨_, _, _, pack_small env blobID x b f s hp hc, fun _ _ => rfl, id⟩
  by_cases hg : (x.length : Int) > env.GZipSize
  · by_cases hc : (z.length : Int) > env.ChunkSize
    · exact hbig _ _ (packGZip_over env x z hz hg) hc
    · exact hsmall _ _ (packGZip_over env x z hz hg) hc
  · by_cases hc : (x.length : Int) > env.ChunkSize
    · exact hbig _ _ (packGZip_under env x hg) hc
    · exact hsmall _ _ (packGZip_under env x hg) hc

/-- The index keys `save` clears before writing: those of the previous dump when it is
non-empty, none otherwise. -/
theorem save_eq (env : Env) (blobID : Bytes) (m : Model) (s : Store) (key : FdbKey) (b : Bytes)
    (ksd ksb : List FdbKey) (hkey : env.MKey m = .ok key) (hb : m.pack = .ok b)
    (hksd : (if m.dump.length > 0 then indexKeys (env.indexes m.type) m.dump else .ok []) =
      .ok ksd)
    (hksb : indexKeys (env.indexes m.type) b = .ok ksb) (packed : Bytes) (s3 : Store)
    (hp : pack env blobID b ((s.clearAll ksd).setAll ksb) = .ok (packed, s3)) :
    save env blobID m s = .ok (s3.set key packed) := by
  have hclear : (if m.dump.length > 0 then clearIndexes (env.indexes m.type) m.dump s
      else .ok s) = .ok (s.clearAll ksd) := by
    by_cases hd : m.dump.length > 0
    · rw [if_pos hd] at hksd ⊢
      exact clearIndexes_eq hksd s
    · rw [if_neg hd] at hksd ⊢
      simp only [Except.ok.injEq] at hksd
      subst hksd
      rfl
  simp only [save, hkey, hclear, hb, setIndexes_eq hksb, hp]

end Fdbx

namespace Fdbx

theorem Store.mem_keys_iff_lookup {k : FdbKey} {s : Store} : k ∈ s.keys ↔ s.lookup k ≠ none := by
  rw [Ne, Store.lookup_eq_none_iff, not_not]

/-- `save` succeeds when the key, the marshalling, the index functions and gzip do; away from
the primary key and the chunk keys of its blob id the store is the old one with the old index
keys cleared and the new ones set. -/
theorem save_frame (env : Env) (blobID : Bytes) (m : Model) (s : Store) (key : FdbKey)
    (b : Bytes) (ksd ksb : List FdbKey) (hkey : env.MKey m = .ok key) (hb : m.pack = .ok b)
    (hksd : (if m.dump.length > 0 then indexKeys (env.indexes m.type) m.dump else .ok []) =
      .ok ksd)
    (hksb : indexKeys (env.indexes m.type) b = .ok ksb)
    (hcs : 1 ≤ env.ChunkSize) (hid : blobID ≠ []) (hz : ∃ z, env.gzip b = .ok z) :
    ∃ s1, save env blobID m s = .ok s1 ∧
      (∀ k, k ≠ key → ¬ env.chunkKey blobID <+: k →
        s1.lookup k = ((s.clearAll ksd).setAll ksb).lookup k) ∧
      (s.WF → s1.WF) := by
  obtain ⟨f, body, s3, hp, hfr, hwf⟩ :=
    pack_frame env blobID b ((s.clearAll ksd).setAll ksb) hcs hid hz
  refine ⟨_, save_eq env blobID m s key b ksd ksb hkey hb hksd hksb _ _ hp, ?_, ?_⟩
  · intro k hk hck
    rw [Store.lookup_set_other _ _ hk, hfr k hck]
  · intro h
    exact Store.set_WF (hwf (Store.setAll_WF (Store.clearAll_WF h)))

theorem mem_keys_reindexed {s : Store} {ksd ksb : List FdbKey} {k : FdbKey} :
    ((s.clearAll ksd).setAll ksb).lookup k ≠ none ↔ k ∈ ksb ∨ (k ∉ ksd ∧ k ∈ s.keys) := by
  rw [← Store.mem_keys_iff_lookup, Store.mem_keys_setAll, Store.mem_keys_clearAll]

/-- C9 (amended): for a record whose previous-dump hook returns a non-empty buffer `d` and
whose marshal returns `b`, `Save` succeeds; afterwards every index key computed from `b` is
present with the empty value, every index key computed from `d` and not from `b` is absent,
and when `d = b` and the store held the index keys computed from `d` before the `Save`, the
keys other than the primary key and the chunks of the blob are the same before and after.
Index keys are assumed to lie outside the primary key and the chunk keys of the blob id. -/
theorem save_reindex (env : Env) (blobID : Bytes) (m : Model) (s : Store) (key : FdbKey)
    (b : Bytes) (ksd ksb : List FdbKey) (hkey : env.MKey m = .ok key)
    (hdump : m.dump ≠ []) (hb : m.pack = .ok b)
    (hksd : indexKeys (env.indexes m.type) m.dump = .ok ksd)
    (hksb : indexKeys (env.indexes m.type) b = .ok ksb)
    (hcs : 1 ≤ env.ChunkSize) (hid : blobID.length = 16) (hz : ∃ z, env.gzip b = .ok z)
    (hsep : ∀ k, k ∈ ksd ∨ k ∈ ksb → k ≠ key ∧ ¬ env.chunkKey blobID <+: k) :
    ∃ s1, save env blobID m s = .ok s1 ∧
      (∀ k ∈ ksb, s1.lookup k = some []) ∧
      (∀ k ∈ ksd, k ∉ ksb → s1.lookup k = none) ∧
      (m.dump = b → (∀ k ∈ ksd, k ∈ s.keys) →
        ∀ k, k ≠ key → ¬ env.chunkKey blobID <+: k → (k ∈ s1.keys ↔ k ∈ s.keys)) := by
  have hlen : m.dump.length > 0 := List.length_pos.2 hdump
  have hksd1 : (if m.dump.length > 0 then indexKeys (env.indexes m.type) m.dump else .ok []) =
      .ok ksd := by rw [if_pos hlen]; exact hksd
  obtain ⟨s1, hs, hfr, _⟩ := save_frame env blobID m s key b ksd ksb hkey hb hksd1 hksb hcs
    (ne_nil_of_length_16 hid) hz
  refine ⟨s1, hs, ?_, ?_, ?_⟩
  · intro k hk
    obtain ⟨h1, h2⟩ := hsep k (Or.inr hk)
    rw [hfr k h1 h2, Store.lookup_setAll_mem hk]
  · intro k hk hnb
    obtain ⟨h1, h2⟩ := hsep k (Or.inl hk)
    rw [hfr k h1 h2, Store.lookup_setAll_other hnb, Store.lookup_eq_none_iff,
      Store.mem_keys_clearAll]
    exact fun h => h.1 hk
  · intro hdb hprev k h1 h2
    have hks : ksd = ksb := by
      rw [hdb, hksb] at hksd
      exact (Except.ok.inj hksd).symm
    subst hks
    rw [Store.mem_keys_iff_lookup, hfr k h1 h2, mem_keys_reindexed]
    constructor
    · rintro (h | ⟨_, h⟩)
      · exact hprev k h
      · exact h
    · intro h
      by_cases hk : k ∈ ksd
      · exact Or.inl hk
      · exact Or.inr ⟨hk, h⟩

/-- C2 (amended): for every record `m` and every store in which the index keys present are
among those computed from `m`'s previous dump (none when the dump is empty), `Save(m)`
succeeds and afterwards the index keys present are exactly those computed from `marshal(m)`.
`P` is the index key space; it excludes the primary key and the chunk keys. -/
theorem save_index_set (env : Env) (blobID : Bytes) (m : Model) (s : Store) (key : FdbKey)
    (b : Bytes) (ksd ksb : List FdbKey) (P : FdbKey → Prop)
    (hkey : env.MKey m = .ok key) (hb : m.pack = .ok b)
    (hksd : (if m.dump.length > 0 then indexKeys (env.indexes m.type) m.dump else .ok []) =
      .ok ksd)
    (hksb : indexKeys (env.indexes m.type) b = .ok ksb)
    (hcs : 1 ≤ env.ChunkSize) (hid : blobID.length = 16) (hz : ∃ z, env.gzip b = .ok z)
    (hPkey : ¬ P key) (hPchunk : ∀ k, P k → ¬ env.chunkKey blobID <+: k)
    (hPb : ∀ k ∈ ksb, P k) (hprev : ∀ k ∈ s.keys, P k → k ∈ ksd) :
    ∃ s1, save env blobID m s = .ok s1 ∧ (∀ k ∈ ksb, k ∈ s1.keys) ∧
      ∀ k, P k → (k ∈ s1.keys ↔ k ∈ ksb) := by
  obtain ⟨s1, hs, hfr, _⟩ := save_frame env blobID m s key b ksd ksb hkey hb hksd hksb hcs
    (ne_nil_of_length_16 hid) hz
  suffices hiff : ∀ k, P k → (k ∈ s1.keys ↔ k ∈ ksb) from
    ⟨s1, hs, fun k hk => (hiff k (hPb k hk)).2 hk, hiff⟩
  intro k hk
  have h1 : k ≠ key := fun h => hPkey (h ▸ hk)
  rw [Store.mem_keys_iff_lookup, hfr k h1 (hPchunk k hk), mem_keys_reindexed]
  constructor
  · rintro (h | ⟨h, h2⟩)
    · exact h
    · exact absurd (hprev k h2 hk) h
  · exact fun h => Or.inl h

theorem sampleIndexSpace_not_chunk (cs gz : Int) (k : FdbKey) (h : sampleIndexSpace k) :
    ¬ (sampleEnv cs gz sampleIndexes).chunkKey sampleBlobID <+: k := by
  rintro ⟨t, rfl⟩
  have h1 : ((sampleEnv cs gz sampleIndexes).chunkKey sampleBlobID ++ t).take 4 =
      [0, 1, 255, 255] := by
    show List.take 4 ((be16 1 ++ be16 65535 ++ sampleBlobID) ++ t) = _
    have e : be16 1 ++ be16 65535 = [0, 1, 255, 255] := by decide
    rw [List.append_assoc, List.append_assoc, ← List.append_assoc (be16 1), e]
    rfl
  have h2 : [0, 1, 255, 255] = [0, 1, 0, 8] := h1.symm.trans h
  exact absurd h2 (by decide)

theorem save_index_set_witness :
    ∃ s1, save (sampleEnv 100 100 sampleIndexes) sampleBlobID (sampleRecord [1, 5] [2, 5])
        [([0, 1, 0, 7, 1], [0, 1, 5]), ([0, 1, 0, 8, 1], [])] = .ok s1 ∧
      (∀ k ∈ [[0, 1, 0, 8, 2]], k ∈ s1.keys) ∧
      ∀ k, sampleIndexSpace k → (k ∈ s1.keys ↔ k ∈ [[0, 1, 0, 8, 2]]) :=
  save_index_set (sampleEnv 100 100 sampleIndexes) sampleBlobID (sampleRecord [1, 5] [2, 5])
    [([0, 1, 0, 7, 1], [0, 1, 5]), ([0, 1, 0, 8, 1], [])] [0, 1, 0, 7, 1] [2, 5]
    [[0, 1, 0, 8, 1]] [[0, 1, 0, 8, 2]] sampleIndexSpace rfl rfl rfl rfl (by decide) rfl
    ⟨_, rfl⟩ (by decide) (sampleIndexSpace_not_chunk 100 100) (by decide) (by decide)

/-- C2, counterexample: the record is saved with buffer `[1, 5]`, then saved again with buffer
`[2, 5]` while its previous-dump hook returns the empty buffer. The index key of `[1, 5]` is
still present after the second `Save`, though it is not computed from the marshalled
buffer. -/
theorem save_index_set_counterexample :
    save (sampleEnv 100 100 sampleIndexes) sampleBlobID (sampleRecord [] [1, 5]) [] =
        .ok [([0, 1, 0, 7, 1], [0, 1, 5]), ([0, 1, 0, 8, 1], [])] ∧
      save (sampleEnv 100 100 sampleIndexes) sampleBlobID (sampleRecord [] [2, 5])
          [([0, 1, 0, 7, 1], [0, 1, 5]), ([0, 1, 0, 8, 1], [])] =
        .ok [([0, 1, 0, 7, 1], [0, 2, 5]), ([0, 1, 0, 8, 1], []), ([0, 1, 0, 8, 2], [])] ∧
      indexKeys ((sampleEnv 100 100 sampleIndexes).indexes 7) [2, 5] = .ok [[0, 1, 0, 8, 2]] ∧
      [0, 1, 0, 8, 1] ∈
        Store.keys [([0, 1, 0, 7, 1], [0, 2, 5]), ([0, 1, 0, 8, 1], []), ([0, 1, 0, 8, 2], [])] ∧
      [0, 1, 0, 8, 1] ∉ [[0, 1, 0, 8, 2]] := by
  decide

theorem save_reindex_witness :
    ∃ s1, save (sampleEnv 100 100 sampleIndexes) sampleBlobID (sampleRecord [1, 5] [2, 5])
        [([0, 1, 0, 7, 1], [0, 1, 5]), ([0, 1, 0, 8, 1], [])] = .ok s1 ∧
      (∀ k ∈ [[0, 1, 0, 8, 2]], s1.lookup k = some []) ∧
      (∀ k ∈ [[0, 1, 0, 8, 1]], k ∉ [[0, 1, 0, 8, 2]] → s1.lookup k = none) ∧
      ((sampleRecord [1, 5] [2, 5]).dump = [2, 5] →
        (∀ k ∈ [[0, 1, 0, 8, 1]],
          k ∈ Store.keys [([0, 1, 0, 7, 1], [0, 1, 5]), ([0, 1, 0, 8, 1], [])]) →
        ∀ k, k ≠ [0, 1, 0, 7, 1] →
          ¬ (sampleEnv 100 100 sampleIndexes).chunkKey sampleBlobID <+: k →
          (k ∈ s1.keys ↔
            k ∈ Store.keys [([0, 1, 0, 7, 1], [0, 1, 5]), ([0, 1, 0, 8, 1], [])])) :=
  save_reindex (sampleEnv 100 100 sampleIndexes) sampleBlobID (sampleRecord [1, 5] [2, 5])
    [([0, 1, 0, 7, 1], [0, 1, 5]), ([0, 1, 0, 8, 1], [])] [0, 1, 0, 7, 1] [2, 5]
    [[0, 1, 0, 8, 1]] [[0, 1, 0, 8, 2]] rfl (by decide) rfl rfl rfl (by decide) rfl ⟨_, rfl⟩
    (by
      intro k hk
      have hk1 : sampleIndexSpace k := by
        rcases hk with hk | hk <;> simp at hk <;> subst hk <;> rfl
      exact ⟨fun h => by subst h; simp [sampleIndexSpace] at hk1,
        sampleIndexSpace_not_chunk 100 100 k hk1⟩)


/-- C9, counterexample: the record's previous dump and its marshalled buffer are both
`[1, 5]` (fields unchanged), and the store is empty, as after a `Drop` of the record. `Save`
sets the index key of `[1, 5]`: the store had no index key before the `Save` and has one
after it. -/
theorem save_reindex_counterexample :
    (sampleRecord [1, 5] [1, 5]).dump = [1, 5] ∧
      (sampleRecord [1, 5] [1, 5]).pack = .ok [1, 5] ∧
      indexKeys ((sampleEnv 100 100 sampleIndexes).indexes 7) [1, 5] = .ok [[0, 1, 0, 8, 1]] ∧
      save (sampleEnv 100 100 sampleIndexes) sampleBlobID (sampleRecord [1, 5] [1, 5]) [] =
        .ok [([0, 1, 0, 7, 1], [0, 1, 5]), ([0, 1, 0, 8, 1], [])] ∧
      [0, 1, 0, 8, 1] ∉ Store.keys [] ∧
      [0, 1, 0, 8, 1] ∈ Store.keys [([0, 1, 0, 7, 1], [0, 1, 5]), ([0, 1, 0, 8, 1], [])] := by
  decide

end Fdbx

namespace Fdbx

/-! ## Blob ranges -/

theorem prefix_of_inRange {ck k : FdbKey} (h : Store.inRange ck (ck ++ [255]) k = true) :
    ck <+: k := by
  induction ck generalizing k with
  | nil => exact List.nil_prefix
  | cons a as ih =>
    cases k with
    | nil => simp [Store.inRange, keyLt] at h
    | cons x xs =>
      simp only [Store.inRange, List.cons_append, keyLt, Bool.and_eq_true, Bool.not_eq_true',
        Bool.or_eq_false_iff, Bool.and_eq_false_imp, decide_eq_false_iff_not, decide_eq_true_eq,
        Bool.or_eq_true] at h
      obtain ⟨⟨h1, h2⟩, h3⟩ := h
      have hxa : x = a := by
        rcases h3 with h3 | ⟨h3, _⟩
        · omega
        · exact h3
      subst hxa
      have h4 : keyLt xs (as ++ [255]) = true := by
        rcases h3 with h3 | ⟨_, h3⟩
        · omega
        · exact h3
      have h5 : Store.inRange as (as ++ [255]) xs = true := by
        simp [Store.inRange, h2 rfl, h4]
      exact (List.cons_prefix_cons).2 ⟨rfl, ih h5⟩

theorem chunkPrefix_of_chunkKey (env : Env) (id k : FdbKey) (h : env.chunkKey id <+: k) :
    env.chunkPrefix <+: k :=
  List.IsPrefix.trans ⟨id, rfl⟩ h

theorem not_inRange_of_not_chunk (env : Env) (id k : FdbKey) (h : ¬ env.chunkPrefix <+: k) :
    Store.inRange (env.chunkKey id) (env.chunkKey id ++ [255]) k = false := by
  cases hr : Store.inRange (env.chunkKey id) (env.chunkKey id ++ [255]) k with
  | false => rfl
  | true => exact absurd (chunkPrefix_of_chunkKey env id k (prefix_of_inRange hr)) h

theorem loadBlob_set_other (env : Env) (id k : FdbKey) (x : Bytes) (s : Store) (hwf : s.WF)
    (hk : ¬ env.chunkPrefix <+: k) : loadBlob env id (s.set k x) = loadBlob env id s := by
  by_cases hid : id = []
  · simp [loadBlob, Env.Key, hid]
  · rw [loadBlob_eq env id _ hid, loadBlob_eq env id _ hid,
      Store.filter_set (fun k => Store.inRange (env.chunkKey id) (env.chunkKey id ++ [255]) k)
        k x hwf]
    simp only [not_inRange_of_not_chunk env id k hk]
    rfl

theorem unpack_set_other (env : Env) (v : Bytes) (k : FdbKey) (x : Bytes) (s : Store)
    (hwf : s.WF) (hk : ¬ env.chunkPrefix <+: k) : unpack env v (s.set k x) = unpack env v s := by
  cases v with
  | nil => rfl
  | cons f body => simp only [unpack, loadBlob_set_other env body k x s hwf hk]

theorem fresh_of_no_chunk (env : Env) (blobID : Bytes) (s : Store)
    (h : ∀ k ∈ s.keys, ¬ env.chunkPrefix <+: k) : Fresh env blobID s := by
  simp only [Fresh, Store.getRange, if_true]
  apply List.filter_eq_nil_iff.2
  intro e he
  have : e.1 ∈ s.keys := List.mem_map_of_mem _ he
  simp [not_inRange_of_not_chunk env blobID e.1 (h _ this)]

/-- Everything `pack` leaves behind: a non-empty value that `unpack` turns back into the
buffer, and a store whose new keys are the chunks of the blob, all inside its range. -/
theorem pack_result (env : Env) (x blobID : Bytes) (s : Store)
    (hcs : 1 ≤ env.ChunkSize) (hgz : GzInverse env) (hid : blobID ≠ [])
    (hwf : s.WF) (hfresh : Fresh env blobID s)
    (hsize : ∀ f b, packGZip env x = .ok (f, b) → (b.length : Int) ≤ 65280 * env.ChunkSize) :
    ∃ f body s1 bid, pack env blobID x s = .ok (f :: body, s1) ∧
      unpack env (f :: body) s1 = .ok (bid, x) ∧ s1.WF ∧
      (bid = none ∨ bid = some blobID) ∧
      (∀ k ∈ s1.keys, k ∈ s.keys ∨ (bid = some blobID ∧
        Store.inRange (env.chunkKey blobID) (env.chunkKey blobID ++ [255]) k = true)) := by
  obtain ⟨c, hc⟩ := Int.eq_ofNat_of_zero_le (by omega : 0 ≤ env.ChunkSize)
  have hcn : env.ChunkSize.toNat = c := by simp [hc]
  have hcount : ∀ b : Bytes, (b.length : Int) ≤ 65280 * env.ChunkSize →
      specChunkCount env.ChunkSize.toNat b ≤ 65280 := by
    intro b hb
    rw [hcn]
    exact specChunkCount_le c b (by omega) 65280 (by omega) (by omega)
  have hall : ∀ b : Bytes, (b.length : Int) ≤ 65280 * env.ChunkSize →
      loadBlob env blobID (specWriteChunks (env.chunkKey blobID) env.ChunkSize.toNat 0 b
        (specChunkCount env.ChunkSize.toNat b) s) = .ok b := by
    intro b hb
    have hn := hcount b hb
    rw [loadBlob_pack_big env blobID b s hid hwf hfresh (by omega), hcn,
      take_chunks_all c b (by omega) (by omega)]
  have hkeys : ∀ b : Bytes, (b.length : Int) ≤ 65280 * env.ChunkSize →
      ∀ k ∈ (specWriteChunks (env.chunkKey blobID) env.ChunkSize.toNat 0 b
        (specChunkCount env.ChunkSize.toNat b) s).keys, k ∈ s.keys ∨ (some blobID = some blobID ∧
        Store.inRange (env.chunkKey blobID) (env.chunkKey blobID ++ [255]) k = true) := by
    intro b hb k hk
    rcases (mem_keys_specWriteChunks _ _ _ _ _ _ _).1 hk with h | ⟨j, hj, rfl⟩
    · exact Or.inl h
    · refine Or.inr ⟨rfl, ?_⟩
      have hn := hcount b hb
      rw [inRange_chunkKey]
      simp only [decide_eq_true_eq]
      omega
  rcases packGZip_cases env x hgz with ⟨hg, _⟩ | ⟨z, hg, hu, _⟩
  · by_cases hgt : (x.length : Int) > env.ChunkSize
    · exact ⟨_, _, _, _, pack_big env blobID x x 0 s hcs hid hg hgt,
        unpack_chunk env blobID x _ (hall x (hsize _ _ hg)),
        specWriteChunks_WF _ _ _ _ _ hwf, Or.inr rfl, hkeys x (hsize _ _ hg)⟩
    · exact ⟨_, _, _, _, pack_small env blobID x x 0 s hg hgt, unpack_plain env x s, hwf,
        Or.inl rfl, fun k hk => Or.inl hk⟩
  · by_cases hgt : (z.length : Int) > env.ChunkSize
    · exact ⟨_, _, _, _, pack_big env blobID x z flagGZip s hcs hid hg hgt,
        unpack_chunk_gzip env blobID z x _ (hall z (hsize _ _ hg)) hu,
        specWriteChunks_WF _ _ _ _ _ hwf, Or.inr rfl, hkeys z (hsize _ _ hg)⟩
    · exact ⟨_, _, _, _, pack_small env blobID x z flagGZip s hg hgt, unpack_gzip env z x s hu,
        hwf, Or.inl rfl, fun k hk => Or.inl hk⟩

end Fdbx

namespace Fdbx

/-! ## Drop -/

theorem drop_some (env : Env) (m : Model) (v : Bytes) (s : Store) (id b : Bytes)
    (ks : List FdbKey) (hv : v ≠ []) (hun : unpack env v s = .ok (some id, b)) (hid : id ≠ [])
    (hks : indexKeys (env.indexes m.type) b = .ok ks) :
    drop env m v s =
      .ok ((s.clearRange (env.chunkKey id) (env.chunkKey id ++ [255])).clearAll ks) := by
  have hlen : ¬ v.length = 0 := fun h => hv (List.length_eq_zero.1 h)
  simp only [drop, if_neg hlen, hun, dropBlob, env.Key_ok env.ChunkType hid]
  exact clearIndexes_eq hks _

theorem drop_none (env : Env) (m : Model) (v : Bytes) (s : Store) (b : Bytes)
    (ks : List FdbKey) (hv : v ≠ []) (hun : unpack env v s = .ok (none, b))
    (hks : indexKeys (env.indexes m.type) b = .ok ks) :
    drop env m v s = .ok (s.clearAll ks) := by
  have hlen : ¬ v.length = 0 := fun h => hv (List.length_eq_zero.1 h)
  simp only [drop, if_neg hlen, hun]
  exact clearIndexes_eq hks _

theorem Drop_one (env : Env) (m : Model) (s s1 : Store) (key : FdbKey)
    (hkey : env.MKey m = .ok key) (hd : drop env m (s.get key) s = .ok s1) :
    Drop env [m] s = .ok (s1.clear key) := by
  simp only [Drop, dropFutures, hkey, dropAll, hd]

/-- `Drop` empties a store that holds one record and nothing else: its primary key with a
value that unpacks to `b`, the index keys of `b`, and the chunks of its blob. -/
theorem Drop_clean (env : Env) (m : Model) (s : Store) (key : FdbKey) (v blobID b : Bytes)
    (bid : Option Bytes) (ks : List FdbKey) (hkey : env.MKey m = .ok key)
    (hget : s.get key = v) (hv : v ≠ []) (hun : unpack env v s = .ok (bid, b))
    (hbid : bid = none ∨ bid = some blobID) (hid : blobID ≠ [])
    (hks : indexKeys (env.indexes m.type) b = .ok ks)
    (hall : ∀ k ∈ s.keys, k = key ∨ k ∈ ks ∨ (bid = some blobID ∧
      Store.inRange (env.chunkKey blobID) (env.chunkKey blobID ++ [255]) k = true)) :
    Drop env [m] s = .ok [] := by
  rcases hbid with hb | hb
  · subst hb
    rw [Drop_one env m s _ key hkey (by rw [hget]; exact drop_none env m v s b ks hv hun hks)]
    congr 1
    apply Store.eq_nil_of_keys
    intro k hk
    rw [Store.mem_keys_clear, Store.mem_keys_clearAll] at hk
    obtain ⟨h1, h2, h3⟩ := hk
    rcases hall k h3 with h | h | ⟨h, _⟩
    · exact h1 h
    · exact h2 h
    · exact Option.noConfusion h
  · subst hb
    rw [Drop_one env m s _ key hkey
      (by rw [hget]; exact drop_some env m v s blobID b ks hv hun hid hks)]
    congr 1
    apply Store.eq_nil_of_keys
    intro k hk
    rw [Store.mem_keys_clear, Store.mem_keys_clearAll, Store.mem_keys_clearRange] at hk
    obtain ⟨h1, h2, h3, h4⟩ := hk
    rcases hall k h4 with h | h | ⟨_, h⟩
    · exact h1 h
    · exact h2 h
    · rw [h3] at h
      exact Bool.false_ne_true h

/-- C3 (amended): for every record `m` and every store that holds nothing but `m`'s primary
key and the index keys computed from `m`'s previous dump (the empty store in particular),
`Save(m)` with a payload of at most `0xFF00` chunks after the gzip step, followed by
`Drop(m)`, both succeed and leave the store empty: no primary key, no index key and no
blob-chunk key remains. After a `Save` whose payload is not chunked the store again holds
nothing but the primary key and the index keys of the marshalled buffer, so the same holds
for the next `Save(m)` whose previous dump is that buffer. The primary key and the index keys
are assumed to lie outside the chunk collection. -/
theorem Drop_after_Save (env : Env) (blobID : Bytes) (m : Model) (s : Store) (key : FdbKey)
    (b : Bytes) (ksd ksb : List FdbKey) (hkey : env.MKey m = .ok key) (hb : m.pack = .ok b)
    (hksd : (if m.dump.length > 0 then indexKeys (env.indexes m.type) m.dump else .ok []) =
      .ok ksd)
    (hksb : indexKeys (env.indexes m.type) b = .ok ksb)
    (hcs : 1 ≤ env.ChunkSize) (hgz : GzInverse env) (hid : blobID.length = 16)
    (hsize : ∀ f z, packGZip env b = .ok (f, z) → (z.length : Int) ≤ 65280 * env.ChunkSize)
    (hwf : s.WF) (hpre : ∀ k ∈ s.keys, k = key ∨ k ∈ ksd)
    (hsepkey : ¬ env.chunkPrefix <+: key) (hsepidx : ∀ k ∈ ksb, ¬ env.chunkPrefix <+: k) :
    ∃ s1, Save env [(blobID, m)] s = .ok s1 ∧ Drop env [m] s1 = .ok [] ∧ s1.WF ∧
      ((∀ f z, packGZip env b = .ok (f, z) → ¬ (z.length : Int) > env.ChunkSize) →
        ∀ k ∈ s1.keys, k = key ∨ k ∈ ksb) := by
  have hid1 := ne_nil_of_length_16 hid
  have hkeys2 : ∀ k ∈ ((s.clearAll ksd).setAll ksb).keys, k = key ∨ k ∈ ksb := by
    intro k hk
    rcases Store.mem_keys_setAll.1 hk with h | h
    · exact Or.inr h
    · obtain ⟨h1, h2⟩ := Store.mem_keys_clearAll.1 h
      rcases hpre k h2 with h3 | h3
      · exact Or.inl h3
      · exact absurd h3 h1
  have hwf2 : ((s.clearAll ksd).setAll ksb).WF := Store.setAll_WF (Store.clearAll_WF hwf)
  have hfresh : Fresh env blobID ((s.clearAll ksd).setAll ksb) := by
    apply fresh_of_no_chunk
    intro k hk
    rcases hkeys2 k hk with h | h
    · rw [h]; exact hsepkey
    · exact hsepidx k h
  obtain ⟨f, body, s3, bid, hp, hun, hwf3, hbid, hk3⟩ :=
    pack_result env b blobID _ hcs hgz hid1 hwf2 hfresh hsize
  have hsave := save_eq env blobID m s key b ksd ksb hkey hb hksd hksb _ _ hp
  refine ⟨s3.set key (f :: body), by simp only [Save, hsave], ?_, Store.set_WF hwf3, ?_⟩
  · refine Drop_clean env m _ key (f :: body) blobID b bid ksb hkey (Store.get_set_same _ _ _)
      (List.cons_ne_nil _ _) ?_ hbid hid1 hksb ?_
    · rw [unpack_set_other env _ key _ s3 hwf3 hsepkey]
      exact hun
    · intro k hk
      rcases Store.mem_keys_set.1 hk with h | h
      · exact Or.inl h
      · rcases hk3 k h with h1 | h1
        · rcases hkeys2 k h1 with h2 | h2
          · exact Or.inl h2
          · exact Or.inr (Or.inl h2)
        · exact Or.inr (Or.inr h1)
  · intro hsmall k hk
    obtain ⟨f0, z, hg⟩ : ∃ f0 z, packGZip env b = .ok (f0, z) := by
      rcases packGZip_cases env b hgz with ⟨h, _⟩ | ⟨z, h, _⟩
      · exact ⟨_, _, h⟩
      · exact ⟨_, _, h⟩
    have hps := pack_small env blobID b z f0 ((s.clearAll ksd).setAll ksb) hg (hsmall _ _ hg)
    rw [hp] at hps
    have hs3 : s3 = (s.clearAll ksd).setAll ksb := (Prod.mk.inj (Except.ok.inj hps)).2
    rcases Store.mem_keys_set.1 hk with h | h
    · exact Or.inl h
    · rw [hs3] at h
      exact hkeys2 k h

theorem Drop_after_Save_witness :
    ∃ s1, Save (sampleEnv 2 100 sampleIndexes) [(sampleBlobID, sampleRecord [] [1, 5, 6])] [] =
        .ok s1 ∧
      Drop (sampleEnv 2 100 sampleIndexes) [sampleRecord [] [1, 5, 6]] s1 = .ok [] ∧ s1.WF ∧
      ((∀ f z, packGZip (sampleEnv 2 100 sampleIndexes) [1, 5, 6] = .ok (f, z) →
          ¬ (z.length : Int) > (sampleEnv 2 100 sampleIndexes).ChunkSize) →
        ∀ k ∈ s1.keys, k = [0, 1, 0, 7, 1] ∨ k ∈ [[0, 1, 0, 8, 1]]) :=
  Drop_after_Save (sampleEnv 2 100 sampleIndexes) sampleBlobID (sampleRecord [] [1, 5, 6]) []
    [0, 1, 0, 7, 1] [1, 5, 6] [] [[0, 1, 0, 8, 1]] rfl rfl rfl rfl (by decide)
    (sampleEnv_gzInverse 2 100 _) rfl
    (by
      intro f z h
      have h1 : packGZip (sampleEnv 2 100 sampleIndexes) [1, 5, 6] = .ok (0, [1, 5, 6]) := by
        decide
      rw [h1] at h
      injection h with h
      injection h with _ h
      subst h
      decide)
    Store.WF_nil (by intro k hk; cases hk) (by decide) (by decide)

/-- C3, counterexample: the record is saved with the chunked payload `[1, 5, 6]`
(`ChunkSize = 2`), then saved again with the chunked payload `[1, 5, 7]`, its previous dump
being `[1, 5, 6]`. `Drop` clears the primary key, the index key and the chunks of the second
blob; the two chunks of the first blob remain in the store. -/
theorem Drop_after_Save_counterexample :
    Save (sampleEnv 2 100 sampleIndexes)
        [(sampleBlobID, sampleRecord [] [1, 5, 6]),
          (sampleBlobID2, sampleRecord [1, 5, 6] [1, 5, 7])] [] =
      .ok [([0, 1, 0, 7, 1], 128 :: sampleBlobID2),
        ([0, 1, 0, 8, 1], []),
        ([0, 1, 255, 255] ++ sampleBlobID2 ++ [0, 0], [1, 5]),
        ([0, 1, 255, 255] ++ sampleBlobID2 ++ [0, 1], [7]),
        ([0, 1, 255, 255] ++ sampleBlobID ++ [0, 0], [1, 5]),
        ([0, 1, 255, 255] ++ sampleBlobID ++ [0, 1], [6])] ∧
    Drop (sampleEnv 2 100 sampleIndexes) [sampleRecord [1, 5, 6] [1, 5, 7]]
        [([0, 1, 0, 7, 1], 128 :: sampleBlobID2),
          ([0, 1, 0, 8, 1], []),
          ([0, 1, 255, 255] ++ sampleBlobID2 ++ [0, 0], [1, 5]),
          ([0, 1, 255, 255] ++ sampleBlobID2 ++ [0, 1], [7]),
          ([0, 1, 255, 255] ++ sampleBlobID ++ [0, 0], [1, 5]),
          ([0, 1, 255, 255] ++ sampleBlobID ++ [0, 1], [6])] =
      .ok [([0, 1, 255, 255] ++ sampleBlobID ++ [0, 0], [1, 5]),
        ([0, 1, 255, 255] ++ sampleBlobID ++ [0, 1], [6])] := by
  decide

end Fdbx

namespace Fdbx

/-! ## The claim transaction -/

theorem claimRows_eq (env : Env) (qid : Nat) (rows : List (FdbKey × Bytes)) :
    ∀ (ids : List Bytes) (s : Store), (∀ r ∈ rows, 12 ≤ r.1.length) →
      claimRows env qid rows ids s =
        .ok (ids ++ rows.map (fun r => r.1.drop 12), rows.foldl (claimStep env qid) s) := by
  induction rows with
  | nil => intro ids s _; simp [claimRows]
  | cons r rs ih =>
    intro ids s h
    have h1 : ¬ r.1.length < 12 := by
      have := h r (List.mem_cons_self _ _)
      omega
    simp only [claimRows, if_neg h1, Env.Key, List.cons_ne_nil, if_false]
    rw [ih _ _ (fun x hx => h x (List.mem_cons_of_mem _ hx))]
    simp [claimStep, Env.lostKey]

theorem lookup_claimStep_other (env : Env) (qid : Nat) (s : Store) (r : FdbKey × Bytes)
    (k : FdbKey) (h1 : k ≠ r.1) (h2 : k ≠ env.lostKey qid (r.1.drop 12)) :
    (claimStep env qid s r).lookup k = s.lookup k := by
  rw [claimStep, Store.lookup_clear_other _ h1, Store.lookup_set_other _ _ h2]

theorem lookup_claim_frame (env : Env) (qid : Nat) (rows : List (FdbKey × Bytes)) (k : FdbKey) :
    ∀ s : Store, (∀ r ∈ rows, k ≠ r.1 ∧ k ≠ env.lostKey qid (r.1.drop 12)) →
      (rows.foldl (claimStep env qid) s).lookup k = s.lookup k := by
  induction rows with
  | nil => intro s _; rfl
  | cons r rs ih =>
    intro s h
    obtain ⟨h1, h2⟩ := h r (List.mem_cons_self _ _)
    rw [List.foldl_cons, ih _ (fun x hx => h x (List.mem_cons_of_mem _ hx)),
      lookup_claimStep_other env qid s r k h1 h2]

theorem lookup_claim_none (env : Env) (qid : Nat) (rows : List (FdbKey × Bytes)) (k : FdbKey) :
    ∀ s : Store, s.lookup k = none → (∀ r ∈ rows, k ≠ env.lostKey qid (r.1.drop 12)) →
      (rows.foldl (claimStep env qid) s).lookup k = none := by
  induction rows with
  | nil => intro s h _; exact h
  | cons r rs ih =>
    intro s h hne
    rw [List.foldl_cons]
    apply ih _ _ (fun x hx => hne x (List.mem_cons_of_mem _ hx))
    by_cases hk : k = r.1
    · rw [claimStep, hk]
      exact Store.lookup_clear_same _ _
    · rw [lookup_claimStep_other env qid s r k hk (hne r (List.mem_cons_self _ _))]
      exact h

theorem lookup_claim_some (env : Env) (qid : Nat) (rows : List (FdbKey × Bytes)) (k : FdbKey) :
    ∀ s : Store, s.lookup k = some [] → (∀ r ∈ rows, k ≠ r.1) →
      (rows.foldl (claimStep env qid) s).lookup k = some [] := by
  induction rows with
  | nil => intro s h _; exact h
  | cons r rs ih =>
    intro s h hne
    rw [List.foldl_cons]
    apply ih _ _ (fun x hx => hne x (List.mem_cons_of_mem _ hx))
    rw [claimStep, Store.lookup_clear_other _ (hne r (List.mem_cons_self _ _))]
    by_cases hk : k = env.lostKey qid (r.1.drop 12)
    · rw [hk]
      exact Store.lookup_set_same _ _ _
    · rw [Store.lookup_set_other _ _ hk]
      exact h

/-- After the loop, every row is cleared and its lost key holds the empty value, provided no
lost key is the key of a row. -/
theorem lookup_claim_rows (env : Env) (qid : Nat) (rows : List (FdbKey × Bytes)) :
    ∀ s : Store, (∀ r ∈ rows, ∀ r2 ∈ rows, env.lostKey qid (r.1.drop 12) ≠ r2.1) →
      ∀ r ∈ rows, (rows.foldl (claimStep env qid) s).lookup r.1 = none ∧
        (rows.foldl (claimStep env qid) s).lookup (env.lostKey qid (r.1.drop 12)) = some [] := by
  induction rows with
  | nil => intro s _ r hr; exact absurd hr (List.not_mem_nil _)
  | cons r0 rs ih =>
    intro s hd r hr
    have hd1 : ∀ r ∈ rs, ∀ r2 ∈ rs, env.lostKey qid (r.1.drop 12) ≠ r2.1 :=
      fun a ha c hc => hd a (List.mem_cons_of_mem _ ha) c (List.mem_cons_of_mem _ hc)
    rw [List.foldl_cons]
    by_cases hrs : r ∈ rs
    · exact ih _ hd1 r hrs
    · have hr0 : r = r0 := by
        rcases List.mem_cons.1 hr with h | h
        · exact h
        · exact absurd h hrs
      subst hr0
      constructor
      · apply lookup_claim_none
        · rw [claimStep]
          exact Store.lookup_clear_same _ _
        · intro x hx h
          exact hd x (List.mem_cons_of_mem _ hx) r (List.mem_cons_self _ _) h.symm
      · apply lookup_claim_some
        · rw [claimStep, Store.lookup_clear_other _
            (hd r (List.mem_cons_self _ _) r (List.mem_cons_self _ _))]
          exact Store.lookup_set_same _ _ _
        · intro x hx
          exact hd r (List.mem_cons_self _ _) x (List.mem_cons_of_mem _ hx)

end Fdbx

namespace Fdbx

theorem be64_head (n : Nat) : ∃ rest, be64 n = (n / 2 ^ 56 % 256) :: rest := ⟨_, rfl⟩

theorem u64_head_lt {now : Int} (h0 : 0 ≤ now) (h1 : now < 2 ^ 63) :
    u64 now / 2 ^ 56 % 256 < 128 := by
  rw [u64_of_nonneg h0 h1]
  have : now.toNat < 2 ^ 63 := by omega
  norm_num at this ⊢
  omega

theorem lostKey_not_lt_end (env : Env) (qid : Nat) (mid : Bytes) {now : Int} (h0 : 0 ≤ now)
    (h1 : now < 2 ^ 63) :
    keyLt (env.lostKey qid mid) (be16 env.dbnum ++ be16 qid ++ be64 (u64 now)) = false := by
  obtain ⟨rest, hrest⟩ := be64_head (u64 now)
  have hlt := u64_head_lt h0 h1
  rw [Env.lostKey, keyLt_append_left, hrest]
  simp only [keyLt, Bool.or_eq_false_iff, decide_eq_false_iff_not, Bool.and_eq_false_imp,
    decide_eq_true_eq]
  constructor
  · omega
  · intro h; omega

theorem pendingKey_ne_lostKey (env : Env) (qid : Nat) (mid id : Bytes) {t : Int} (h0 : 0 ≤ t)
    (h1 : t < 2 ^ 63) : env.pendingKey qid t id ≠ env.lostKey qid mid := by
  obtain ⟨rest, hrest⟩ := be64_head (u64 t)
  have hlt := u64_head_lt h0 h1
  intro h
  rw [Env.pendingKey, Env.lostKey, pendingID, hrest] at h
  have h2 := List.append_cancel_left h
  simp only [List.cons_append, List.cons.injEq] at h2
  omega

theorem pendingKey_not_lt_end (env : Env) (qid : Nat) (id : Bytes) {now t : Int} (h0 : 0 ≤ now)
    (hnt : now ≤ t) (h1 : t < 2 ^ 63) :
    keyLt (env.pendingKey qid t id) (be16 env.dbnum ++ be16 qid ++ be64 (u64 now)) = false := by
  rw [Env.pendingKey, keyLt_append_left, pendingID]
  by_cases h : now = t
  · subst h
    exact keyLt_self_append _ _
  · apply keyLt_asymm
    have h2 : keyLt (be64 (u64 now)) (be64 (u64 t)) = true := by
      rw [u64_of_nonneg h0 (by omega), u64_of_nonneg (by omega) h1]
      apply keyLt_be64
      · omega
      · omega
    have h3 := keyLt_append_of_lt [] id ((be64_length _).trans (be64_length _).symm) h2
    rwa [List.append_nil] at h3

theorem pendingKey_drop (env : Env) (qid : Nat) (t : Int) (id : Bytes) :
    (env.pendingKey qid t id).drop 12 = id := by
  simp [Env.pendingKey, pendingID, be16, be64]

theorem mem_getRange {b e : FdbKey} {lim : Nat} {s : Store} {r : FdbKey × Bytes}
    (h : r ∈ s.getRange b e lim) : r ∈ s ∧ Store.inRange b e r.1 = true := by
  have h1 : r ∈ s.filter (fun x => Store.inRange b e x.1) := by
    unfold Store.getRange at h
    split at h
    · exact h
    · exact List.mem_of_mem_take h
  exact List.mem_filter.1 h1

theorem getRange_sublist (b e : FdbKey) (lim : Nat) (s : Store) :
    List.Sublist (s.getRange b e lim) s := by
  unfold Store.getRange
  split
  · exact List.filter_sublist _
  · exact (List.take_sublist _ _).trans (List.filter_sublist _)

theorem getRange_length_le (b e : FdbKey) {lim : Nat} (s : Store) (h : lim ≠ 0) :
    (s.getRange b e lim).length ≤ lim := by
  simp only [Store.getRange, if_neg h, List.length_take]
  omega

theorem claim_eq (env : Env) (qid : Nat) (limit : Int) (listLen : Nat) (now : Int) (s : Store)
    (hlim : 1 ≤ limit - listLen)
    (hq : ∀ r ∈ dueRows env qid now (limit - listLen).toNat s, 12 ≤ r.1.length) :
    claim env qid limit listLen now s =
      .ok ((dueRows env qid now (limit - listLen).toNat s).map (fun r => r.1.drop 12),
        (dueRows env qid now (limit - listLen).toNat s).isEmpty,
        (dueRows env qid now (limit - listLen).toNat s).foldl (claimStep env qid) s) := by
  have hk1 : env.Key qid [0] = .ok (be16 env.dbnum ++ be16 qid ++ [0]) :=
    env.Key_ok qid (List.cons_ne_nil _ _)
  have hk2 : env.Key qid (be64 (u64 now)) =
      .ok (be16 env.dbnum ++ be16 qid ++ be64 (u64 now)) :=
    env.Key_ok qid (List.cons_ne_nil _ _)
  have hcr := claimRows_eq env qid (dueRows env qid now (limit - listLen).toNat s) [] s hq
  simp only [dueRows] at hcr ⊢
  simp only [claim, if_neg (by omega : ¬ limit < 0), hk1, hk2,
    if_neg (by omega : ¬ limit - (listLen : Int) < 1), hcr]
  generalize Store.getRange (be16 env.dbnum ++ be16 qid ++ [0])
    (be16 env.dbnum ++ be16 qid ++ be64 (u64 now)) (limit - listLen).toNat s = rows
  cases rows <;> simp

/-- C4 (amended): for every well-formed queue state (the rows of the pending range are
`time_u64_BE ‖ id` keys, so at least 12 bytes long) and every clock value `0 <= now < 2^63`,
the claim transaction with `limit - len(list) >= 1` succeeds; it reads at most that many rows,
in ascending key order, all with key below `now_u64_BE`; afterwards each of them is cleared
and its lost key `0xFF ‖ id` holds the empty value; the returned ids are the key bytes after
the 12-byte prefix, in row order, which for a key built by `Pub` is the record id; a watch is
set up iff no row was read; and no pending key with time `>= now`, nor any key other than the
rows and their lost keys, is changed. -/
theorem claim_spec (env : Env) (qid : Nat) (limit : Int) (listLen : Nat) (now : Int) (s : Store)
    (hwf : s.WF) (hnow0 : 0 ≤ now) (hnow1 : now < 2 ^ 63) (hlim : 1 ≤ limit - listLen)
    (hq : ∀ r ∈ dueRows env qid now (limit - listLen).toNat s, 12 ≤ r.1.length) :
    ∃ s1, claim env qid limit listLen now s =
        .ok ((dueRows env qid now (limit - listLen).toNat s).map (fun r => r.1.drop 12),
          (dueRows env qid now (limit - listLen).toNat s).isEmpty, s1) ∧
      ((dueRows env qid now (limit - listLen).toNat s).length : Int) ≤ limit - listLen ∧
      (dueRows env qid now (limit - listLen).toNat s).Pairwise
        (fun a b => keyLt a.1 b.1 = true) ∧
      (∀ r ∈ dueRows env qid now (limit - listLen).toNat s, r ∈ s ∧
        keyLt r.1 (be16 env.dbnum ++ be16 qid ++ be64 (u64 now)) = true) ∧
      (∀ r ∈ dueRows env qid now (limit - listLen).toNat s, s1.lookup r.1 = none ∧
        s1.lookup (env.lostKey qid (r.1.drop 12)) = some []) ∧
      (∀ (t : Int) (id : Bytes), (env.pendingKey qid t id).drop 12 = id) ∧
      (∀ (t : Int) (id : Bytes), now ≤ t → t < 2 ^ 63 →
        s1.lookup (env.pendingKey qid t id) = s.lookup (env.pendingKey qid t id)) ∧
      (∀ k, (∀ r ∈ dueRows env qid now (limit - listLen).toNat s,
        k ≠ r.1 ∧ k ≠ env.lostKey qid (r.1.drop 12)) → s1.lookup k = s.lookup k) := by
  have hlim0 : (limit - listLen).toNat ≠ 0 := by omega
  have hrange : ∀ r ∈ dueRows env qid now (limit - listLen).toNat s, r ∈ s ∧
      keyLt r.1 (be16 env.dbnum ++ be16 qid ++ be64 (u64 now)) = true := by
    intro r hr
    obtain ⟨h1, h2⟩ := mem_getRange hr
    simp only [Store.inRange, Bool.and_eq_true] at h2
    exact ⟨h1, h2.2⟩
  have hdisj : ∀ r ∈ dueRows env qid now (limit - listLen).toNat s,
      ∀ r2 ∈ dueRows env qid now (limit - listLen).toNat s,
        env.lostKey qid (r.1.drop 12) ≠ r2.1 := by
    intro r _ r2 hr2 h
    have h1 := (hrange r2 hr2).2
    rw [← h, lostKey_not_lt_end env qid _ hnow0 hnow1] at h1
    exact Bool.false_ne_true h1
  have hframe : ∀ k, (∀ r ∈ dueRows env qid now (limit - listLen).toNat s,
      k ≠ r.1 ∧ k ≠ env.lostKey qid (r.1.drop 12)) →
      ((dueRows env qid now (limit - listLen).toNat s).foldl (claimStep env qid) s).lookup k =
        s.lookup k := fun k hk => lookup_claim_frame env qid _ k s hk
  have hclaim := claim_eq env qid limit listLen now s hlim hq
  refine ⟨_, hclaim, ?_, ?_, hrange, lookup_claim_rows env qid _ s hdisj,
    pendingKey_drop env qid, ?_, hframe⟩
  · have := getRange_length_le (be16 env.dbnum ++ be16 qid ++ [0])
      (be16 env.dbnum ++ be16 qid ++ be64 (u64 now)) s hlim0
    simp only [dueRows]
    omega
  · exact List.Pairwise.sublist (getRange_sublist _ _ _ s) hwf
  · intro t id hnt ht
    apply hframe
    intro r hr
    refine ⟨?_, pendingKey_ne_lostKey env qid _ id (by omega) ht⟩
    intro h
    have h1 := (hrange r hr).2
    rw [← h, pendingKey_not_lt_end env qid id hnow0 hnt ht] at h1
    exact Bool.false_ne_true h1

theorem claim_spec_witness :
    ∃ s1, claim exampleEnv 9 10 0 100 sampleQueue =
        .ok ((dueRows exampleEnv 9 100 ((10 : Int) - (0 : Nat)).toNat sampleQueue).map
            (fun r => r.1.drop 12),
          (dueRows exampleEnv 9 100 ((10 : Int) - (0 : Nat)).toNat sampleQueue).isEmpty, s1) ∧
      ((dueRows exampleEnv 9 100 ((10 : Int) - (0 : Nat)).toNat sampleQueue).length : Int) ≤
        (10 : Int) - (0 : Nat) ∧
      (dueRows exampleEnv 9 100 ((10 : Int) - (0 : Nat)).toNat sampleQueue).Pairwise
        (fun a b => keyLt a.1 b.1 = true) ∧
      (∀ r ∈ dueRows exampleEnv 9 100 ((10 : Int) - (0 : Nat)).toNat sampleQueue,
        r ∈ sampleQueue ∧
        keyLt r.1 (be16 exampleEnv.dbnum ++ be16 9 ++ be64 (u64 100)) = true) ∧
      (∀ r ∈ dueRows exampleEnv 9 100 ((10 : Int) - (0 : Nat)).toNat sampleQueue,
        s1.lookup r.1 = none ∧ s1.lookup (exampleEnv.lostKey 9 (r.1.drop 12)) = some []) ∧
      (∀ (t : Int) (id : Bytes), (exampleEnv.pendingKey 9 t id).drop 12 = id) ∧
      (∀ (t : Int) (id : Bytes), 100 ≤ t → t < 2 ^ 63 →
        s1.lookup (exampleEnv.pendingKey 9 t id) =
          List.lookup (exampleEnv.pendingKey 9 t id) sampleQueue) ∧
      (∀ k, (∀ r ∈ dueRows exampleEnv 9 100 ((10 : Int) - (0 : Nat)).toNat sampleQueue,
        k ≠ r.1 ∧ k ≠ exampleEnv.lostKey 9 (r.1.drop 12)) →
          s1.lookup k = List.lookup k sampleQueue) :=
  claim_spec exampleEnv 9 10 0 100 sampleQueue (by decide) (by decide) (by decide) (by decide)
    (by decide)

/-- C4, counterexample: record `[1]` is published for time 5, so the queue holds its pending
key and the 6-byte watch key. With the clock at `now = -1` (one nanosecond before the epoch)
`now_u64_BE` is eight bytes `0xFF`, the range read by the claim transaction contains the watch
key, and `rows[i].Key[12:]` is out of range: the transaction faults instead of claiming the
due row. -/
theorem claim_spec_counterexample :
    Pub exampleEnv 9 (some []) (some (sampleModel [1])) ⟨false, 5⟩ 0 =
        .ok [(exampleEnv.pendingKey 9 5 [1], []), (exampleEnv.watchKey 9, be64 5)] ∧
      dueRows exampleEnv 9 (-1) 10
          [(exampleEnv.pendingKey 9 5 [1], []), (exampleEnv.watchKey 9, be64 5)] =
        [(exampleEnv.pendingKey 9 5 [1], []), (exampleEnv.watchKey 9, be64 5)] ∧
      (exampleEnv.watchKey 9).length = 6 ∧
      claim exampleEnv 9 10 0 (-1)
          [(exampleEnv.pendingKey 9 5 [1], []), (exampleEnv.watchKey 9, be64 5)] =
        .error .outOfRange := by
  decide

end Fdbx

namespace Fdbx

/-! ## The pending range -/

theorem lostKey_not_pending (env : Env) (qid : Nat) (mid : Bytes) :
    Store.inRange (be16 env.dbnum ++ be16 qid ++ [0]) (be16 env.dbnum ++ be16 qid ++ [255])
      (env.lostKey qid mid) = false := by
  rw [Store.inRange, Env.lostKey, keyLt_append_left, keyLt_append_left]
  simp [keyLt]

theorem watchKey_not_pending (env : Env) (qid : Nat) :
    Store.inRange (be16 env.dbnum ++ be16 qid ++ [0]) (be16 env.dbnum ++ be16 qid ++ [255])
      (env.watchKey qid) = false := by
  rw [Store.inRange, Env.watchKey, keyLt_append_left, keyLt_append_left]
  simp [keyLt]

theorem pendingKey_pending (env : Env) (qid : Nat) (id : Bytes) {t : Int} (h0 : 0 ≤ t)
    (h1 : t < 2 ^ 63) :
    Store.inRange (be16 env.dbnum ++ be16 qid ++ [0]) (be16 env.dbnum ++ be16 qid ++ [255])
      (env.pendingKey qid t id) = true := by
  obtain ⟨rest, hrest⟩ := be64_head (u64 t)
  have hlt := u64_head_lt h0 h1
  generalize u64 t / 2 ^ 56 % 256 = b0 at hrest hlt
  rw [Store.inRange, Env.pendingKey, pendingID, keyLt_append_left, keyLt_append_left, hrest]
  simp only [List.cons_append, keyLt, Bool.and_false, Bool.or_false, Bool.and_eq_true,
    Bool.not_eq_true', decide_eq_false_iff_not, decide_eq_true_eq]
  omega

theorem end_lt_pending_end (env : Env) (qid : Nat) {now : Int} (h0 : 0 ≤ now)
    (h1 : now < 2 ^ 63) :
    keyLt (be16 env.dbnum ++ be16 qid ++ be64 (u64 now)) (be16 env.dbnum ++ be16 qid ++ [255]) =
      true := by
  obtain ⟨rest, hrest⟩ := be64_head (u64 now)
  have hlt := u64_head_lt h0 h1
  generalize u64 now / 2 ^ 56 % 256 = b0 at hrest hlt
  rw [keyLt_append_left, hrest]
  simp only [keyLt, Bool.and_false, Bool.or_false, decide_eq_true_eq]
  omega

theorem mem_pendingRows {env : Env} {qid : Nat} {s : Store} {r : FdbKey × Bytes} :
    r ∈ pendingRows env qid s ↔ r ∈ s ∧
      Store.inRange (be16 env.dbnum ++ be16 qid ++ [0]) (be16 env.dbnum ++ be16 qid ++ [255])
        r.1 = true := by
  simp [pendingRows, Store.getRange, List.mem_filter]

theorem dueRows_subset_pendingRows (env : Env) (qid : Nat) {now : Int} (lim : Nat) (s : Store)
    (h0 : 0 ≤ now) (h1 : now < 2 ^ 63) {r : FdbKey × Bytes} (hr : r ∈ dueRows env qid now lim s) :
    r ∈ pendingRows env qid s := by
  obtain ⟨h2, h3⟩ := mem_getRange hr
  rw [mem_pendingRows]
  refine ⟨h2, ?_⟩
  simp only [Store.inRange, Bool.and_eq_true, Bool.not_eq_true'] at h3 ⊢
  exact ⟨h3.1, keyLt_trans h3.2 (end_lt_pending_end env qid h0 h1)⟩

theorem pendingRows_eq_filter (env : Env) (qid : Nat) (s : Store) :
    pendingRows env qid s = s.filter (fun e => Store.inRange (be16 env.dbnum ++ be16 qid ++ [0])
      (be16 env.dbnum ++ be16 qid ++ [255]) e.1) := by
  simp [pendingRows, Store.getRange]

theorem pendingRows_set_other (env : Env) (qid : Nat) {s : Store} (k : FdbKey) (v : Bytes)
    (hwf : s.WF)
    (hk : Store.inRange (be16 env.dbnum ++ be16 qid ++ [0]) (be16 env.dbnum ++ be16 qid ++ [255])
      k = false) :
    pendingRows env qid (s.set k v) = pendingRows env qid s := by
  rw [pendingRows_eq_filter, pendingRows_eq_filter,
    Store.filter_set (fun k => Store.inRange (be16 env.dbnum ++ be16 qid ++ [0])
      (be16 env.dbnum ++ be16 qid ++ [255]) k) k v hwf]
  simp only [hk]
  rfl

theorem pendingRows_set_in (env : Env) (qid : Nat) {s : Store} (k : FdbKey) (v : Bytes)
    (hwf : s.WF)
    (hk : Store.inRange (be16 env.dbnum ++ be16 qid ++ [0]) (be16 env.dbnum ++ be16 qid ++ [255])
      k = true) :
    pendingRows env qid (s.set k v) = Store.set k v (pendingRows env qid s) := by
  rw [pendingRows_eq_filter, pendingRows_eq_filter,
    Store.filter_set (fun k => Store.inRange (be16 env.dbnum ++ be16 qid ++ [0])
      (be16 env.dbnum ++ be16 qid ++ [255]) k) k v hwf]
  simp only [hk]
  rfl

theorem pendingRows_clear (env : Env) (qid : Nat) (s : Store) (k : FdbKey) :
    pendingRows env qid (s.clear k) = Store.clear k (pendingRows env qid s) := by
  rw [pendingRows_eq_filter, pendingRows_eq_filter, Store.clear, Store.clear,
    List.filter_filter, List.filter_filter]
  congr 1
  funext e
  exact Bool.and_comm _ _

theorem pendingRows_WF (env : Env) (qid : Nat) {s : Store} (hwf : s.WF) :
    Store.WF (pendingRows env qid s) := by
  rw [pendingRows_eq_filter]
  exact Store.WF_filter _ hwf

theorem Store.clear_of_not_mem {k : FdbKey} {s : Store} (h : k ∉ s.keys) : s.clear k = s := by
  apply List.filter_eq_self.2
  intro e he
  have : e.1 ≠ k := fun hk => h (hk ▸ List.mem_map_of_mem _ he)
  simpa using this

theorem Store.clearAll_eq_filter (ks : List FdbKey) (s : Store) :
    s.clearAll ks = s.filter (fun e => decide (e.1 ∉ ks)) := by
  induction ks generalizing s with
  | nil => simp [Store.clearAll_nil]
  | cons a as ih =>
    rw [Store.clearAll_cons, ih, Store.clear, List.filter_filter]
    congr 1
    funext e
    simp only [List.mem_cons, not_or, Bool.decide_and, ne_eq]
    exact Bool.and_comm _ _

end Fdbx

namespace Fdbx

/-! ## Counting queue entries -/

theorem Store.countP_set (q : FdbKey → Bool) (k : FdbKey) (v : Bytes) {l : Store} (hwf : l.WF) :
    (Store.set k v l).countP (fun e => q e.1) =
      l.countP (fun e => q e.1) + (if q k = true ∧ k ∉ l.keys then 1 else 0) := by
  induction l with
  | nil => simp [Store.set, Store.keys, List.countP_cons]
  | cons e r ih =>
    obtain ⟨k1, v1⟩ := e
    obtain ⟨hhead, htail⟩ := Store.WF_cons.1 hwf
    rw [Store.set_cons]
    by_cases hlt : keyLt k k1 = true
    · rw [if_pos hlt]
      have hnot : k ∉ Store.keys ((k1, v1) :: r) := by
        intro hmem
        obtain ⟨x, hx, hxk⟩ := List.mem_map.1 hmem
        rcases List.mem_cons.1 hx with h | h
        · subst h
          exact keyLt_ne hlt hxk.symm
        · exact keyLt_ne (keyLt_trans hlt (hhead x h)) hxk.symm
      rw [List.countP_cons]
      simp [hnot]
    · rw [if_neg hlt]
      by_cases heq : k = k1
      · rw [if_pos heq]
        subst heq
        simp [Store.keys, List.countP_cons]
      · rw [if_neg heq]
        have hiff : k ∉ Store.keys ((k1, v1) :: r) ↔ k ∉ Store.keys r := by
          simp [Store.keys, heq]
        rw [List.countP_cons, ih htail, List.countP_cons]
        simp only [hiff]
        omega

theorem lostKey_inj (env : Env) (qid : Nat) {a b : Bytes}
    (h : env.lostKey qid a = env.lostKey qid b) : a = b := by
  have h1 := List.append_cancel_left h
  exact (List.cons.inj h1).2

theorem lostKey_ne_watchKey (env : Env) (qid : Nat) {id : Bytes} (hid : id ≠ [255]) :
    env.lostKey qid id ≠ env.watchKey qid := by
  intro h
  have h1 := List.append_cancel_left h
  exact hid (List.cons.inj h1).2

theorem not_mem_pendingRows_keys (env : Env) (qid : Nat) (s : Store) (k : FdbKey)
    (hk : Store.inRange (be16 env.dbnum ++ be16 qid ++ [0]) (be16 env.dbnum ++ be16 qid ++ [255])
      k = false) : k ∉ Store.keys (pendingRows env qid s) := by
  intro hmem
  obtain ⟨x, hx, hxk⟩ := List.mem_map.1 hmem
  have := (mem_pendingRows.1 hx).2
  rw [hxk, hk] at this
  exact Bool.false_ne_true this

theorem claimStep_WF (env : Env) (qid : Nat) {s : Store} (r : FdbKey × Bytes) (hwf : s.WF) :
    (claimStep env qid s r).WF := Store.clear_WF (Store.set_WF hwf)

theorem foldl_claimStep_WF (env : Env) (qid : Nat) (rows : List (FdbKey × Bytes)) :
    ∀ s : Store, s.WF → (rows.foldl (claimStep env qid) s).WF := by
  induction rows with
  | nil => intro s h; exact h
  | cons r rs ih => intro s h; exact ih _ (claimStep_WF env qid r h)

theorem pendingRows_claimStep (env : Env) (qid : Nat) {s : Store} (r : FdbKey × Bytes)
    (hwf : s.WF) : pendingRows env qid (claimStep env qid s r) =
      Store.clear r.1 (pendingRows env qid s) := by
  rw [claimStep, pendingRows_clear, pendingRows_set_other env qid _ _ hwf
    (lostKey_not_pending env qid _)]

theorem pendingRows_foldl_claimStep (env : Env) (qid : Nat) (rows : List (FdbKey × Bytes)) :
    ∀ s : Store, s.WF → pendingRows env qid (rows.foldl (claimStep env qid) s) =
      Store.clearAll (rows.map Prod.fst) (pendingRows env qid s) := by
  induction rows with
  | nil => intro s _; rfl
  | cons r rs ih =>
    intro s h
    rw [List.foldl_cons, ih _ (claimStep_WF env qid r h), pendingRows_claimStep env qid r h]
    rfl

end Fdbx

namespace Fdbx

/-! ## Queue histories: each operation keeps the invariant -/

theorem pendingKey_length (env : Env) (qid : Nat) (t : Int) (id : Bytes) :
    12 ≤ (env.pendingKey qid t id).length := by
  simp [Env.pendingKey, pendingID, be16, be64]

theorem lostCount_congr (env : Env) (qid : Nat) (id : Bytes) {s s1 : Store}
    (h : s1.lookup (env.lostKey qid id) = s.lookup (env.lostKey qid id)) :
    lostCount env qid id s1 = lostCount env qid id s := by
  simp only [lostCount, h]

theorem lostCount_le_one (env : Env) (qid : Nat) (id : Bytes) (s : Store) :
    lostCount env qid id s ≤ 1 := by
  unfold lostCount
  split <;> omega

theorem pub_step (env : Env) (qid : Nat) (id : Bytes) (hid : id ≠ [255]) (s : Store)
    (acked pubs : Nat) (m : Model) (t : Time) (now : Int)
    (htime : (QueueOp.pub m t now).timely) (hinv : QueueInv env qid id (s, acked, pubs)) :
    ∃ s1, Pub env qid (some s) (some m) t now = .ok s1 ∧
      QueueInv env qid id (s1, acked, pubs + (QueueOp.pub m t now).pubs id) := by
  obtain ⟨hwf, hlen, hle, heq⟩ := hinv
  obtain ⟨ht0, ht1⟩ := htime
  refine ⟨_, Pub_eq env qid s m t now, ?_⟩
  generalize (if t.isZero then now else t.unixNano) = te at ht0 ht1 ⊢
  have hwf1 : (s.set (env.pendingKey qid te m.id) []).WF := Store.set_WF hwf
  have hrows : pendingRows env qid ((s.set (env.pendingKey qid te m.id) []).set
      (env.watchKey qid) (be64 (u64 te))) =
      Store.set (env.pendingKey qid te m.id) [] (pendingRows env qid s) := by
    rw [pendingRows_set_other env qid _ _ hwf1 (watchKey_not_pending env qid),
      pendingRows_set_in env qid _ _ hwf (pendingKey_pending env qid m.id ht0 ht1)]
  have hlost : lostCount env qid id ((s.set (env.pendingKey qid te m.id) []).set
      (env.watchKey qid) (be64 (u64 te))) = lostCount env qid id s := by
    apply lostCount_congr
    rw [Store.lookup_set_other _ _ (lostKey_ne_watchKey env qid hid),
      Store.lookup_set_other _ _ (fun h => pendingKey_ne_lostKey env qid id m.id ht0 ht1 h.symm)]
  have hcount : pendingCount env qid id ((s.set (env.pendingKey qid te m.id) []).set
      (env.watchKey qid) (be64 (u64 te))) = pendingCount env qid id s +
        (if m.id = id ∧ env.pendingKey qid te m.id ∉ Store.keys (pendingRows env qid s)
          then 1 else 0) := by
    simp only [pendingCount, hrows]
    rw [Store.countP_set (fun k => decide (k.drop 12 = id)) _ _ (pendingRows_WF env qid hwf)]
    simp only [pendingKey_drop, decide_eq_true_eq]
  have hzero : pendingCount env qid id s = 0 → m.id = id →
      env.pendingKey qid te m.id ∉ Store.keys (pendingRows env qid s) := by
    intro h0 hm hmem
    obtain ⟨x, hx, hxk⟩ := List.mem_map.1 hmem
    have hpos : 0 < pendingCount env qid id s := by
      apply List.countP_pos_iff.2
      refine ⟨x, hx, ?_⟩
      rw [hxk, pendingKey_drop]
      simpa using hm
    omega
  refine ⟨Store.set_WF hwf1, ?_, ?_, ?_⟩
  · intro r hr
    simp only [hrows] at hr
    rcases Store.mem_set hr with h | h
    · rw [h]
      exact pendingKey_length env qid te m.id
    · exact hlen r h
  · simp only [hcount, hlost, QueueOp.pubs]
    simp only at hle
    split <;> split <;> first | omega | (rename_i h1 h2; exact absurd h1.1 h2)
  · simp only [hcount, hlost, QueueOp.pubs]
    simp only at hle heq
    intro hp
    by_cases hm : m.id = id
    · rw [if_pos hm] at hp ⊢
      have hp0 : pubs = 0 := by omega
      have hP : pendingCount env qid id s = 0 := by omega
      rw [if_pos ⟨hm, hzero hP hm⟩]
      have := heq (by omega)
      omega
    · rw [if_neg hm] at hp ⊢
      rw [if_neg (fun h => hm h.1)]
      have := heq (by omega)
      omega

theorem ack_step (env : Env) (qid : Nat) (id : Bytes) (s : Store) (acked pubs : Nat)
    (m : Model) (hinv : QueueInv env qid id (s, acked, pubs)) :
    ∃ s1, Ack env qid (some s) (some m) = .ok s1 ∧
      QueueInv env qid id
        (s1, acked + (QueueOp.ack m).acks env qid id s, pubs + (QueueOp.ack m).pubs id) := by
  obtain ⟨hwf, hlen, hle, heq⟩ := hinv
  have hack : Ack env qid (some s) (some m) = .ok (s.clear (env.lostKey qid m.id)) := by
    simp [Ack, Del, Env.Key, Env.lostKey]
  have hrows : pendingRows env qid (s.clear (env.lostKey qid m.id)) = pendingRows env qid s := by
    rw [pendingRows_clear, Store.clear_of_not_mem
      (not_mem_pendingRows_keys env qid s _ (lostKey_not_pending env qid m.id))]
  have hP : pendingCount env qid id (s.clear (env.lostKey qid m.id)) =
      pendingCount env qid id s := by
    simp only [pendingCount, hrows]
  have hsum : lostCount env qid id (s.clear (env.lostKey qid m.id)) +
      (QueueOp.ack m).acks env qid id s = lostCount env qid id s := by
    simp only [QueueOp.acks]
    by_cases hm : m.id = id
    · rw [if_pos hm, hm]
      simp [lostCount, Store.lookup_clear_same]
    · rw [if_neg hm, Nat.add_zero]
      apply lostCount_congr
      exact Store.lookup_clear_other _ (fun h => hm (lostKey_inj env qid h).symm)
  refine ⟨_, hack, Store.clear_WF hwf, ?_, ?_, ?_⟩
  · intro r hr
    simp only [hrows] at hr
    exact hlen r hr
  · simp only [hP, QueueOp.pubs]
    simp only at hle
    omega
  · simp only [hP, QueueOp.pubs]
    simp only at hle heq
    intro hp
    have := heq (by omega)
    omega

end Fdbx

namespace Fdbx

theorem pendingRows_foldl_claimStep_filter (env : Env) (qid : Nat) (rows : List (FdbKey × Bytes))
    (s : Store) (hwf : s.WF) :
    pendingRows env qid (rows.foldl (claimStep env qid) s) =
      (pendingRows env qid s).filter (fun e => decide (e.1 ∉ rows.map Prod.fst)) := by
  rw [pendingRows_foldl_claimStep env qid rows s hwf, Store.clearAll_eq_filter]

/-- Effect of the loop of the claim transaction on the counts of one record id, for rows
taken from the pending range. -/
theorem claim_counts (env : Env) (qid : Nat) (id : Bytes) (s : Store)
    (rows : List (FdbKey × Bytes)) (hwf : s.WF)
    (hsub : ∀ r ∈ rows, r ∈ pendingRows env qid s) :
    pendingCount env qid id (rows.foldl (claimStep env qid) s) +
        lostCount env qid id (rows.foldl (claimStep env qid) s) ≤
      pendingCount env qid id s + lostCount env qid id s ∧
    (pendingCount env qid id s + lostCount env qid id s ≤ 1 →
      pendingCount env qid id (rows.foldl (claimStep env qid) s) +
        lostCount env qid id (rows.foldl (claimStep env qid) s) =
      pendingCount env qid id s + lostCount env qid id s) := by
  have hdisj : ∀ r ∈ rows, ∀ r2 ∈ rows, env.lostKey qid (r.1.drop 12) ≠ r2.1 := by
    intro r _ r2 hr2 h
    have h1 := (mem_pendingRows.1 (hsub r2 hr2)).2
    rw [← h, lostKey_not_pending] at h1
    exact Bool.false_ne_true h1
  have hsplit := List.countP_eq_countP_filter_add (pendingRows env qid s)
    (fun r => decide (r.1.drop 12 = id)) (fun e => decide (e.1 ∉ rows.map Prod.fst))
  have hP : pendingCount env qid id (rows.foldl (claimStep env qid) s) =
      List.countP (fun r => decide (r.1.drop 12 = id))
        ((pendingRows env qid s).filter (fun e => decide (e.1 ∉ rows.map Prod.fst))) := by
    simp only [pendingCount, pendingRows_foldl_claimStep_filter env qid rows s hwf]
  have hP0 : pendingCount env qid id s =
      List.countP (fun r => decide (r.1.drop 12 = id)) (pendingRows env qid s) := rfl
  by_cases hex : ∃ r ∈ rows, r.1.drop 12 = id
  · obtain ⟨r, hr, hrid⟩ := hex
    have hL : lostCount env qid id (rows.foldl (claimStep env qid) s) = 1 := by
      have := (lookup_claim_rows env qid rows s hdisj r hr).2
      rw [hrid] at this
      simp [lostCount, this]
    have hpos : 0 < List.countP (fun r => decide (r.1.drop 12 = id))
        ((pendingRows env qid s).filter (fun e => !decide (e.1 ∉ rows.map Prod.fst))) := by
      apply List.countP_pos_iff.2
      refine ⟨r, List.mem_filter.2 ⟨hsub r hr, ?_⟩, by simpa using hrid⟩
      simpa using ⟨r.2, hr⟩
    have hLs := lostCount_le_one env qid id s
    constructor
    · omega
    · intro h1
      omega
  · have hzero : List.countP (fun r => decide (r.1.drop 12 = id))
        ((pendingRows env qid s).filter (fun e => !decide (e.1 ∉ rows.map Prod.fst))) = 0 := by
      apply List.countP_eq_zero.2
      intro e he hq
      obtain ⟨_, he2⟩ := List.mem_filter.1 he
      simp only [Bool.not_eq_true', decide_eq_false_iff_not, not_not, List.mem_map] at he2
      obtain ⟨r, hr, hre⟩ := he2
      apply hex
      refine ⟨r, hr, ?_⟩
      rw [hre]
      simpa using hq
    have hL : lostCount env qid id (rows.foldl (claimStep env qid) s) =
        lostCount env qid id s := by
      apply lostCount_congr
      apply lookup_claim_frame
      intro r hr
      constructor
      · intro h
        have h1 := (mem_pendingRows.1 (hsub r hr)).2
        rw [← h, lostKey_not_pending] at h1
        exact Bool.false_ne_true h1
      · intro h
        exact hex ⟨r, hr, (lostKey_inj env qid h).symm⟩
    constructor
    · omega
    · intro _
      omega

theorem claim_step (env : Env) (qid : Nat) (id : Bytes) (s : Store) (acked pubs : Nat)
    (limit : Int) (listLen : Nat) (now : Int)
    (htime : (QueueOp.claim limit listLen now).timely)
    (hinv : QueueInv env qid id (s, acked, pubs)) :
    ∃ s1, (QueueOp.claim limit listLen now).run env qid s = .ok s1 ∧
      QueueInv env qid id (s1, acked + (QueueOp.claim limit listLen now).acks env qid id s,
        pubs + (QueueOp.claim limit listLen now).pubs id) := by
  obtain ⟨hwf, hlen, hle, heq⟩ := hinv
  obtain ⟨h0, h1, hguard⟩ := htime
  simp only [QueueOp.acks, QueueOp.pubs, Nat.add_zero]
  have hsub : ∀ r ∈ dueRows env qid now (limit - listLen).toNat s,
      r ∈ pendingRows env qid s :=
    fun r hr => dueRows_subset_pendingRows env qid _ s h0 h1 hr
  have hq : ∀ r ∈ dueRows env qid now (limit - listLen).toNat s, 12 ≤ r.1.length :=
    fun r hr => hlen r (hsub r hr)
  obtain ⟨hc1, hc2⟩ := claim_counts env qid id s _ hwf hsub
  refine ⟨(dueRows env qid now (limit - listLen).toNat s).foldl (claimStep env qid) s, ?_,
    foldl_claimStep_WF env qid _ s hwf, ?_, ?_, ?_⟩
  · simp only [QueueOp.run, claim_eq env qid limit listLen now s (by omega) hq]
  · intro r hr
    simp only [pendingRows_foldl_claimStep_filter env qid _ s hwf] at hr
    exact hlen r (List.mem_filter.1 hr).1
  · simp only at hle ⊢
    omega
  · simp only at hle heq ⊢
    intro hp
    have := heq hp
    have := hc2 (by omega)
    omega

theorem op_step (env : Env) (qid : Nat) (id : Bytes) (hid : id ≠ [255]) (s : Store)
    (acked pubs : Nat) (op : QueueOp) (htime : op.timely)
    (hinv : QueueInv env qid id (s, acked, pubs)) :
    ∃ s1, op.run env qid s = .ok s1 ∧
      QueueInv env qid id (s1, acked + op.acks env qid id s, pubs + op.pubs id) := by
  cases op with
  | pub m t now =>
    obtain ⟨s1, h1, h2⟩ := pub_step env qid id hid s acked pubs m t now htime hinv
    exact ⟨s1, h1, by simpa [QueueOp.acks] using h2⟩
  | claim limit listLen now => exact claim_step env qid id s acked pubs limit listLen now htime hinv
  | ack m => exact ack_step env qid id s acked pubs m hinv

theorem runQueue_inv (env : Env) (qid : Nat) (id : Bytes) (hid : id ≠ [255]) (ops : List QueueOp) :
    ∀ st : Store × Nat × Nat, (∀ op ∈ ops, op.timely) → QueueInv env qid id st →
      ∃ st1, runQueue env qid id ops st = .ok st1 ∧ QueueInv env qid id st1 := by
  induction ops with
  | nil => intro st _ h; exact ⟨st, rfl, h⟩
  | cons op rest ih =>
    rintro ⟨s, acked, pubs⟩ htime hinv
    obtain ⟨s1, h1, h2⟩ := op_step env qid id hid s acked pubs op
      (htime op (List.mem_cons_self _ _)) hinv
    obtain ⟨st1, h3, h4⟩ := ih _ (fun o ho => htime o (List.mem_cons_of_mem _ ho)) h2
    exact ⟨st1, by simp only [runQueue, h1, h3], h4⟩

theorem queueInv_init (env : Env) (qid : Nat) (id : Bytes) :
    QueueInv env qid id ([], 0, 0) := by
  refine ⟨Store.WF_nil, ?_, ?_, ?_⟩
  · intro r hr
    simp [pendingRows, Store.getRange] at hr
  · simp [pendingCount, pendingRows, Store.getRange, lostCount]
  · intro _
    simp [pendingCount, pendingRows, Store.getRange, lostCount]

/-- C5 (amended): for every sequence of `Pub`, claim and `Ack` operations on one queue,
starting from the empty queue, whose firing times and clock values are in `[0, 2^63)` (claims
being run as `SubList` runs them, with `len(list) < limit`), and for every record id other
than the single byte `0xFF`: every operation succeeds, and
(pending entries carrying the id) + (lost entries for the id) + (`Ack` calls that deleted a
lost entry for the id) is at most the number of `Pub` calls for the id, and equal to it when
the id was published at most once. -/
theorem queue_count (env : Env) (qid : Nat) (id : Bytes) (ops : List QueueOp)
    (hid : id ≠ [255]) (htime : ∀ op ∈ ops, op.timely) :
    ∃ s acked pubs, runQueue env qid id ops ([], 0, 0) = .ok (s, acked, pubs) ∧
      pendingCount env qid id s + lostCount env qid id s + acked ≤ pubs ∧
      (pubs ≤ 1 → pendingCount env qid id s + lostCount env qid id s + acked = pubs) := by
  obtain ⟨⟨s, acked, pubs⟩, h1, _, _, h2, h3⟩ :=
    runQueue_inv env qid id hid ops ([], 0, 0) htime (queueInv_init env qid id)
  exact ⟨s, acked, pubs, h1, h2, h3⟩

theorem queue_count_witness :
    ∃ s acked pubs, runQueue exampleEnv 9 [1]
        [.pub (sampleModel [1]) ⟨false, 5⟩ 0, .claim 10 0 100, .ack (sampleModel [1])]
        ([], 0, 0) = .ok (s, acked, pubs) ∧
      pendingCount exampleEnv 9 [1] s + lostCount exampleEnv 9 [1] s + acked ≤ pubs ∧
      (pubs ≤ 1 →
        pendingCount exampleEnv 9 [1] s + lostCount exampleEnv 9 [1] s + acked = pubs) :=
  queue_count exampleEnv 9 [1]
    [.pub (sampleModel [1]) ⟨false, 5⟩ 0, .claim 10 0 100, .ack (sampleModel [1])]
    (by decide) (by decide)

/-- C5, counterexample: record `[1]` is published twice for the same time 5. The second `Pub`
sets the same pending key again, so the queue holds one pending entry, no lost entry, no `Ack`
was made, and the sum `1 + 0 + 0` is not the number of `Pub` calls, 2. -/
theorem queue_count_counterexample :
    runQueue exampleEnv 9 [1]
        [.pub (sampleModel [1]) ⟨false, 5⟩ 0, .pub (sampleModel [1]) ⟨false, 5⟩ 0] ([], 0, 0) =
      .ok ([(exampleEnv.pendingKey 9 5 [1], []), (exampleEnv.watchKey 9, be64 5)], 0, 2) ∧
    pendingCount exampleEnv 9 [1]
      [(exampleEnv.pendingKey 9 5 [1], []), (exampleEnv.watchKey 9, be64 5)] = 1 ∧
    lostCount exampleEnv 9 [1]
      [(exampleEnv.pendingKey 9 5 [1], []), (exampleEnv.watchKey 9, be64 5)] = 0 ∧
    1 + 0 + 0 ≠ 2 := by
  decide

end Fdbx

namespace Fdbx

/-! ## Waiting for the next task -/

theorem foldl_beDigits (k n : Nat) : ∀ acc : Nat,
    (beDigits k n).foldl (fun a x => a * 256 + x) acc = acc * 256 ^ k + n % 256 ^ k := by
  induction k with
  | zero => intro acc; simp [beDigits, Nat.mod_one]
  | succ k ih =>
    intro acc
    rw [beDigits, List.foldl_cons, ih, Nat.mod_pow_succ]
    ring

theorem beUint64_be64 (n : Nat) : beUint64 (be64 n) = n % 2 ^ 64 := by
  rw [be64_eq_beDigits, beUint64, foldl_beDigits]
  norm_num

theorem i64_u64 {t : Int} (h0 : -(2 ^ 63) ≤ t) (h1 : t < 2 ^ 63) : i64 (u64 t) = t := by
  unfold i64 u64
  have h2 : (0 : Int) ≤ t % 2 ^ 64 := Int.emod_nonneg _ (by norm_num)
  rw [Int.toNat_of_nonneg h2]
  omega

theorem pendingKey_time (env : Env) (qid : Nat) (t : Int) (mid : Bytes) :
    ((env.pendingKey qid t mid).drop 4).take 8 = be64 (u64 t) := by
  simp [Env.pendingKey, pendingID, be16, be64]

theorem getRange_one_eq (b e : FdbKey) (s : Store) :
    s.getRange b e 1 = (s.getRange b e 0).take 1 := by
  simp [Store.getRange]

theorem nextTaskDistance_eq (env : Env) (qid : Nat) (punchSize now : Int) (s : Store) :
    nextTaskDistance env qid punchSize now s =
      match pendingRows env qid s with
      | [] => .ok punchSize
      | row :: _ =>
        if row.1.length < 12 then .error .outOfRange
        else if timeSub (i64 (beUint64 ((row.1.drop 4).take 8))) now > 0 then
          .ok (i64 (timeSub (i64 (beUint64 ((row.1.drop 4).take 8))) now + 1000000))
        else .ok punchSize := by
  unfold nextTaskDistance
  rw [Env.Key_ok env qid (by simp : ([0] : Bytes) ≠ []),
    Env.Key_ok env qid (by simp : ([255] : Bytes) ≠ [])]
  simp only [getRange_one_eq]
  unfold pendingRows
  cases h : s.getRange (be16 env.dbnum ++ be16 qid ++ [0]) (be16 env.dbnum ++ be16 qid ++ [255]) 0 with
  | nil => simp
  | cons row rest => simp

/-- The timestamp `nextTaskDistance` decodes from a pending key is the firing time `Pub` encoded,
for every firing time that is an `int64`. -/
theorem pendingKey_decode (env : Env) (qid : Nat) {t : Int} (mid : Bytes)
    (h0 : -(2 ^ 63) ≤ t) (h1 : t < 2 ^ 63) :
    i64 (beUint64 (((env.pendingKey qid t mid).drop 4).take 8)) = t := by
  rw [pendingKey_time, beUint64_be64]
  have hlt : u64 t < 2 ^ 64 := by
    unfold u64
    have h2 : (0 : Int) ≤ t % 2 ^ 64 := Int.emod_nonneg _ (by norm_num)
    have h3 : t % 2 ^ 64 < 2 ^ 64 := Int.emod_lt_of_pos _ (by norm_num)
    omega
  rw [Nat.mod_eq_of_lt hlt]
  exact i64_u64 h0 h1

/-- What the code computes. When the pending range of the queue is empty `nextTaskDistance`
returns `PunchSize`; when its earliest row is the pending key of firing time `time` (an `int64`,
with `(time - now) + 1 ms` below `2^63`), every other pending key is larger and the result is
`(time - now) + 1 ms` if `time > now`, but `PunchSize` again if the entry is already due. -/
theorem nextTaskDistance_cases (env : Env) (qid : Nat) (punchSize now : Int) (s : Store)
    (hwf : s.WF) :
    (pendingRows env qid s = [] → nextTaskDistance env qid punchSize now s = .ok punchSize) ∧
    ∀ (t : Int) (mid v : Bytes) (rest : List (FdbKey × Bytes)),
      pendingRows env qid s = (env.pendingKey qid t mid, v) :: rest →
      -(2 ^ 63) ≤ t → t < 2 ^ 63 → t - now + 1000000 < 2 ^ 63 →
      (∀ r ∈ rest, keyLt (env.pendingKey qid t mid) r.1 = true) ∧
      nextTaskDistance env qid punchSize now s =
        .ok (if now < t then t - now + 1000000 else punchSize) := by
  refine ⟨fun h => by rw [nextTaskDistance_eq, h], ?_⟩
  intro t mid v rest hrows h0 h1 h2
  constructor
  · have hp := pendingRows_WF env qid hwf
    rw [hrows] at hp
    exact fun r hr => (List.pairwise_cons.1 hp).1 r hr
  · rw [nextTaskDistance_eq, hrows]
    have hlen : ¬ (env.pendingKey qid t mid).length < 12 :=
      Nat.not_lt.2 (pendingKey_length env qid t mid)
    simp only [hlen, if_false, pendingKey_decode env qid mid h0 h1]
    unfold timeSub
    by_cases hnow : now < t
    · have e1 : ¬ (t - now > 2 ^ 63 - 1) := by omega
      have e2 : ¬ (t - now < -(2 ^ 63)) := by omega
      have e3 : t - now > 0 := by omega
      have e4 : i64 (t - now + 1000000) = t - now + 1000000 := by unfold i64; omega
      simp only [e1, e2, if_false, e3, if_true, e4, hnow]
    · have e1 : ¬ (t - now > 2 ^ 63 - 1) := by omega
      by_cases e2 : t - now < -(2 ^ 63)
      · have e3 : ¬ (-(2 ^ 63) > (0 : Int)) := by norm_num
        simp only [e1, e2, if_false, if_true, e3, hnow]
      · have e3 : ¬ (t - now > 0) := by omega
        simp only [e1, e2, if_false, e3, hnow]

/-- C11 fails on the code. Queue 9 of database 1 holds a pending entry for time 5 (record
`[1]`) as its earliest row. At clock 100 the entry is due and `nextTaskDistance` returns
`PunchSize` (60 s), not the clamped value `max(0, (5 - 100) + 1 ms)`; at clock 5, the firing
time itself, it returns `PunchSize` as well, not 1 ms. Before the firing time (clock 3) and on
an empty queue it returns what the claim says: `(5 - 3) + 1 ms`, and `PunchSize`. -/
theorem nextTaskDistance_due :
    (pendingRows exampleEnv 9 sampleQueue).head? = some (exampleEnv.pendingKey 9 5 [1], []) ∧
      nextTaskDistance exampleEnv 9 60000000000 100 sampleQueue = .ok 60000000000 ∧
      (60000000000 : Int) ≠ max 0 (5 - 100 + 1000000) ∧
      nextTaskDistance exampleEnv 9 60000000000 5 sampleQueue = .ok 60000000000 ∧
      (60000000000 : Int) ≠ max 0 (5 - 5 + 1000000) ∧
      nextTaskDistance exampleEnv 9 60000000000 3 sampleQueue = .ok (max 0 (5 - 3 + 1000000)) ∧
      nextTaskDistance exampleEnv 9 60000000000 100 [] = .ok 60000000000 := by
  decide

end Fdbx

namespace Fdbx

/-! ## Publishing twice -/

theorem Store.set_eq_self {k : FdbKey} {v : Bytes} : ∀ {s : Store}, s.WF →
    s.lookup k = some v → s.set k v = s := by
  intro s
  induction s with
  | nil => intro _ h; simp [List.lookup] at h
  | cons e r ih =>
    obtain ⟨k1, v1⟩ := e
    intro hwf h
    rw [Store.set_cons]
    by_cases heq : k = k1
    · subst heq
      simp only [List.lookup, beq_self_eq_true] at h
      rw [keyLt_irrefl]
      simp only [Bool.false_eq_true, if_false, if_true]
      cases h
      rfl
    · have hb : (k == k1) = false := by simpa using heq
      simp only [List.lookup, hb] at h
      have hmem : k ∈ Store.keys r := Store.mem_keys_iff_lookup.2 (by rw [h]; simp)
      obtain ⟨x, hx, hxk⟩ := List.mem_map.1 hmem
      have hlt : keyLt k1 k = true := hxk ▸ (Store.WF_cons.1 hwf).1 x hx
      rw [keyLt_asymm hlt]
      simp only [Bool.false_eq_true, if_false, heq, ih (Store.WF_cons.1 hwf).2 h]

theorem Store.filter_key {k : FdbKey} {v : Bytes} : ∀ {s : Store}, s.WF →
    s.lookup k = some v → s.filter (fun r => decide (r.1 = k)) = [(k, v)] := by
  intro s
  induction s with
  | nil => intro _ h; simp [List.lookup] at h
  | cons e r ih =>
    obtain ⟨k1, v1⟩ := e
    intro hwf h
    by_cases heq : k = k1
    · subst heq
      simp only [List.lookup, beq_self_eq_true] at h
      cases h
      have hr : r.filter (fun x => decide (x.1 = k)) = [] := by
        rw [List.filter_eq_nil_iff]
        intro x hx hxk
        have hlt := (Store.WF_cons.1 hwf).1 x hx
        rw [of_decide_eq_true hxk] at hlt
        simp [keyLt_irrefl] at hlt
      simp [List.filter_cons, hr]
    · have hb : (k == k1) = false := by simpa using heq
      simp only [List.lookup, hb] at h
      have hne : ¬ k1 = k := fun h2 => heq h2.symm
      simp [List.filter_cons, hne, ih (Store.WF_cons.1 hwf).2 h]

theorem pendingKey_ne_watchKey (env : Env) (qid : Nat) (t : Int) (mid : Bytes) :
    env.pendingKey qid t mid ≠ env.watchKey qid := by
  intro h
  have h1 := pendingKey_length env qid t mid
  rw [h] at h1
  simp [Env.watchKey, be16] at h1

/-- C12: for every store state, `Pub(m, t)` with a non-zero `t` returns; afterwards the pending
key `(QCTYPE, t_u64_BE ‖ id(m))` holds the empty value, the watch key `(QCTYPE, 0xFF 0xFF)` holds
`t_u64_BE`, and every other key is as before; the same `Pub(m, t)` run again, at any clock, leaves
the store exactly as after the first, and the store holds exactly one row under that pending
key. -/
theorem Pub_twice (env : Env) (qid : Nat) (s : Store) (m : Model) (t : Time) (now now2 : Int)
    (hwf : s.WF) (hz : t.isZero = false) :
    ∃ s1, Pub env qid (some s) (some m) t now = .ok s1 ∧
      s1.lookup (env.pendingKey qid t.unixNano m.id) = some [] ∧
      s1.lookup (env.watchKey qid) = some (be64 (u64 t.unixNano)) ∧
      (∀ k, k ≠ env.pendingKey qid t.unixNano m.id → k ≠ env.watchKey qid →
        s1.lookup k = s.lookup k) ∧
      Pub env qid (some s1) (some m) t now2 = .ok s1 ∧
      s1.WF ∧
      s1.filter (fun r => decide (r.1 = env.pendingKey qid t.unixNano m.id)) =
        [(env.pendingKey qid t.unixNano m.id, [])] := by
  have hpw := pendingKey_ne_watchKey env qid t.unixNano m.id
  have h1 : ((s.set (env.pendingKey qid t.unixNano m.id) []).set (env.watchKey qid)
      (be64 (u64 t.unixNano))).lookup (env.pendingKey qid t.unixNano m.id) = some [] := by
    rw [Store.lookup_set_other _ _ hpw, Store.lookup_set_same]
  have hwf1 : Store.WF ((s.set (env.pendingKey qid t.unixNano m.id) []).set (env.watchKey qid)
      (be64 (u64 t.unixNano))) := Store.set_WF (Store.set_WF hwf)
  refine ⟨_, ?_, h1, Store.lookup_set_same _ _ _, ?_, ?_, hwf1, ?_⟩
  · rw [Pub_eq]; simp [hz]
  · intro k hk1 hk2
    rw [Store.lookup_set_other _ _ hk2, Store.lookup_set_other _ _ hk1]
  · rw [Pub_eq]
    simp only [hz, Bool.false_eq_true, if_false]
    rw [Store.set_eq_self hwf1 h1, Store.set_eq_self hwf1 (Store.lookup_set_same _ _ _)]
  · exact Store.filter_key hwf1 h1

/-- `Pub` of record `[1]` for time 5 into the queue that already holds that entry. -/
theorem Pub_twice_witness :
    ∃ s1, Pub exampleEnv 9 (some sampleQueue) (some (sampleModel [1])) ⟨false, 5⟩ 7 = .ok s1 ∧
      s1.lookup (exampleEnv.pendingKey 9 5 (sampleModel [1]).id) = some [] ∧
      s1.lookup (exampleEnv.watchKey 9) = some (be64 (u64 5)) ∧
      (∀ k, k ≠ exampleEnv.pendingKey 9 5 (sampleModel [1]).id → k ≠ exampleEnv.watchKey 9 →
        s1.lookup k = sampleQueue.lookup k) ∧
      Pub exampleEnv 9 (some s1) (some (sampleModel [1])) ⟨false, 5⟩ 8 = .ok s1 ∧
      s1.WF ∧
      s1.filter (fun r => decide (r.1 = exampleEnv.pendingKey 9 5 (sampleModel [1]).id)) =
        [(exampleEnv.pendingKey 9 5 (sampleModel [1]).id, [])] :=
  Pub_twice exampleEnv 9 sampleQueue (sampleModel [1]) ⟨false, 5⟩ 7 8 (by decide) rfl

end Fdbx

namespace Fdbx

/-! ## Select -/

theorem selectMid_eq {o : Options} {key : FdbKey} {mid : Bytes}
    (hmid : o.idlen ≤ 0 → o.pflen ≤ 0 → mid = [])
    (h1 : 0 < o.idlen → o.idlen ≤ key.length) (h2 : o.idlen ≤ 0 → o.pflen ≤ key.length) :
    selectMid o key mid = .ok (specMid o key) := by
  unfold selectMid specMid
  by_cases hid : o.idlen > 0
  · have hlen := h1 hid
    have e1 : ¬ ((key.length : Int) - o.idlen < 0) := by omega
    have e2 : ((key.length : Int) - o.idlen).toNat = key.length - o.idlen.toNat := by omega
    simp only [hid, if_true, e1, if_false, e2]
  · have hlen := h2 (by omega)
    by_cases hpf : o.pflen > 0
    · have e1 : ¬ (o.pflen > (key.length : Int)) := by omega
      simp only [hid, if_false, hpf, if_true, e1]
    · simp only [hid, if_false, hpf]
      rw [hmid (by omega) (by omega)]

theorem specMid_inv (o : Options) (key : FdbKey) :
    o.idlen ≤ 0 → o.pflen ≤ 0 → specMid o key = [] := by
  intro h1 h2
  unfold specMid
  have e1 : ¬ (o.idlen > 0) := by omega
  have e2 : ¬ (o.pflen > 0) := by omega
  simp only [e1, e2, if_false]

theorem selectRows_eq (env : Env) (fab : Bytes → Except Err Model) (o : Options) (s : Store)
    (payload : FdbKey × Bytes → Bytes) (keep : FdbKey × Bytes → Bool)
    (recOf : FdbKey × Bytes → Model) :
    ∀ (rows : List (FdbKey × Bytes)) (mid : Bytes) (list : List Loaded),
      (o.idlen ≤ 0 → o.pflen ≤ 0 → mid = []) →
      (∀ row ∈ rows, RowDecodes env fab o s payload keep recOf row) →
      selectRows env fab o s rows mid list =
        .ok (list ++ (rows.filter keep).map (fun row => (recOf row, some (payload row)))) := by
  intro rows
  induction rows with
  | nil => intro mid list _ _; simp [selectRows]
  | cons row rest ih =>
    intro mid list hmid hrows
    obtain ⟨h1, h2, ⟨b, hun⟩, hf, hnf, hfab⟩ := hrows row (List.mem_cons_self _ _)
    have hrest : ∀ r ∈ rest, RowDecodes env fab o s payload keep recOf r :=
      fun r hr => hrows r (List.mem_cons_of_mem _ hr)
    unfold selectRows
    rw [selectMid_eq hmid h1 h2]
    simp only [hun]
    cases hfl : o.filter with
    | none =>
      have hk := hnf hfl
      obtain ⟨hm, hl⟩ := hfab hk
      simp only [Bool.not_true, Bool.false_eq_true, if_false, hm, hl]
      rw [ih _ _ (specMid_inv o row.1) hrest]
      simp [List.filter_cons, hk]
    | some f =>
      simp only [hf f hfl]
      cases hk : keep row
      · simp only [Bool.not_false, if_true]
        rw [ih _ list (specMid_inv o row.1) hrest]
        simp [List.filter_cons, hk]
      · obtain ⟨hm, hl⟩ := hfab hk
        simp only [Bool.not_true, Bool.false_eq_true, if_false, hm, hl]
        rw [ih _ _ (specMid_inv o row.1) hrest]
        simp [List.filter_cons, hk]

theorem getRange_eq_specSelectRange (env : Env) (ctype : Nat) (o : Options) (s : Store) :
    s.getRange (be16 env.dbnum ++ be16 ctype ++ o.gte.getD [0])
        (be16 env.dbnum ++ be16 ctype ++ o.lt.getD [255])
        (if o.limit > 0 then o.limit.toNat else 0) =
      specSelectRange env ctype o s := by
  unfold Store.getRange specSelectRange Store.inRange
  by_cases hl : o.limit > 0
  · have : o.limit.toNat ≠ 0 := by omega
    simp only [hl, if_true, this, if_false]
  · simp only [hl, if_false, if_true]

theorem Select_eq (env : Env) (ctype : Nat) (fab : Bytes → Except Err Model)
    (opts : List (Options → Except Err Options)) (o : Options) (s : Store)
    (ho : applyOptions opts {} = .ok o) (hgte : o.gte ≠ some []) (hlt : o.lt ≠ some []) :
    Select env ctype fab opts s =
      selectRows env fab o s (specSelectRange env ctype o s) [] [] := by
  unfold Select
  simp only [ho]
  cases hg : o.gte with
  | none =>
    cases hl : o.lt with
    | none =>
      rw [Env.Key_ok env ctype (by simp : ([0] : Bytes) ≠ []),
        Env.Key_ok env ctype (by simp : ([255] : Bytes) ≠ [])]
      simp only [← getRange_eq_specSelectRange, hg, hl, Option.getD_none]
    | some l =>
      have n2 : l ≠ [] := fun h => hlt (by rw [hl, h])
      rw [Env.Key_ok env ctype (by simp : ([0] : Bytes) ≠ []), Env.Key_ok env ctype n2]
      simp only [← getRange_eq_specSelectRange, hg, hl, Option.getD_none, Option.getD_some]
  | some g =>
    have n1 : g ≠ [] := fun h => hgte (by rw [hg, h])
    cases hl : o.lt with
    | none =>
      rw [Env.Key_ok env ctype n1, Env.Key_ok env ctype (by simp : ([255] : Bytes) ≠ [])]
      simp only [← getRange_eq_specSelectRange, hg, hl, Option.getD_none, Option.getD_some]
    | some l =>
      have n2 : l ≠ [] := fun h => hlt (by rw [hl, h])
      rw [Env.Key_ok env ctype n1, Env.Key_ok env ctype n2]
      simp only [← getRange_eq_specSelectRange, hg, hl, Option.getD_some]

theorem specSelectRange_sorted (env : Env) (ctype : Nat) (o : Options) {s : Store}
    (hwf : s.WF) :
    (specSelectRange env ctype o s).Pairwise (fun a b => keyLt a.1 b.1 = true) := by
  unfold specSelectRange
  have hf := Store.WF_filter (fun r =>
    !keyLt r.1 (be16 env.dbnum ++ be16 ctype ++ o.gte.getD [0]) &&
      keyLt r.1 (be16 env.dbnum ++ be16 ctype ++ o.lt.getD [255])) hwf
  by_cases hl : o.limit > 0
  · simp only [hl, if_true]
    exact List.Pairwise.sublist (List.take_sublist _ _) hf
  · simp only [hl, if_false]
    exact hf

/-- C13 (amended): for every store state and options (bounds `gte`, `lt` not empty) such that
every row of the range `[key(ctype, gte), key(ctype, lt))`, cut to the first `limit` rows when
`limit > 0`, decodes (its value unpacks, its key is long enough for `idlen` or `pflen`, filter,
fabric and `Load` return no error), `Select` returns, in the ascending key order of those rows,
one record per row that the filter keeps, made by the fabric from the row's id and loaded with
the unpacked value of the row; without a filter every row is kept. -/
theorem Select_spec (env : Env) (ctype : Nat) (fab : Bytes → Except Err Model)
    (opts : List (Options → Except Err Options)) (o : Options) (s : Store)
    (payload : FdbKey × Bytes → Bytes) (keep : FdbKey × Bytes → Bool)
    (recOf : FdbKey × Bytes → Model)
    (ho : applyOptions opts {} = .ok o) (hgte : o.gte ≠ some []) (hlt : o.lt ≠ some [])
    (hwf : s.WF)
    (hrows : ∀ row ∈ specSelectRange env ctype o s,
      RowDecodes env fab o s payload keep recOf row) :
    Select env ctype fab opts s =
        .ok (((specSelectRange env ctype o s).filter keep).map
          (fun row => (recOf row, some (payload row)))) ∧
      (o.filter = none →
        (specSelectRange env ctype o s).filter keep = specSelectRange env ctype o s) ∧
      (specSelectRange env ctype o s).Pairwise (fun a b => keyLt a.1 b.1 = true) := by
  refine ⟨?_, ?_, specSelectRange_sorted env ctype o hwf⟩
  · rw [Select_eq env ctype fab opts o s ho hgte hlt,
      selectRows_eq env fab o s payload keep recOf _ [] [] (fun _ _ => rfl) hrows]
    simp
  · intro hnf
    rw [List.filter_eq_self]
    exact fun row hrow => (hrows row hrow).2.2.2.2.1 hnf

/-- `Select` over collection 7 with `limit = 2` and `pflen = 4`: the first two of the three
rows, the second stored gzipped. -/
theorem Select_spec_witness :
    Select exampleEnv 7 sampleFabric sampleOptions sampleRecords =
        .ok (((specSelectRange exampleEnv 7 { limit := 2, pflen := 4 } sampleRecords).filter
            (fun _ => true)).map
          (fun row => (sampleModel (row.1.drop 4),
            some (if row.2.head? = some 64 then row.2.drop 3 else row.2.drop 1)))) ∧
      (({ limit := 2, pflen := 4 } : Options).filter = none →
        (specSelectRange exampleEnv 7 { limit := 2, pflen := 4 } sampleRecords).filter
            (fun _ => true) =
          specSelectRange exampleEnv 7 { limit := 2, pflen := 4 } sampleRecords) ∧
      (specSelectRange exampleEnv 7 { limit := 2, pflen := 4 } sampleRecords).Pairwise
        (fun a b => keyLt a.1 b.1 = true) :=
  Select_spec exampleEnv 7 sampleFabric sampleOptions { limit := 2, pflen := 4 } sampleRecords
    (fun row => if row.2.head? = some 64 then row.2.drop 3 else row.2.drop 1) (fun _ => true)
    (fun row => sampleModel (row.1.drop 4)) rfl (by decide) (by decide) (by decide)
    (by
      have hr : specSelectRange exampleEnv 7 { limit := 2, pflen := 4 } sampleRecords =
          [([0, 1, 0, 7, 1], [0, 5, 6]), ([0, 1, 0, 7, 2], [64, 31, 139, 8])] := by decide
      rw [hr]
      intro row hrow
      simp only [List.mem_cons, List.mem_singleton, List.not_mem_nil, or_false] at hrow
      unfold RowDecodes
      rcases hrow with rfl | rfl
      · exact ⟨by decide, by decide, ⟨none, rfl⟩, fun f h => Option.noConfusion h, fun _ => rfl,
          fun _ => ⟨rfl, rfl⟩⟩
      · exact ⟨by decide, by decide, ⟨none, rfl⟩, fun f h => Option.noConfusion h, fun _ => rfl,
          fun _ => ⟨rfl, rfl⟩⟩)

/-- C13 as stated fails: the range of collection 7 holds one row, whose value has the GZIP flag
and a body that is not a gzip stream; `Select` without options returns the error `ErrInvalidGZ`
of `unpack` and no record. -/
theorem Select_counterexample :
    specSelectRange exampleEnv 7 {} sampleBadRecords = [([0, 1, 0, 7, 1], [64, 0])] ∧
      Select exampleEnv 7 sampleFabric [] sampleBadRecords = .error .invalidGZ :=
  ⟨by decide, rfl⟩

end Fdbx

namespace Fdbx

/-! ## Load -/

theorem load_empty (env : Env) (m : Model) (s : Store) : load env m [] s = (none, .ok ()) := rfl

theorem loadFutures_eq (env : Env) (s : Store) : ∀ (models : List Model) (fs : List Bytes),
    loadFutures env s models = .ok fs → fs = models.map (env.stored s) := by
  intro models
  induction models with
  | nil => intro fs h; simp only [loadFutures, Except.ok.injEq] at h; simp [← h]
  | cons m rest ih =>
    intro fs h
    unfold loadFutures at h
    cases hk : env.MKey m with
    | error e => simp [hk] at h
    | ok key =>
      cases hr : loadFutures env s rest with
      | error e => simp [hk, hr] at h
      | ok l =>
        simp only [hk, hr, Except.ok.injEq] at h
        rw [← h, List.map_cons, ih l hr]
        simp [Env.stored, hk]

theorem loadFutures_ok (env : Env) (s : Store) : ∀ models : List Model,
    (∀ m ∈ models, ∃ key, env.MKey m = .ok key) →
    loadFutures env s models = .ok (models.map (env.stored s)) := by
  intro models
  induction models with
  | nil => intro _; rfl
  | cons m rest ih =>
    intro h
    obtain ⟨key, hk⟩ := h m (List.mem_cons_self _ _)
    unfold loadFutures
    simp only [hk, ih (fun x hx => h x (List.mem_cons_of_mem _ hx))]
    simp [Env.stored, hk]

theorem loadFutures_error (env : Env) (s : Store) : ∀ (models : List Model) (e : Err),
    loadFutures env s models = .error e → ∃ m ∈ models, env.MKey m = .error e := by
  intro models
  induction models with
  | nil => intro e h; simp [loadFutures] at h
  | cons m rest ih =>
    intro e h
    unfold loadFutures at h
    cases hk : env.MKey m with
    | error e1 =>
      simp only [hk, Except.error.injEq] at h
      exact ⟨m, List.mem_cons_self _ _, by rw [hk, h]⟩
    | ok key =>
      cases hr : loadFutures env s rest with
      | error e1 =>
        simp only [hk, hr, Except.error.injEq] at h
        obtain ⟨x, hx, hxe⟩ := ih e1 hr
        exact ⟨x, List.mem_cons_of_mem _ hx, by rw [hxe, h]⟩
      | ok l => simp [hk, hr] at h

/-- The second loop of `Load` on the records and the values stored for them. -/
theorem loadAll_cons (env : Env) (s : Store) (m : Model) (models : List Model) (v : Bytes)
    (fs : List Bytes) :
    loadAll env s (m :: models) (v :: fs) =
      match load env m v s with
      | (o, .error e) => ((m, o) :: models.map (fun x => (x, none)), .error e)
      | (o, .ok _) =>
        ((m, o) :: (loadAll env s models fs).1, (loadAll env s models fs).2) := rfl

theorem loadAll_fst (env : Env) (s : Store) : ∀ (models : List Model) (fs : List Bytes),
    (loadAll env s models fs).1.map Prod.fst = models := by
  intro models
  induction models with
  | nil => intro fs; cases fs <;> simp [loadAll]
  | cons m rest ih =>
    intro fs
    cases fs with
    | nil => simp [loadAll, Function.comp_def]
    | cons v fs =>
      rw [loadAll_cons]
      cases hl : load env m v s with
      | mk o r =>
        cases r with
        | error e => simp [Function.comp_def]
        | ok u => simp [ih fs]

theorem map_none_insert (pre post : List Model) (m : Model) :
    (pre ++ m :: post).map (fun x => ((x, none) : Loaded)) =
      ((pre ++ post).map (fun x => ((x, none) : Loaded))).take pre.length ++
        (m, none) :: ((pre ++ post).map (fun x => ((x, none) : Loaded))).drop pre.length := by
  simp [List.take_append_eq_append_take, List.drop_append_eq_append_drop]

/-- A record without a stored value in the middle of the second loop of `Load`. -/
theorem loadAll_skip (env : Env) (s : Store) (m : Model) (post : List Model)
    (fpost : List Bytes) : ∀ (pre : List Model) (fpre : List Bytes), fpre.length = pre.length →
    (loadAll env s (pre ++ m :: post) (fpre ++ [] :: fpost)).2 =
        (loadAll env s (pre ++ post) (fpre ++ fpost)).2 ∧
      (loadAll env s (pre ++ m :: post) (fpre ++ [] :: fpost)).1 =
        (loadAll env s (pre ++ post) (fpre ++ fpost)).1.take pre.length ++
          (m, none) :: (loadAll env s (pre ++ post) (fpre ++ fpost)).1.drop pre.length := by
  intro pre
  induction pre with
  | nil =>
    intro fpre hlen
    have : fpre = [] := List.length_eq_zero.1 hlen
    subst this
    simp only [List.nil_append, loadAll_cons, load_empty, List.length_nil, List.take_zero,
      List.drop_zero, and_self]
  | cons p pre ih =>
    intro fpre hlen
    cases fpre with
    | nil => simp at hlen
    | cons f fpre =>
      have hlen1 : fpre.length = pre.length := by simpa using hlen
      obtain ⟨ih2, ih1⟩ := ih fpre hlen1
      simp only [List.cons_append, loadAll_cons]
      cases hl : load env p f s with
      | mk o r =>
        cases r with
        | error e =>
          simp only [List.length_cons, List.take_succ_cons, List.drop_succ_cons,
            List.cons_append, true_and]
          rw [map_none_insert]
        | ok u =>
          simp only [List.length_cons, List.take_succ_cons, List.drop_succ_cons,
            List.cons_append, ih2, ih1, true_and]

theorem loadFutures_skip (env : Env) (s : Store) (m : Model) (key : FdbKey)
    (hkey : env.MKey m = .ok key) (post : List Model) : ∀ pre : List Model,
    loadFutures env s (pre ++ m :: post) =
      match loadFutures env s (pre ++ post) with
      | .error e => .error e
      | .ok fs => .ok (fs.take pre.length ++ s.get key :: fs.drop pre.length) := by
  intro pre
  induction pre with
  | nil =>
    simp only [List.nil_append, List.length_nil, List.take_zero, List.drop_zero]
    rw [loadFutures, hkey]
  | cons p pre ih =>
    simp only [List.cons_append]
    rw [loadFutures, ih, loadFutures]
    cases hp : env.MKey p with
    | error e => rfl
    | ok kp =>
      cases hr : loadFutures env s (pre ++ post) with
      | error e => rfl
      | ok fs => simp

/-- `Load` on a list of records that have primary keys is the second loop run on the stored
values. -/
theorem Load_eq (env : Env) (s : Store) (models : List Model)
    (h : ∀ m ∈ models, ∃ key, env.MKey m = .ok key) :
    Load env models s = loadAll env s models (models.map (env.stored s)) := by
  unfold Load
  rw [loadFutures_ok env s models h]

theorem load_some {env : Env} {m : Model} {v buf : Bytes} {s : Store}
    (h : (load env m v s).1 = some buf) : v ≠ [] ∧ ∃ b, unpack env v s = .ok (b, buf) := by
  unfold load at h
  by_cases hv : v.length = 0
  · simp [hv] at h
  · simp only [hv, if_false] at h
    refine ⟨fun h0 => hv (by rw [h0]; rfl), ?_⟩
    cases hu : unpack env v s with
    | error e => simp [hu] at h
    | ok r =>
      obtain ⟨b, w⟩ := r
      simp only [hu, Option.some.injEq] at h
      exact ⟨b, by rw [h]⟩

theorem load_ok {env : Env} {m : Model} {v : Bytes} {s : Store}
    (h : (load env m v s).2 = .ok ()) (hv : v ≠ []) :
    ∃ b buf, unpack env v s = .ok (b, buf) ∧ (load env m v s).1 = some buf ∧
      m.load buf = .ok () := by
  have hv0 : ¬ v.length = 0 := fun h0 => hv (List.length_eq_zero.1 h0)
  unfold load at h ⊢
  simp only [hv0, if_false] at h ⊢
  cases hu : unpack env v s with
  | error e => simp [hu] at h
  | ok r =>
    obtain ⟨b, w⟩ := r
    simp only [hu] at h
    exact ⟨b, w, rfl, rfl, h⟩

theorem load_returns {env : Env} {m : Model} {v : Bytes} {s : Store}
    (h : v = [] ∨ ∃ b buf, unpack env v s = .ok (b, buf) ∧ m.load buf = .ok ()) :
    (load env m v s).2 = .ok () := by
  unfold load
  by_cases hv : v.length = 0
  · simp [hv]
  · rcases h with h0 | ⟨b, buf, hu, hl⟩
    · exact absurd (by rw [h0]; rfl) hv
    · simp only [hv, if_false, hu, hl]

theorem loadAll_some (env : Env) (s : Store) : ∀ models : List Model,
    ∀ x ∈ (loadAll env s models (models.map (env.stored s))).1, ∀ buf, x.2 = some buf →
      env.stored s x.1 ≠ [] ∧ ∃ b, unpack env (env.stored s x.1) s = .ok (b, buf) := by
  intro models
  induction models with
  | nil => intro x hx; simp [loadAll] at hx
  | cons m rest ih =>
    intro x hx buf hbuf
    rw [List.map_cons, loadAll_cons] at hx
    cases hl : load env m (env.stored s m) s with
    | mk o r =>
      have ho : (load env m (env.stored s m) s).1 = o := by rw [hl]
      cases r with
      | error e =>
        simp only [hl, List.mem_cons, List.mem_map] at hx
        rcases hx with rfl | ⟨y, _, rfl⟩
        · exact load_some (ho.trans hbuf)
        · cases hbuf
      | ok u =>
        simp only [hl, List.mem_cons] at hx
        rcases hx with rfl | hx
        · exact load_some (ho.trans hbuf)
        · exact ih x hx buf hbuf

theorem loadAll_ok (env : Env) (s : Store) : ∀ models : List Model,
    (loadAll env s models (models.map (env.stored s))).2 = .ok () →
    ∀ x ∈ (loadAll env s models (models.map (env.stored s))).1, env.stored s x.1 ≠ [] →
      ∃ b buf, unpack env (env.stored s x.1) s = .ok (b, buf) ∧ x.2 = some buf ∧
        x.1.load buf = .ok () := by
  intro models
  induction models with
  | nil => intro _ x hx; simp [loadAll] at hx
  | cons m rest ih =>
    intro hok x hx hne
    rw [List.map_cons, loadAll_cons] at hx hok
    cases hl : load env m (env.stored s m) s with
    | mk o r =>
      have ho : (load env m (env.stored s m) s).1 = o := by rw [hl]
      cases r with
      | error e => simp [hl] at hok
      | ok u =>
        simp only [hl] at hok
        simp only [hl, List.mem_cons] at hx
        rcases hx with rfl | hx
        · have h2 : (load env m (env.stored s m) s).2 = .ok () := by rw [hl]
          obtain ⟨b, buf, hu, h1, hld⟩ := load_ok h2 hne
          exact ⟨b, buf, hu, ho.symm.trans h1, hld⟩
        · exact ih hok x hx hne

theorem loadAll_returns (env : Env) (s : Store) : ∀ models : List Model,
    (∀ m ∈ models, env.stored s m = [] ∨
      ∃ b buf, unpack env (env.stored s m) s = .ok (b, buf) ∧ m.load buf = .ok ()) →
    (loadAll env s models (models.map (env.stored s))).2 = .ok () := by
  intro models
  induction models with
  | nil => intro _; rfl
  | cons m rest ih =>
    intro h
    rw [List.map_cons, loadAll_cons]
    have h2 := load_returns (h m (List.mem_cons_self _ _))
    cases hl : load env m (env.stored s m) s with
    | mk o r =>
      rw [hl] at h2
      simp only at h2
      subst h2
      exact ih (fun x hx => h x (List.mem_cons_of_mem _ hx))

theorem Load_cases (env : Env) (s : Store) (models : List Model) :
    Load env models s = loadAll env s models (models.map (env.stored s)) ∨
      ∃ e, Load env models s = (models.map (fun x => (x, none)), .error e) := by
  unfold Load
  cases h : loadFutures env s models with
  | error e => exact Or.inr ⟨e, rfl⟩
  | ok fs => rw [loadFutures_eq env s models fs h]; exact Or.inl rfl

theorem Load_fst (env : Env) (s : Store) (models : List Model) :
    (Load env models s).1.map Prod.fst = models := by
  rcases Load_cases env s models with h | ⟨e, h⟩
  · rw [h, loadAll_fst]
  · rw [h]; simp [Function.comp_def]

theorem Load_skip (env : Env) (s : Store) (pre post : List Model) (m : Model) (key : FdbKey)
    (hkey : env.MKey m = .ok key) (habs : s.get key = []) :
    (Load env (pre ++ m :: post) s).2 = (Load env (pre ++ post) s).2 ∧
      (Load env (pre ++ m :: post) s).1 =
        (Load env (pre ++ post) s).1.take pre.length ++
          (m, none) :: (Load env (pre ++ post) s).1.drop pre.length := by
  unfold Load
  rw [loadFutures_skip env s m key hkey post pre]
  cases hf : loadFutures env s (pre ++ post) with
  | error e => exact ⟨rfl, map_none_insert pre post m⟩
  | ok fs =>
    have hfs := loadFutures_eq env s _ fs hf
    simp only [List.map_append] at hfs
    subst hfs
    simp only [habs]
    have hlen : (pre.map (env.stored s)).length = pre.length := List.length_map _ _
    have e1 : (pre.map (env.stored s) ++ post.map (env.stored s)).take pre.length =
        pre.map (env.stored s) := by
      rw [← hlen, List.take_left]
    have e2 : (pre.map (env.stored s) ++ post.map (env.stored s)).drop pre.length =
        post.map (env.stored s) := by
      rw [← hlen, List.drop_left]
    rw [e1, e2]
    exact loadAll_skip env s m post _ pre _ hlen

/-- C14: for every list of records passed to `Load` and every record `m` of the list whose
primary key is absent from the store or holds an empty value: `m` comes out with its `Load`
method never called, and `Load` returns the same error or `nil`, and treats every other record
the same, as on the list without `m`. Each record whose `Load` method is called has a stored
value and receives exactly the payload `unpack` returns for it; when `Load` returns `nil` every
record with a stored value has received it; and `Load` returns `nil` whenever each other record
is absent or has a value that unpacks and that its `Load` method accepts. -/
theorem Load_absent (env : Env) (s : Store) (pre post : List Model) (m : Model) (key : FdbKey)
    (hkey : env.MKey m = .ok key) (habs : s.get key = []) :
    (Load env (pre ++ m :: post) s).1.map Prod.fst = pre ++ m :: post ∧
      (Load env (pre ++ m :: post) s).2 = (Load env (pre ++ post) s).2 ∧
      (Load env (pre ++ m :: post) s).1 =
        (Load env (pre ++ post) s).1.take pre.length ++
          (m, none) :: (Load env (pre ++ post) s).1.drop pre.length ∧
      (∀ x ∈ (Load env (pre ++ m :: post) s).1, ∀ buf, x.2 = some buf →
        env.stored s x.1 ≠ [] ∧ ∃ b, unpack env (env.stored s x.1) s = .ok (b, buf)) ∧
      ((Load env (pre ++ m :: post) s).2 = .ok () →
        ∀ x ∈ (Load env (pre ++ m :: post) s).1, env.stored s x.1 ≠ [] →
          ∃ b buf, unpack env (env.stored s x.1) s = .ok (b, buf) ∧ x.2 = some buf) ∧
      ((∀ x ∈ pre ++ post, ∃ k, env.MKey x = .ok k ∧ (s.get k = [] ∨
          ∃ b buf, unpack env (s.get k) s = .ok (b, buf) ∧ x.load buf = .ok ())) →
        (Load env (pre ++ m :: post) s).2 = .ok ()) := by
  obtain ⟨hs2, hs1⟩ := Load_skip env s pre post m key hkey habs
  refine ⟨Load_fst env s _, hs2, hs1, ?_, ?_, ?_⟩
  · intro x hx buf hbuf
    rcases Load_cases env s (pre ++ m :: post) with h | ⟨e, h⟩
    · rw [h] at hx
      exact loadAll_some env s _ x hx buf hbuf
    · rw [h] at hx
      obtain ⟨y, _, rfl⟩ := List.mem_map.1 hx
      cases hbuf
  · intro hok x hx hne
    rcases Load_cases env s (pre ++ m :: post) with h | ⟨e, h⟩
    · rw [h] at hx hok
      obtain ⟨b, buf, hu, hx2, _⟩ := loadAll_ok env s _ hok x hx hne
      exact ⟨b, buf, hu, hx2⟩
    · rw [h] at hok
      cases hok
  · intro hall
    have hstored : env.stored s m = [] := by simp [Env.stored, hkey, habs]
    have hkeys : ∀ x ∈ pre ++ m :: post, ∃ k, env.MKey x = .ok k := by
      intro x hx
      rcases List.mem_append.1 hx with hx | hx
      · obtain ⟨k, hk, _⟩ := hall x (List.mem_append_left _ hx)
        exact ⟨k, hk⟩
      · rcases List.mem_cons.1 hx with rfl | hx
        · exact ⟨key, hkey⟩
        · obtain ⟨k, hk, _⟩ := hall x (List.mem_append_right _ hx)
          exact ⟨k, hk⟩
    rw [Load_eq env s _ hkeys]
    apply loadAll_returns
    intro x hx
    have hx2 : x = m ∨ x ∈ pre ++ post := by
      rcases List.mem_append.1 hx with hx | hx
      · exact Or.inr (List.mem_append_left _ hx)
      · rcases List.mem_cons.1 hx with rfl | hx
        · exact Or.inl rfl
        · exact Or.inr (List.mem_append_right _ hx)
    rcases hx2 with rfl | hx2
    · exact Or.inl hstored
    · obtain ⟨k, hk, hv⟩ := hall x hx2
      have hst : env.stored s x = s.get k := by simp [Env.stored, hk]
      rw [hst]
      exact hv

/-- `Load` of the records `[1]`, `[3]`, `[2]` of collection 7 from a store that holds `[1]`
and `[2]` but not `[3]`. -/
theorem Load_absent_witness :
    (Load exampleEnv ([sampleModel [1]] ++ sampleModel [3] :: [sampleModel [2]])
          sampleRecords).1.map Prod.fst =
        [sampleModel [1]] ++ sampleModel [3] :: [sampleModel [2]] ∧
      (Load exampleEnv ([sampleModel [1]] ++ sampleModel [3] :: [sampleModel [2]])
          sampleRecords).2 =
        (Load exampleEnv ([sampleModel [1]] ++ [sampleModel [2]]) sampleRecords).2 ∧
      (Load exampleEnv ([sampleModel [1]] ++ sampleModel [3] :: [sampleModel [2]])
          sampleRecords).1 =
        (Load exampleEnv ([sampleModel [1]] ++ [sampleModel [2]]) sampleRecords).1.take
            [sampleModel [1]].length ++
          (sampleModel [3], none) ::
            (Load exampleEnv ([sampleModel [1]] ++ [sampleModel [2]]) sampleRecords).1.drop
              [sampleModel [1]].length ∧
      (∀ x ∈ (Load exampleEnv ([sampleModel [1]] ++ sampleModel [3] :: [sampleModel [2]])
          sampleRecords).1, ∀ buf, x.2 = some buf →
        exampleEnv.stored sampleRecords x.1 ≠ [] ∧
          ∃ b, unpack exampleEnv (exampleEnv.stored sampleRecords x.1) sampleRecords =
            .ok (b, buf)) ∧
      ((Load exampleEnv ([sampleModel [1]] ++ sampleModel [3] :: [sampleModel [2]])
          sampleRecords).2 = .ok () →
        ∀ x ∈ (Load exampleEnv ([sampleModel [1]] ++ sampleModel [3] :: [sampleModel [2]])
            sampleRecords).1, exampleEnv.stored sampleRecords x.1 ≠ [] →
          ∃ b buf, unpack exampleEnv (exampleEnv.stored sampleRecords x.1) sampleRecords =
            .ok (b, buf) ∧ x.2 = some buf) ∧
      ((∀ x ∈ [sampleModel [1]] ++ [sampleModel [2]], ∃ k, exampleEnv.MKey x = .ok k ∧
          (sampleRecords.get k = [] ∨
            ∃ b buf, unpack exampleEnv (sampleRecords.get k) sampleRecords = .ok (b, buf) ∧
              x.load buf = .ok ())) →
        (Load exampleEnv ([sampleModel [1]] ++ sampleModel [3] :: [sampleModel [2]])
          sampleRecords).2 = .ok ()) :=
  Load_absent exampleEnv sampleRecords [sampleModel [1]] [sampleModel [2]] (sampleModel [3])
    [0, 1, 0, 7, 3] rfl (by decide)

end Fdbx

namespace Fdbx

/-! ## Lost entries -/

/-- C15 (amended): for every queue state and every limit, `GetLost(limit)` returns the empty
list and no error; lost entries are not read. -/
theorem GetLost_empty (env : Env) (qid : Nat) (limit : Int) (s : Store) :
    GetLost env qid limit s = .ok [] := rfl

/-- C15 as stated fails: the claim transaction moves record `[1]` of queue 9 to the lost
sub-space, no `Ack` follows, and `GetLost(1)` on the resulting state returns the empty list. -/
theorem GetLost_counterexample :
    claim exampleEnv 9 1 0 100 sampleQueue =
        .ok ([[1]], false,
          [([0, 1, 0, 9, 0, 0, 0, 0, 0, 0, 0, 200, 2], []), ([0, 1, 0, 9, 255, 1], []),
            ([0, 1, 0, 9, 255, 255], [0, 0, 0, 0, 0, 0, 0, 200])]) ∧
      lostCount exampleEnv 9 [1]
          [([0, 1, 0, 9, 0, 0, 0, 0, 0, 0, 0, 200, 2], []), ([0, 1, 0, 9, 255, 1], []),
            ([0, 1, 0, 9, 255, 255], [0, 0, 0, 0, 0, 0, 0, 200])] = 1 ∧
      GetLost exampleEnv 9 1
          [([0, 1, 0, 9, 0, 0, 0, 0, 0, 0, 0, 200, 2], []), ([0, 1, 0, 9, 255, 1], []),
            ([0, 1, 0, 9, 255, 255], [0, 0, 0, 0, 0, 0, 0, 200])] = .ok [] :=
  ⟨by decide, by decide, rfl⟩

end Fdbx

namespace Fdbx

/-! ## Subscribing: the length of the list -/

theorem claimRows_length (env : Env) (qid : Nat) : ∀ (rows : List (FdbKey × Bytes))
    (acc ids : List Bytes) (s s1 : Store),
    claimRows env qid rows acc s = .ok (ids, s1) → ids.length = acc.length + rows.length := by
  intro rows
  induction rows with
  | nil =>
    intro acc ids s s1 h
    simp only [claimRows, Except.ok.injEq, Prod.mk.injEq] at h
    simp [← h.1]
  | cons row rest ih =>
    intro acc ids s s1 h
    unfold claimRows at h
    by_cases hlen : row.1.length < 12
    · simp [hlen] at h
    · simp only [hlen, if_false] at h
      cases hk : env.Key qid (255 :: row.1.drop 12) with
      | error e => simp [hk] at h
      | ok ack =>
        simp only [hk] at h
        rw [ih _ _ _ _ h]
        simp
        omega

/-- Each claim round returns at most `limit - len(list)` ids. -/
theorem claim_length (env : Env) (qid : Nat) (limit : Int) (listLen : Nat) (now : Int)
    (s s1 : Store) (ids : List Bytes) (w : Bool) (hlt : (listLen : Int) < limit)
    (h : claim env qid limit listLen now s = .ok (ids, w, s1)) :
    (ids.length : Int) + listLen ≤ limit := by
  unfold claim at h
  split at h
  · omega
  · split at h
    · cases h
    · split at h
      · cases h
      · rename_i _ krBegin _ _ krEnd _
        dsimp only at h
        split at h
        · omega
        · split at h
          · simp only [Except.ok.injEq, Prod.mk.injEq] at h
            rw [← h.1]
            simp only [List.length_nil]
            omega
          · split at h
            · cases h
            · rename_i ids1 s2 hc
              simp only [Except.ok.injEq, Prod.mk.injEq] at h
              have hlen := claimRows_length env qid _ _ _ _ _ hc
              have hne : (limit - (listLen : Int)).toNat ≠ 0 := by omega
              have hle := getRange_length_le krBegin krEnd s hne
              rw [← h.1, hlen]
              simp only [List.length_nil, Nat.zero_add]
              omega

theorem makeModels_length (mf : Bytes → Except Err Model) : ∀ (ids : List Bytes)
    (ms : List Model), makeModels mf ids = .ok ms → ms.length = ids.length := by
  intro ids
  induction ids with
  | nil => intro ms h; simp only [makeModels, Except.ok.injEq] at h; simp [← h]
  | cons id rest ih =>
    intro ms h
    unfold makeModels at h
    cases hm : mf id with
    | error e => simp [hm] at h
    | ok m =>
      cases hr : makeModels mf rest with
      | error e => simp [hm, hr] at h
      | ok l =>
        simp only [hm, hr, Except.ok.injEq] at h
        rw [← h, List.length_cons, List.length_cons, ih l hr]

theorem Load_length (env : Env) (s : Store) (models : List Model) :
    (Load env models s).1.length = models.length := by
  have h := congrArg List.length (Load_fst env s models)
  simpa using h

/-- The list of `SubList` never grows past `limit`: when the loop returns, it holds exactly
`limit` records. -/
theorem subListLoop_length (env : Env) (qid : Nat) (punchSize : Int)
    (mf : Bytes → Except Err Model) (limit : Int) :
    ∀ (ticks : List Tick) (list : List Loaded) (wait : Bool) (s : Store)
      (out : List Loaded) (s1 : Store), (list.length : Int) ≤ limit →
      subListLoop env qid punchSize mf limit ticks list wait s = .ok (out, s1) →
      (out.length : Int) = limit := by
  intro ticks
  induction ticks with
  | nil =>
    intro list wait s out s1 hle h
    unfold subListLoop at h
    by_cases hlt : (list.length : Int) < limit
    · simp [hlt] at h
    · simp only [hlt, if_false, Except.ok.injEq, Prod.mk.injEq] at h
      rw [← h.1]
      omega
  | cons tk ticks ih =>
    intro list wait s out s1 hle h
    unfold subListLoop at h
    by_cases hlt : (list.length : Int) < limit
    · simp only [hlt, not_true_eq_false, if_false] at h
      split at h
      · cases h
      · split at h
        · cases h
        · split at h
          · cases h
          · rename_i ids watch s2 hclaim
            have hids := claim_length env qid limit list.length tk.now _ s2 ids watch hlt hclaim
            split at h
            · exact ih _ _ _ _ _ hle h
            · split at h
              · cases h
              · rename_i models hmodels
                split at h
                · cases h
                · rename_i loaded u hload
                  have h1 := makeModels_length mf ids models hmodels
                  have h2 := Load_length env s2 models
                  rw [hload] at h2
                  simp only at h2
                  refine ih _ _ _ _ _ ?_ h
                  rw [List.length_append]
                  push_cast
                  omega
    · simp only [hlt, not_false_eq_true, if_true, Except.ok.injEq, Prod.mk.injEq] at h
      rw [← h.1]
      omega

/-- C16: for every `limit >= 1`, whenever `SubList(ctx, limit)` returns without error its
result holds exactly `limit` records; each claim round run while `len(list) < limit` returns at
most `limit - len(list)` ids; the list of `SubList(ctx, 1)` is a single record, which `SubOne`
returns, and an error of `SubOne` is the error `SubList(ctx, 1)` returned, never a fault of the
access `list[0]`. -/
theorem SubList_exact (env : Env) (qid : Nat) (punchSize : Int) (mf : Bytes → Except Err Model)
    (limit : Int) (ticks : List Tick) (s : Store) (list : List Loaded) (s1 : Store)
    (hlimit : 1 ≤ limit)
    (h : SubList env qid punchSize mf limit ticks s = .ok (list, s1)) :
    (list.length : Int) = limit ∧
      (∀ (listLen : Nat) (now : Int) (st st1 : Store) (ids : List Bytes) (w : Bool),
        (listLen : Int) < limit → claim env qid limit listLen now st = .ok (ids, w, st1) →
        (ids.length : Int) + listLen ≤ limit) ∧
      (limit = 1 → ∃ m, list = [m] ∧ SubOne env qid punchSize mf ticks s = .ok (m, s1)) ∧
      (∀ e, SubOne env qid punchSize mf ticks s = .error e →
        SubList env qid punchSize mf 1 ticks s = .error e) := by
  have hlen := subListLoop_length env qid punchSize mf limit ticks [] false s list s1
    (by simp only [List.length_nil]; omega) h
  refine ⟨hlen, ?_, ?_, ?_⟩
  · intro listLen now st st1 ids w hlt hc
    exact claim_length env qid limit listLen now st st1 ids w hlt hc
  · intro h1
    subst h1
    cases list with
    | nil => simp at hlen
    | cons m rest =>
      cases rest with
      | nil => exact ⟨m, rfl, by unfold SubOne; rw [h]⟩
      | cons m2 rest => simp only [List.length_cons] at hlen; omega
  · intro e he
    unfold SubOne at he
    cases h1 : SubList env qid punchSize mf 1 ticks s with
    | error e1 => rw [h1] at he; simpa using he
    | ok r =>
      obtain ⟨l, st⟩ := r
      have hl := subListLoop_length env qid punchSize mf 1 ticks [] false s l st
        (by simp) h1
      rw [h1] at he
      cases l with
      | nil => simp at hl
      | cons m rest => cases he

/-- `SubList(ctx, 1)` on queue 9: the first round finds nothing due at clock 3 and sets the
watch, the second claims record `[1]` at clock 100. -/
theorem SubList_exact_witness :
    (([((sampleModel [1], none) : Loaded)].length : Int) = 1) ∧
      (∀ (listLen : Nat) (now : Int) (st st1 : Store) (ids : List Bytes) (w : Bool),
        (listLen : Int) < 1 → claim exampleEnv 9 1 listLen now st = .ok (ids, w, st1) →
        (ids.length : Int) + listLen ≤ 1) ∧
      ((1 : Int) = 1 → ∃ m, [((sampleModel [1], none) : Loaded)] = [m] ∧
        SubOne exampleEnv 9 60000000000 sampleFabric sampleTicks sampleQueue =
          .ok (m, [([0, 1, 0, 9, 0, 0, 0, 0, 0, 0, 0, 200, 2], []), ([0, 1, 0, 9, 255, 1], []),
            ([0, 1, 0, 9, 255, 255], [0, 0, 0, 0, 0, 0, 0, 200])])) ∧
      (∀ e, SubOne exampleEnv 9 60000000000 sampleFabric sampleTicks sampleQueue = .error e →
        SubList exampleEnv 9 60000000000 sampleFabric 1 sampleTicks sampleQueue = .error e) :=
  SubList_exact exampleEnv 9 60000000000 sampleFabric 1 sampleTicks sampleQueue
    [(sampleModel [1], none)]
    [([0, 1, 0, 9, 0, 0, 0, 0, 0, 0, 0, 200, 2], []), ([0, 1, 0, 9, 255, 1], []),
      ([0, 1, 0, 9, 255, 255], [0, 0, 0, 0, 0, 0, 0, 200])]
    (by decide) rfl

end Fdbx

namespace Fdbx

/-! ## `unpack` on an empty value -/

/-- C17 fails on the code: `unpack` of the empty value faults on `value[0]`, in every
environment, whereas `load` and `drop` return `nil` for an empty value without calling `unpack`.
`Save` writes the index entry of a record with an empty value, and `Select` over the index
collection, or over a queue collection, faults on it. -/
theorem unpack_empty_faults :
    (∀ (env : Env) (s : Store), unpack env [] s = .error .outOfRange) ∧
      (∀ (env : Env) (m : Model) (s : Store),
        load env m [] s = (none, .ok ()) ∧ drop env m [] s = .ok s) ∧
      Save (sampleEnv 100000 860 sampleIndexes) [(sampleBlobID, sampleRecord [] [5, 6])] [] =
        .ok sampleIndexed ∧
      Select (sampleEnv 100000 860 sampleIndexes) 8 sampleFabric [] sampleIndexed =
        .error .outOfRange ∧
      Select exampleEnv 9 sampleFabric [] sampleQueue = .error .outOfRange :=
  ⟨fun _ _ => rfl, fun _ _ _ => ⟨rfl, rfl⟩, by decide, rfl, rfl⟩

end Fdbx

namespace Fdbx

/-! ## The watch key and the lost keys -/

theorem claimRows_acc (env : Env) (qid : Nat) : ∀ (rows : List (FdbKey × Bytes))
    (acc ids : List Bytes) (s s1 : Store),
    claimRows env qid rows acc s = .ok (ids, s1) → ∀ x ∈ acc, x ∈ ids := by
  intro rows
  induction rows with
  | nil =>
    intro acc ids s s1 h x hx
    simp only [claimRows, Except.ok.injEq, Prod.mk.injEq] at h
    rw [← h.1]
    exact hx
  | cons row rest ih =>
    intro acc ids s s1 h x hx
    unfold claimRows at h
    split at h
    · cases h
    · dsimp only at h
      split at h
      · cases h
      · exact ih _ _ _ _ h x (List.mem_append_left _ hx)

theorem watchKey_length (env : Env) (qid : Nat) : (env.watchKey qid).length = 6 := by
  simp [Env.watchKey, be16]

/-- The loop of the claim transaction leaves the value of the watch key alone when none of the
ids it returns is the single byte `0xFF`. -/
theorem claimRows_watch (env : Env) (qid : Nat) : ∀ (rows : List (FdbKey × Bytes))
    (acc ids : List Bytes) (s s1 : Store),
    claimRows env qid rows acc s = .ok (ids, s1) → (∀ id ∈ ids, id ≠ [255]) →
    s1.lookup (env.watchKey qid) = s.lookup (env.watchKey qid) := by
  intro rows
  induction rows with
  | nil =>
    intro acc ids s s1 h _
    simp only [claimRows, Except.ok.injEq, Prod.mk.injEq] at h
    rw [← h.2]
  | cons row rest ih =>
    intro acc ids s s1 h hids
    unfold claimRows at h
    split at h
    · cases h
    · rename_i hlen
      have hne : (255 :: row.1.drop 12 : Bytes) ≠ [] := by simp
      dsimp only at h
      rw [Env.Key_ok env qid hne] at h
      simp only at h
      have hmid : row.1.drop 12 ≠ [255] :=
        hids _ (claimRows_acc env qid _ _ _ _ _ h _ (by simp))
      have hrow : env.watchKey qid ≠ row.1 := by
        intro heq
        have := watchKey_length env qid
        rw [heq] at this
        omega
      rw [ih _ _ _ _ h hids, Store.lookup_clear_other _ hrow]
      exact Store.lookup_set_other _ _ (lostKey_ne_watchKey env qid hmid).symm

theorem claim_watch (env : Env) (qid : Nat) (limit : Int) (listLen : Nat) (now : Int)
    (s s1 : Store) (ids : List Bytes) (w : Bool)
    (h : claim env qid limit listLen now s = .ok (ids, w, s1))
    (hids : ∀ x ∈ ids, x ≠ [255]) :
    s1.lookup (env.watchKey qid) = s.lookup (env.watchKey qid) := by
  unfold claim at h
  split at h
  · cases h
  · split at h
    · cases h
    · split at h
      · cases h
      · dsimp only at h
        split at h
        · simp only [Except.ok.injEq, Prod.mk.injEq] at h
          rw [← h.2.2]
        · split at h
          · simp only [Except.ok.injEq, Prod.mk.injEq] at h
            rw [← h.2.2]
          · split at h
            · cases h
            · rename_i ids1 s2 hc
              simp only [Except.ok.injEq, Prod.mk.injEq] at h
              rw [← h.2.2]
              exact claimRows_watch env qid _ _ _ _ _ hc (by rw [h.1]; exact hids)

/-- C18 (amended): for every record id other than the single byte `0xFF`, the lost key
`(QCTYPE, 0xFF ‖ id)` is different from the watch key `(QCTYPE, 0xFF 0xFF)`; `Ack` of a record
with such an id clears the lost key and leaves the value of the watch key as it was, and so does
a claim transaction none of whose claimed ids is the single byte `0xFF`. -/
theorem lostKey_watch (env : Env) (qid : Nat) (id : Bytes) (hid : id ≠ [255]) :
    env.lostKey qid id ≠ env.watchKey qid ∧
      (∀ (s : Store) (m : Model), m.id = id →
        Ack env qid (some s) (some m) = .ok (s.clear (env.lostKey qid id)) ∧
          (s.clear (env.lostKey qid id)).lookup (env.watchKey qid) =
            s.lookup (env.watchKey qid)) ∧
      (∀ (limit : Int) (listLen : Nat) (now : Int) (s s1 : Store) (ids : List Bytes) (w : Bool),
        claim env qid limit listLen now s = .ok (ids, w, s1) → (∀ x ∈ ids, x ≠ [255]) →
        s1.lookup (env.watchKey qid) = s.lookup (env.watchKey qid)) := by
  have hne := lostKey_ne_watchKey env qid hid
  refine ⟨hne, ?_, ?_⟩
  · intro s m hm
    refine ⟨?_, Store.lookup_clear_other _ hne.symm⟩
    have hk : (255 :: m.id : Bytes) ≠ [] := by simp
    simp only [Ack, Del, Env.Key_ok env qid hk, hm]
    rfl
  · intro limit listLen now s s1 ids w h hids
    exact claim_watch env qid limit listLen now s s1 ids w h hids

/-- Record id `[1]` in queue 9 of database 1. -/
theorem lostKey_watch_witness :
    exampleEnv.lostKey 9 [1] ≠ exampleEnv.watchKey 9 ∧
      (∀ (s : Store) (m : Model), m.id = [1] →
        Ack exampleEnv 9 (some s) (some m) = .ok (s.clear (exampleEnv.lostKey 9 [1])) ∧
          (s.clear (exampleEnv.lostKey 9 [1])).lookup (exampleEnv.watchKey 9) =
            s.lookup (exampleEnv.watchKey 9)) ∧
      (∀ (limit : Int) (listLen : Nat) (now : Int) (s s1 : Store) (ids : List Bytes) (w : Bool),
        claim exampleEnv 9 limit listLen now s = .ok (ids, w, s1) → (∀ x ∈ ids, x ≠ [255]) →
        s1.lookup (exampleEnv.watchKey 9) = s.lookup (exampleEnv.watchKey 9)) :=
  lostKey_watch exampleEnv 9 [1] (by decide)

/-- C18 as stated fails for the record id `[0xFF]`: its lost key is the watch key; `Ack` of
that record deletes the watch key of queue 9, and the claim transaction that moves a pending
entry of that record to the lost sub-space overwrites the watch key with the empty value. -/
theorem lostKey_watch_counterexample :
    exampleEnv.lostKey 9 [255] = exampleEnv.watchKey 9 ∧
      sampleQueue.lookup (exampleEnv.watchKey 9) = some [0, 0, 0, 0, 0, 0, 0, 200] ∧
      Ack exampleEnv 9 (some sampleQueue) (some (sampleModel [255])) =
        .ok [([0, 1, 0, 9, 0, 0, 0, 0, 0, 0, 0, 5, 1], []),
          ([0, 1, 0, 9, 0, 0, 0, 0, 0, 0, 0, 200, 2], [])] ∧
      Pub exampleEnv 9 (some []) (some (sampleModel [255])) ⟨false, 5⟩ 0 =
        .ok [([0, 1, 0, 9, 0, 0, 0, 0, 0, 0, 0, 5, 255], []),
          ([0, 1, 0, 9, 255, 255], [0, 0, 0, 0, 0, 0, 0, 5])] ∧
      claim exampleEnv 9 1 0 100
          [([0, 1, 0, 9, 0, 0, 0, 0, 0, 0, 0, 5, 255], []),
            ([0, 1, 0, 9, 255, 255], [0, 0, 0, 0, 0, 0, 0, 5])] =
        .ok ([[255]], false, [([0, 1, 0, 9, 255, 255], [])]) := by
  decide

end Fdbx

namespace Fdbx

/-! ## Clearing a database -/

/-- A key that does not start with the two bytes of `DBNUM` lies outside the range that
`ClearAll` clears. -/
theorem not_inRange_other_db (d : Nat) (k : FdbKey) (h : k.take 2 ≠ be16 d) :
    Store.inRange (be16 d) (be16 d ++ be16 65535 ++ [255]) k = false := by
  unfold Store.inRange be16 at *
  match k, h with
  | [], _ => simp [keyLt]
  | [x], _ =>
    simp only [keyLt, List.cons_append, List.nil_append]
    by_cases h1 : x < d / 256 % 256
    · simp [h1]
    · by_cases h2 : x = d / 256 % 256
      · simp [h2]
      · simp [h1, h2]
  | x :: y :: rest, h =>
    have h : x = d / 256 % 256 → y ≠ d % 256 := by
      intro hx hy
      apply h
      simp [hx, hy]
    simp only [keyLt, List.cons_append, List.nil_append]
    by_cases h1 : x < d / 256 % 256
    · simp [h1]
    · by_cases h2 : x = d / 256 % 256
      · have h3 := h h2
        by_cases h4 : y < d % 256
        · simp [h2, h4]
        · simp [h2, h3, h4]
      · simp [h1, h2]

/-- C19 fails on the code. `ClearAll` leaves every key of another `DBNUM` unchanged, but its
range ends at `DBNUM ‖ 0xFFFF ‖ 0xFF`: after `Save` of a record of database 1 whose payload is
chunked under a blob id that starts with `0xFF`, `ClearAll` clears the primary key and leaves
both chunk keys, whose first two bytes are the `DBNUM`. -/
theorem ClearAll_leaves_chunks :
    (∀ (env : Env) (s : Store) (k : FdbKey), k.take 2 ≠ be16 env.dbnum →
      ∃ s1, ClearAll env s = .ok s1 ∧ s1.lookup k = s.lookup k) ∧
      Save (sampleEnv 2 1000000 (fun _ => [])) [(sampleBlobID3, sampleRecord [] [7, 8, 9])]
          [([0, 2, 0, 7, 1], [0, 1])] =
        .ok [([0, 1, 0, 7, 1], [128, 255, 1, 2, 3, 4, 5, 64, 7, 128, 9, 10, 11, 12, 13, 14, 15]),
          ([0, 1, 255, 255, 255, 1, 2, 3, 4, 5, 64, 7, 128, 9, 10, 11, 12, 13, 14, 15, 0, 0],
            [7, 8]),
          ([0, 1, 255, 255, 255, 1, 2, 3, 4, 5, 64, 7, 128, 9, 10, 11, 12, 13, 14, 15, 0, 1],
            [9]),
          ([0, 2, 0, 7, 1], [0, 1])] ∧
      ClearAll (sampleEnv 2 1000000 (fun _ => []))
          [([0, 1, 0, 7, 1], [128, 255, 1, 2, 3, 4, 5, 64, 7, 128, 9, 10, 11, 12, 13, 14, 15]),
            ([0, 1, 255, 255, 255, 1, 2, 3, 4, 5, 64, 7, 128, 9, 10, 11, 12, 13, 14, 15, 0, 0],
              [7, 8]),
            ([0, 1, 255, 255, 255, 1, 2, 3, 4, 5, 64, 7, 128, 9, 10, 11, 12, 13, 14, 15, 0, 1],
              [9]),
            ([0, 2, 0, 7, 1], [0, 1])] =
        .ok [([0, 1, 255, 255, 255, 1, 2, 3, 4, 5, 64, 7, 128, 9, 10, 11, 12, 13, 14, 15, 0, 0],
            [7, 8]),
          ([0, 1, 255, 255, 255, 1, 2, 3, 4, 5, 64, 7, 128, 9, 10, 11, 12, 13, 14, 15, 0, 1],
            [9]),
          ([0, 2, 0, 7, 1], [0, 1])] := by
  refine ⟨?_, by decide, by decide⟩
  intro env s k hk
  refine ⟨_, rfl, ?_⟩
  unfold Store.clearRange
  exact Store.lookup_filter_key
    (fun x => !Store.inRange (be16 env.dbnum) (be16 env.dbnum ++ be16 65535 ++ [255]) x) k s
    (by simp only [not_inRange_other_db env.dbnum k hk, Bool.not_false])

end Fdbx

namespace Fdbx

/-! ## The chunking loop ends -/

theorem specChunkCount_drop (cs : Nat) (blob : Bytes) (hcs : 1 ≤ cs) (hlen : cs < blob.length) :
    specChunkCount cs (blob.drop cs) + 1 = specChunkCount cs blob := by
  unfold specChunkCount
  rw [List.length_drop]
  have h : blob.length - 1 = (blob.length - cs - 1) + cs := by omega
  rw [h, Nat.add_div_right _ (by omega : 0 < cs)]

theorem specChunkCount_pos (cs : Nat) (blob : Bytes) : 1 ≤ specChunkCount cs blob := by
  unfold specChunkCount
  exact Nat.le_add_left 1 _

theorem saveBlobLoop_step (env : Env) (key : FdbKey) (fuel i : Nat) (blob : Bytes) (s : Store)
    (hcs : 1 ≤ env.ChunkSize) (hlen : env.ChunkSize < blob.length) :
    saveBlobLoop env key (fuel + 1) i blob s =
      saveBlobLoop env key fuel ((i + 1) % 65536) (blob.drop env.ChunkSize.toNat)
        (s.set (key ++ be16 i) (blob.take env.ChunkSize.toNat)) := by
  rw [saveBlobLoop]
  have h1 : ¬ ((blob.length : Int) ≤ env.ChunkSize) := by omega
  have h2 : ¬ (env.ChunkSize < 0) := by omega
  simp only [h1, h2, if_false]

theorem saveBlobLoop_last (env : Env) (key : FdbKey) (fuel i : Nat) (blob : Bytes) (s : Store)
    (hlen : (blob.length : Int) ≤ env.ChunkSize) :
    saveBlobLoop env key (fuel + 1) i blob s = .ok (s.set (key ++ be16 i) blob) := by
  rw [saveBlobLoop]
  simp only [hlen, if_true]

/-- With as many units of fuel as the blob has chunks the loop returns. -/
theorem saveBlobLoop_returns (env : Env) (key : FdbKey) (hcs : 1 ≤ env.ChunkSize) :
    ∀ (fuel i : Nat) (blob : Bytes) (s : Store),
      specChunkCount env.ChunkSize.toNat blob ≤ fuel →
      ∃ s1, saveBlobLoop env key fuel i blob s = .ok s1 := by
  intro fuel
  induction fuel with
  | zero =>
    intro i blob s h
    have := specChunkCount_pos env.ChunkSize.toNat blob
    omega
  | succ fuel ih =>
    intro i blob s h
    by_cases hlen : (blob.length : Int) ≤ env.ChunkSize
    · exact ⟨_, saveBlobLoop_last env key fuel i blob s hlen⟩
    · have hlt : env.ChunkSize < blob.length := by omega
      rw [saveBlobLoop_step env key fuel i blob s hcs hlt]
      apply ih
      have := specChunkCount_drop env.ChunkSize.toNat blob (by omega) (by omega)
      omega

/-- With fewer units of fuel than the blob has chunks the loop is cut short. -/
theorem saveBlobLoop_short (env : Env) (key : FdbKey) (hcs : 1 ≤ env.ChunkSize) :
    ∀ (fuel i : Nat) (blob : Bytes) (s : Store),
      fuel < specChunkCount env.ChunkSize.toNat blob →
      saveBlobLoop env key fuel i blob s = .error .diverges := by
  intro fuel
  induction fuel with
  | zero => intro i blob s _; rfl
  | succ fuel ih =>
    intro i blob s h
    by_cases hlen : (blob.length : Int) ≤ env.ChunkSize
    · have h1 : specChunkCount env.ChunkSize.toNat blob = 1 := by
        unfold specChunkCount
        have : (blob.length - 1) / env.ChunkSize.toNat = 0 :=
          Nat.div_eq_of_lt (by omega)
        omega
      omega
    · have hlt : env.ChunkSize < blob.length := by omega
      rw [saveBlobLoop_step env key fuel i blob s hcs hlt]
      apply ih
      have := specChunkCount_drop env.ChunkSize.toNat blob (by omega) (by omega)
      omega

theorem specChunkCount_eq_max (cs : Nat) (blob : Bytes) (hcs : 1 ≤ cs) :
    specChunkCount cs blob = max 1 ((blob.length + cs - 1) / cs) := by
  rw [specChunkCount_eq_ceil cs blob hcs]
  by_cases h0 : blob.length = 0
  · have : (blob.length + cs - 1) / cs = 0 := Nat.div_eq_of_lt (by omega)
    rw [this]
    simp [h0]
  · have h1 : 1 ≤ (blob.length + cs - 1) / cs := by
      rw [Nat.le_div_iff_mul_le (by omega)]
      omega
    simp only [h0, if_false]
    omega

/-- C20: for every blob and every `ChunkSize >= 1` the chunking loop of `saveBlob` ends after
`max(1, ceil(len(blob) / ChunkSize))` iterations: with that many units of fuel, one per
iteration, it returns, and with fewer it is cut short. An iteration that is not the last
(`len(blob) > ChunkSize`) goes on with a strictly shorter remaining blob. `saveBlob` itself
returns for every blob id that gives a key. -/
theorem saveBlob_terminates (env : Env) (key : FdbKey) (i : Nat) (blob : Bytes) (s : Store)
    (hcs : 1 ≤ env.ChunkSize) :
    (∀ fuel, max 1 ((blob.length + env.ChunkSize.toNat - 1) / env.ChunkSize.toNat) ≤ fuel →
        ∃ s1, saveBlobLoop env key fuel i blob s = .ok s1) ∧
      (∀ fuel, fuel < max 1 ((blob.length + env.ChunkSize.toNat - 1) / env.ChunkSize.toNat) →
        saveBlobLoop env key fuel i blob s = .error .diverges) ∧
      (env.ChunkSize < blob.length → ∀ fuel,
        saveBlobLoop env key (fuel + 1) i blob s =
            saveBlobLoop env key fuel ((i + 1) % 65536) (blob.drop env.ChunkSize.toNat)
              (s.set (key ++ be16 i) (blob.take env.ChunkSize.toNat)) ∧
          (blob.drop env.ChunkSize.toNat).length < blob.length) ∧
      (∀ (blobID : Bytes) (flags : Nat), blobID ≠ [] →
        ∃ r, saveBlob env blobID flags blob s = .ok r) := by
  have hcs1 : 1 ≤ env.ChunkSize.toNat := by omega
  have hcount := specChunkCount_eq_max env.ChunkSize.toNat blob hcs1
  refine ⟨?_, ?_, ?_, ?_⟩
  · intro fuel hf
    exact saveBlobLoop_returns env key hcs fuel i blob s (by omega)
  · intro fuel hf
    exact saveBlobLoop_short env key hcs fuel i blob s (by omega)
  · intro hlen fuel
    refine ⟨saveBlobLoop_step env key fuel i blob s hcs hlen, ?_⟩
    rw [List.length_drop]
    omega
  · intro blobID flags hid
    have hfuel : specChunkCount env.ChunkSize.toNat blob ≤ blob.length + 1 := by
      unfold specChunkCount
      have := Nat.div_le_self (blob.length - 1) env.ChunkSize.toNat
      omega
    obtain ⟨s1, h1⟩ := saveBlobLoop_returns env (be16 env.dbnum ++ be16 env.ChunkType ++ blobID)
      hcs (blob.length + 1) 0 blob s hfuel
    exact ⟨(flags ||| flagChunk, blobID, s1),
      by simp only [saveBlob, Env.Key_ok env env.ChunkType hid, h1]⟩

/-- A blob of three bytes with `ChunkSize = 2`: two iterations. -/
theorem saveBlob_terminates_witness :
    (∀ fuel, max 1 (([7, 8, 9].length +
          (sampleEnv 2 1000000 (fun _ => [])).ChunkSize.toNat - 1) /
          (sampleEnv 2 1000000 (fun _ => [])).ChunkSize.toNat) ≤ fuel →
        ∃ s1, saveBlobLoop (sampleEnv 2 1000000 (fun _ => [])) [0, 1, 255, 255, 5] fuel 0
          [7, 8, 9] [] = .ok s1) ∧
      (∀ fuel, fuel < max 1 (([7, 8, 9].length +
          (sampleEnv 2 1000000 (fun _ => [])).ChunkSize.toNat - 1) /
          (sampleEnv 2 1000000 (fun _ => [])).ChunkSize.toNat) →
        saveBlobLoop (sampleEnv 2 1000000 (fun _ => [])) [0, 1, 255, 255, 5] fuel 0
          [7, 8, 9] [] = .error .diverges) ∧
      ((sampleEnv 2 1000000 (fun _ => [])).ChunkSize < ([7, 8, 9] : Bytes).length → ∀ fuel,
        saveBlobLoop (sampleEnv 2 1000000 (fun _ => [])) [0, 1, 255, 255, 5] (fuel + 1) 0
            [7, 8, 9] [] =
          saveBlobLoop (sampleEnv 2 1000000 (fun _ => [])) [0, 1, 255, 255, 5] fuel
            ((0 + 1) % 65536)
            (([7, 8, 9] : Bytes).drop (sampleEnv 2 1000000 (fun _ => [])).ChunkSize.toNat)
            (Store.set ([0, 1, 255, 255, 5] ++ be16 0)
              (([7, 8, 9] : Bytes).take (sampleEnv 2 1000000 (fun _ => [])).ChunkSize.toNat)
              []) ∧
          (([7, 8, 9] : Bytes).drop (sampleEnv 2 1000000 (fun _ => [])).ChunkSize.toNat).length <
            ([7, 8, 9] : Bytes).length) ∧
      (∀ (blobID : Bytes) (flags : Nat), blobID ≠ [] →
        ∃ r, saveBlob (sampleEnv 2 1000000 (fun _ => [])) blobID flags [7, 8, 9] [] = .ok r) :=
  saveBlob_terminates (sampleEnv 2 1000000 (fun _ => [])) [0, 1, 255, 255, 5] 0 [7, 8, 9] []
    (by decide)

end Fdbx
